import Mathlib

/-!
# Left-leaning red-black multimap (`Map and Multimap/llrb_multimap.h`)

A shallow embedding of `LLRB_multimap<K, V>`.  A `std::unique_ptr<Node>` is a value of
`Node K V`, the null pointer being `Node.nil`.  Reading a field through a null pointer is
undefined behaviour in the source; here every such access goes through `left?` / `right?`
(or a pattern match) and yields `none`.  The recursive `Remove` and `DeleteMin` re-enter a
subtree that was rotated just before, so they carry a fuel argument; the public `Remove`
supplies the number of nodes of the tree.
-/

namespace LLRB

/-- The two link colours: `enum Color { RED, BLACK }`, stored in `bool color`. -/
inductive Color where
  | RED
  | BLACK
  deriving DecidableEq, Repr

/-- The colour toggle `!n->color` (RED is 0, BLACK is 1). -/
def Color.flip : Color → Color
  | .RED => .BLACK
  | .BLACK => .RED

/-- A possibly missing node: `nil` is the null pointer, `node` holds the fields of
`struct Node` (key, value vector, colour, left and right child). -/
inductive Node (K V : Type) where
  | nil : Node K V
  | node (key : K) (values : List V) (color : Color) (left right : Node K V) : Node K V
  deriving DecidableEq, Repr

/-- Width of `unsigned int`, the type of `cur_size`. -/
def uintBits : Nat := 32

/-- Number of values of `unsigned int`. -/
def uintMod : Nat := 2 ^ uintBits

namespace Node

variable {K V : Type}

/-- Access `n->left`; `none` when `n` is null. -/
def left? : Node K V → Option (Node K V)
  | nil => none
  | node _ _ _ l _ => some l

/-- Access `n->right`; `none` when `n` is null. -/
def right? : Node K V → Option (Node K V)
  | nil => none
  | node _ _ _ _ r => some r

/-- Assignment `n->left = l`; `none` when `n` is null. -/
def setLeft? : Node K V → Node K V → Option (Node K V)
  | nil, _ => none
  | node k vs c _ r, l => some (node k vs c l r)

/-- Assignment `n->right = r`; `none` when `n` is null. -/
def setRight? : Node K V → Node K V → Option (Node K V)
  | nil, _ => none
  | node k vs c l _, r => some (node k vs c l r)

/-- Number of nodes of a subtree. -/
def size : Node K V → Nat
  | nil => 0
  | node _ _ _ l r => size l + 1 + size r

/-- The null test `!n`. -/
def isNil : Node K V → Bool
  | nil => true
  | node _ _ _ _ _ => false

/-- `IsRed(Node *n)`: a missing node is not red. -/
def IsRed : Node K V → Bool
  | nil => false
  | node _ _ c _ _ => decide (c = Color.RED)

/-- `FlipColors(Node *n)`: toggles the colour of `n` and of both children. -/
def FlipColors : Node K V → Option (Node K V)
  | node k vs c (node lk lvs lc ll lr) (node rk rvs rc rl rr) =>
      some (node k vs c.flip (node lk lvs lc.flip ll lr) (node rk rvs rc.flip rl rr))
  | _ => none

/-- `RotateRight(std::unique_ptr<Node> &prt)`. -/
def RotateRight : Node K V → Option (Node K V)
  | node k vs c (node lk lvs _ ll lr) r =>
      some (node lk lvs c ll (node k vs Color.RED lr r))
  | _ => none

/-- `RotateLeft(std::unique_ptr<Node> &prt)`. -/
def RotateLeft : Node K V → Option (Node K V)
  | node k vs c l (node rk rvs _ rl rr) =>
      some (node rk rvs c (node k vs Color.RED l rl) rr)
  | _ => none

/-- `FixUp(std::unique_ptr<Node> &n)`: the three tests in source order, each on the
result of the previous step; `&&` evaluates its right operand only when needed. -/
def FixUp (n : Node K V) : Option (Node K V) := do
  let r ← n.right?
  let l ← n.left?
  let n ← if IsRed r && !IsRed l then RotateLeft n else pure n
  let l ← n.left?
  let leftLeftRed ← if IsRed l then (do let ll ← l.left?; pure (IsRed ll)) else pure false
  let n ← if leftLeftRed then RotateRight n else pure n
  let l ← n.left?
  let r ← n.right?
  if IsRed l && IsRed r then FlipColors n else pure n

/-- `MoveRedRight(std::unique_ptr<Node> &n)`. -/
def MoveRedRight (n : Node K V) : Option (Node K V) := do
  let n ← FlipColors n
  let l ← n.left?
  let ll ← l.left?
  if IsRed ll then
    let n ← RotateRight n
    FlipColors n
  else pure n

/-- `MoveRedLeft(std::unique_ptr<Node> &n)`. -/
def MoveRedLeft (n : Node K V) : Option (Node K V) := do
  let n ← FlipColors n
  let r ← n.right?
  let rl ← r.left?
  if IsRed rl then
    let r ← RotateRight r
    let n ← n.setRight? r
    let n ← RotateLeft n
    FlipColors n
  else pure n

/-- The test `!IsRed(c) && !IsRed(c->left)` made before descending into child `c`. -/
def needsMove (c : Node K V) : Option Bool :=
  if IsRed c then pure false else do
    let cl ← c.left?
    pure (!IsRed cl)

/-- `Min(Node *n)`: the leftmost node of the subtree. -/
def Min : Node K V → Option (Node K V)
  | nil => none
  | node k vs c nil r => some (node k vs c nil r)
  | node _ _ _ (node lk lvs lc ll lr) _ => Min (node lk lvs lc ll lr)

/-- `DeleteMin(std::unique_ptr<Node> &n)`. -/
def DeleteMin : Nat → Node K V → Option (Node K V)
  | _, nil => none
  | _, node _ _ _ nil _ => some nil
  | 0, node _ _ _ (node _ _ _ _ _) _ => none
  | fuel + 1, node k vs c (node lk lvs lc ll lr) r => do
      let n := node k vs c (node lk lvs lc ll lr) r
      let move ← needsMove (node lk lvs lc ll lr)
      let n ← if move then MoveRedLeft n else pure n
      let l ← n.left?
      let l ← DeleteMin fuel l
      let n ← n.setLeft? l
      FixUp n

/-- The loop `for (i = 0; i < vals->size() - 1; i++) vals->at(i) = vals->at(i + 1);`
started at index `i`.  The index is taken as a natural number.  The source declares it
`unsigned int`; the two agree on every list of at most `uintMod` values, where the index
reaches `size() - 1` before it can wrap (`shiftLoopU` below keeps the wrap-around). -/
def shiftLoop : Nat → Nat → List V → Option (List V)
  | 0, i, vals => if i < vals.length - 1 then none else some vals
  | fuel + 1, i, vals =>
      if i < vals.length - 1 then
        match vals[i + 1]? with
        | some x => if i < vals.length then shiftLoop fuel (i + 1) (vals.set i x) else none
        | none => none
      else some vals

/-- The front value is dropped: shift every value one place down, then `pop_back()`. -/
def dropFront (vals : List V) : Option (List V) :=
  (shiftLoop vals.length 0 vals).map List.dropLast

/-- The same loop with the index as the source declares it: `unsigned int i`, so `i++`
and `i + 1` wrap at `uintMod`, and the test compares it with the `size_t` value
`vals->size() - 1`.  Running out of fuel is `none`. -/
def shiftLoopU : Nat → Nat → List V → Option (List V)
  | 0, i, vals => if i < vals.length - 1 then none else some vals
  | fuel + 1, i, vals =>
      if i < vals.length - 1 then
        match vals[(i + 1) % uintMod]? with
        | some x =>
            if i < vals.length then shiftLoopU fuel ((i + 1) % uintMod) (vals.set i x) else none
        | none => none
      else some vals

/-- The front value is dropped, with the index of the loop an `unsigned int`. -/
def dropFrontU (vals : List V) : Option (List V) :=
  (shiftLoopU vals.length 0 vals).map List.dropLast

/-- In-order traversal: the (key, value list) pairs from left to right. -/
def inorder : Node K V → List (K × List V)
  | nil => []
  | node k vs _ l r => inorder l ++ (k, vs) :: inorder r

/-- Keys in in-order. -/
def keys (t : Node K V) : List K := (inorder t).map Prod.fst

/-- Number of black nodes on the leftmost path to a missing child. -/
def bh : Node K V → Nat
  | nil => 0
  | node _ _ c l _ => bh l + (if c = Color.BLACK then 1 else 0)

/-- Number of nodes on the longest path from the root to a missing child. -/
def height : Node K V → Nat
  | nil => 0
  | node _ _ _ l r => max (height l) (height r) + 1

/-- For every path from the root to a missing child, its number of black nodes. -/
def blackCounts : Node K V → List Nat
  | nil => [0]
  | node _ _ c l r =>
      (blackCounts l ++ blackCounts r).map (fun x => x + (if c = Color.BLACK then 1 else 0))

/-- Black balance: all paths from the root to a missing child have the same number of
black nodes. -/
def BlackBalanced (t : Node K V) : Prop :=
  ∀ a ∈ blackCounts t, ∀ b ∈ blackCounts t, a = b

/-- Left-leaning colouring: no node has a red right child, no red node has a red left
child. -/
def LeftLeaning : Node K V → Prop
  | nil => True
  | node _ _ c l r =>
      IsRed r = false ∧ (c = Color.RED → IsRed l = false) ∧ LeftLeaning l ∧ LeftLeaning r

/-- The colouring and balance conditions together, in recursive form: both subtrees are
valid and have the same black height, the right child is not red, a red node has no red
left child. -/
def Valid : Node K V → Prop
  | nil => True
  | node _ _ c l r =>
      Valid l ∧ Valid r ∧ bh l = bh r ∧ IsRed r = false ∧ (c = Color.RED → IsRed l = false)

/-- Every node holds at least one value. -/
def ValuesNonempty : Node K V → Prop
  | nil => True
  | node _ vs _ l r => vs ≠ [] ∧ ValuesNonempty l ∧ ValuesNonempty r

/-- Total number of values stored in the subtree. -/
def totalValues : Node K V → Nat
  | nil => 0
  | node _ vs _ l r => totalValues l + vs.length + totalValues r

instance decBlackBalanced (t : Node K V) : Decidable (BlackBalanced t) := by
  unfold BlackBalanced
  exact inferInstance

/-- Decision procedure for `LeftLeaning`. -/
def decLeftLeaning : (t : Node K V) → Decidable (LeftLeaning t)
  | nil => isTrue trivial
  | node _ _ _ l r =>
      have := decLeftLeaning l
      have := decLeftLeaning r
      by unfold LeftLeaning; exact inferInstance

instance (t : Node K V) : Decidable (LeftLeaning t) := decLeftLeaning t

/-- Decision procedure for `Valid`. -/
def decValid : (t : Node K V) → Decidable (Valid t)
  | nil => isTrue trivial
  | node _ _ _ l r =>
      have := decValid l
      have := decValid r
      by unfold Valid; exact inferInstance

instance (t : Node K V) : Decidable (Valid t) := decValid t

/-- `GetAll(Node *n)`: the values of the right subtree are collected first, then those of
the left subtree; the result lists the left values, the right values, then the values of
the node itself. -/
def GetAll : Node K V → List V
  | nil => []
  | node _ vs _ l r =>
      let right := GetAll r
      let left := GetAll l
      left ++ right ++ vs

/-- The loop of `Max()`: `while (n->right) n = n->right.get();`.  Reading `n->right`
through a null pointer gives `none`. -/
def maxLoop : Node K V → Option (Node K V)
  | nil => none
  | node k vs c l nil => some (node k vs c l nil)
  | node _ _ _ _ (node rk rvs rc rl rr) => maxLoop (node rk rvs rc rl rr)

/-- All stored values, node by node in key order. -/
def allValues : Node K V → List V
  | nil => []
  | node _ vs _ l r => allValues l ++ vs ++ allValues r

/-- The structure of a tree without its values: shape, key and colour of every node. -/
def skeleton : Node K V → Node K Unit
  | nil => nil
  | node k _ c l r => node k [] c (skeleton l) (skeleton r)

/-- Whether the left child exists and is red. -/
def leftRed : Node K V → Bool
  | nil => false
  | node _ _ _ l _ => IsRed l

/-- Whether the right child exists and is red. -/
def rightRed : Node K V → Bool
  | nil => false
  | node _ _ _ _ r => IsRed r

/-- Whether the left child of the left child exists and is red. -/
def leftLeftRed : Node K V → Bool
  | node _ _ _ (node _ _ _ ll _) _ => IsRed ll
  | _ => false

/-- Step (a) of the description of `FixUp`: if only the right child is red, rotate
left. -/
def fixStepA (n : Node K V) : Option (Node K V) :=
  if rightRed n && !leftRed n then RotateLeft n else some n

/-- Step (b) of the description of `FixUp`: if the left child and the left-left
grandchild are both red, rotate right. -/
def fixStepB (n : Node K V) : Option (Node K V) :=
  if leftRed n && leftLeftRed n then RotateRight n else some n

/-- Step (c) of the description of `FixUp`: if both children are red, flip colours. -/
def fixStepC (n : Node K V) : Option (Node K V) :=
  if leftRed n && rightRed n then FlipColors n else some n

/-- The description of `FixUp`: the three steps in the order (a), (b), (c), each applied
to the result of the previous one. -/
def FixUpSteps (n : Node K V) : Option (Node K V) :=
  (fixStepA n).bind (fun a => (fixStepB a).bind fixStepC)

/-- The assignment `root->color = BLACK` on a root that may be missing. -/
def paintBlack : Node K V → Node K V
  | nil => nil
  | node k vs _ l r => node k vs Color.BLACK l r

/-- A red node with a red left child over valid subtrees of equal black height: the one
defect the recursive `Insert` may leave at the top of a subtree whose root was red. -/
def RedRed : Node K V → Prop
  | node _ _ Color.RED (node lk lvs Color.RED ll lr) r =>
      Valid (node lk lvs Color.RED ll lr) ∧ Valid r ∧ bh ll = bh r ∧ IsRed r = false
  | _ => False

/-- Entry condition of the recursive deletions: a valid subtree whose root or whose left
child is red. -/
def RedTop (t : Node K V) : Prop := Valid t ∧ (IsRed t || leftRed t) = true

variable [LinearOrder K]

/-- `Get(Node *n, const K &key)`: the node holding `key`, or null. -/
def Get : Node K V → K → Node K V
  | nil, _ => nil
  | node k vs c l r, key =>
      if key = k then node k vs c l r
      else if key < k then Get l key
      else Get r key

/-- The value list stored under `key`, found by the search of `Get`; `none` when `Get`
returns null. -/
def valuesOf (t : Node K V) (key : K) : Option (List V) :=
  match Get t key with
  | nil => none
  | node _ vs _ _ _ => some vs

/-- Search-tree ordering in recursive form: every key of the left subtree is below the
node key, every key of the right subtree above it. -/
def SearchTree : Node K V → Prop
  | nil => True
  | node k _ _ l r =>
      (∀ x ∈ keys l, x < k) ∧ (∀ x ∈ keys r, k < x) ∧ SearchTree l ∧ SearchTree r

/-- Search-tree ordering on the traversal: the in-order keys are strictly increasing. -/
def Ordered (t : Node K V) : Prop := (keys t).Pairwise (fun a b => a < b)

instance decOrdered (t : Node K V) : Decidable (Ordered t) := by
  unfold Ordered
  exact inferInstance

/-- Decision procedure for `SearchTree`. -/
def decSearchTree : (t : Node K V) → Decidable (SearchTree t)
  | nil => isTrue trivial
  | node _ _ _ l r =>
      have := decSearchTree l
      have := decSearchTree r
      by unfold SearchTree; exact inferInstance

instance (t : Node K V) : Decidable (SearchTree t) := decSearchTree t

/-- Entry condition of the recursive `Remove` when it re-enters a node after
`MoveRedRight` rotated: a black node with a black left and a red right child, the key not
below the node key and not a multi-value match. -/
def RedRight : Node K V → K → Prop
  | nil, _ => False
  | node k vs c l r, key =>
      c = Color.BLACK ∧ Valid l ∧ Valid r ∧ bh l = bh r ∧ IsRed l = false ∧ IsRed r = true ∧
        ¬ key < k ∧ ¬ (key = k ∧ vs.length > 1)

/-- What `Remove key` does to one entry of the traversal: the entry of `key` loses its
front value, or goes when that was its only value; other entries stay. -/
def removeEntry (key : K) (e : K × List V) : Option (K × List V) :=
  if e.1 = key then (if e.2.length > 1 then some (e.1, e.2.tail) else none) else some e

/-- The traversal after `Remove key`. -/
def removeList (key : K) (xs : List (K × List V)) : List (K × List V) :=
  xs.filterMap (removeEntry key)

/-- The traversal after `Insert key value`: the value is appended to the entry of `key`,
or a new entry is placed in key order. -/
def insertList (key : K) (value : V) : List (K × List V) → List (K × List V)
  | [] => [(key, [value])]
  | (k, vs) :: rest =>
      if key < k then (key, [value]) :: (k, vs) :: rest
      else if k < key then (k, vs) :: insertList key value rest
      else (k, vs ++ [value]) :: rest

/-- The value list of `key` in a traversal. -/
def lookupList (key : K) : List (K × List V) → Option (List V)
  | [] => none
  | (k, vs) :: rest => if key = k then some vs else lookupList key rest

/-- `Insert(std::unique_ptr<Node> &n, const K &key, const V &value)`. -/
def Insert : Node K V → K → V → Option (Node K V)
  | nil, key, value => FixUp (node key [value] Color.RED nil nil)
  | node k vs c l r, key, value =>
      if key < k then do
        let l ← Insert l key value
        FixUp (node k vs c l r)
      else if key > k then do
        let r ← Insert r key value
        FixUp (node k vs c l r)
      else
        FixUp (node k (vs ++ [value]) c l r)

/-- `Remove(std::unique_ptr<Node> &n, const K &key)`. -/
def Remove : Nat → Node K V → K → Option (Node K V)
  | _, nil, _ => some nil
  | 0, node _ _ _ _ _, _ => none
  | fuel + 1, node k vs c l r, key =>
      if key = k ∧ vs.length > 1 then do
        let vs ← dropFront vs
        pure (node k vs c l r)
      else if key < k then do
        let n := node k vs c l r
        let move ← needsMove l
        let n ← if move then MoveRedLeft n else pure n
        let l ← n.left?
        let l ← Remove fuel l key
        let n ← n.setLeft? l
        FixUp n
      else do
        let n := node k vs c l r
        let n ← if IsRed l then RotateRight n else pure n
        match n with
        | nil => none
        | node k1 vs1 c1 l1 r1 =>
          if key = k1 ∧ r1.isNil = true then pure nil
          else do
            let move ← needsMove r1
            let n ← if move then MoveRedRight (node k1 vs1 c1 l1 r1) else pure (node k1 vs1 c1 l1 r1)
            match n with
            | nil => none
            | node k2 vs2 c2 l2 r2 =>
              if key = k2 then do
                let n_min ← Min r2
                match n_min with
                | nil => none
                | node mk mvs _ _ _ =>
                  let r ← DeleteMin fuel r2
                  FixUp (node mk mvs c2 l2 r)
              else do
                let r ← Remove fuel r2 key
                FixUp (node k2 vs2 c2 l2 r)

/-- The recursive `Remove` with the splice watched: `n = nullptr` destroys the node with
everything below it, and here the step fails when the node still has a left child.
Everything else is as in `Remove`. -/
def RemoveChecked : Nat → Node K V → K → Option (Node K V)
  | _, nil, _ => some nil
  | 0, node _ _ _ _ _, _ => none
  | fuel + 1, node k vs c l r, key =>
      if key = k ∧ vs.length > 1 then do
        let vs ← dropFront vs
        pure (node k vs c l r)
      else if key < k then do
        let n := node k vs c l r
        let move ← needsMove l
        let n ← if move then MoveRedLeft n else pure n
        let l ← n.left?
        let l ← RemoveChecked fuel l key
        let n ← n.setLeft? l
        FixUp n
      else do
        let n := node k vs c l r
        let n ← if IsRed l then RotateRight n else pure n
        match n with
        | nil => none
        | node k1 vs1 c1 l1 r1 =>
          if key = k1 ∧ r1.isNil = true then
            (if l1.isNil = true then pure nil else none)
          else do
            let move ← needsMove r1
            let n ← if move then MoveRedRight (node k1 vs1 c1 l1 r1) else pure (node k1 vs1 c1 l1 r1)
            match n with
            | nil => none
            | node k2 vs2 c2 l2 r2 =>
              if key = k2 then do
                let n_min ← Min r2
                match n_min with
                | nil => none
                | node mk mvs _ _ _ =>
                  let r ← DeleteMin fuel r2
                  FixUp (node mk mvs c2 l2 r)
              else do
                let r ← RemoveChecked fuel r2 key
                FixUp (node k2 vs2 c2 l2 r)

end Node

/-- The container: the root pointer and the `unsigned int cur_size` counter. -/
structure LLRB_multimap (K V : Type) where
  root : Node K V
  cur_size : Nat
  deriving DecidableEq, Repr

/-- Failures signalled to the caller as exceptions. -/
inductive Error where
  | NotFound
  | EmptyTree
  | OutOfRange
  deriving DecidableEq, Repr

namespace LLRB_multimap

open Node

variable {K V : Type}

/-- A freshly constructed container. -/
def empty : LLRB_multimap K V := ⟨nil, 0⟩

/-- `Size()`. -/
def Size (m : LLRB_multimap K V) : Nat := m.cur_size

variable [LinearOrder K]

/-- `Contains(const K &key)`. -/
def Contains (m : LLRB_multimap K V) (key : K) : Bool :=
  match Node.Get m.root key with
  | nil => false
  | node _ _ _ _ _ => true

/-- `Insert(const K &key, const V &value)`: recursive insert, `cur_size++`,
`root->color = BLACK`. -/
def Insert (m : LLRB_multimap K V) (key : K) (value : V) : Option (LLRB_multimap K V) := do
  let root ← Node.Insert m.root key value
  match root with
  | nil => none
  | node k vs _ l r => pure ⟨node k vs Color.BLACK l r, (m.cur_size + 1) % uintMod⟩

/-- `Remove(const K &key)`: nothing when the key is absent; otherwise the recursive
remove, `cur_size--`, and the root is coloured BLACK when there is one. -/
def Remove (m : LLRB_multimap K V) (key : K) : Option (LLRB_multimap K V) :=
  if !Contains m key then pure m
  else do
    let root ← Node.Remove (Node.size m.root) m.root key
    let cur_size := (m.cur_size + uintMod - 1) % uintMod
    match root with
    | nil => pure ⟨nil, cur_size⟩
    | node k vs _ l r => pure ⟨node k vs Color.BLACK l r, cur_size⟩

/-- `Get(const K &key)`: the first value of the node holding `key`. -/
def Get (m : LLRB_multimap K V) (key : K) : Except Error V :=
  match Node.Get m.root key with
  | nil => .error .NotFound
  | node _ vs _ _ _ =>
      match vs with
      | [] => .error .OutOfRange
      | v :: _ => .ok v

/-- `GetAll()`: throws on the empty tree, otherwise the values collected by the recursive
`GetAll`. -/
def GetAll (m : LLRB_multimap K V) : Except Error (List V) :=
  match m.root with
  | nil => .error .EmptyTree
  | node k vs c l r => .ok (Node.GetAll (node k vs c l r))

/-- `Max()`: the key of the rightmost node.  There is no test for an empty tree and no
`throw` in the source: the outcome is `none` when a null pointer is read, `some (.ok key)`
otherwise. -/
def Max (m : LLRB_multimap K V) : Option (Except Error K) := do
  let n ← Node.maxLoop m.root
  match n with
  | nil => none
  | node k _ _ _ _ => pure (.ok k)

/-- `Min()`: the key of the node returned by `Min(root.get())`.  There is no test for an
empty tree and no `throw` in the source: the outcome is `none` when a null pointer is read,
`some (.ok key)` otherwise. -/
def Min (m : LLRB_multimap K V) : Option (Except Error K) := do
  let n ← Node.Min m.root
  match n with
  | nil => none
  | node k _ _ _ _ => pure (.ok k)

/-- The invariant kept by `Insert` and `Remove`: the tree is valid and ordered, the root is
not red, no value list is empty, and the counter is the number of stored values modulo
the range of `unsigned int`. -/
def Inv (m : LLRB_multimap K V) : Prop :=
  Valid m.root ∧ Ordered m.root ∧ IsRed m.root = false ∧
    (∀ e ∈ inorder m.root, e.2 ≠ []) ∧ m.cur_size = totalValues m.root % uintMod

/-- The states reached from the empty container by calls of `Insert` and `Remove` that
return. -/
inductive Reachable : LLRB_multimap K V → Prop
  | empty : Reachable empty
  | insert {m m' : LLRB_multimap K V} (key : K) (value : V) :
      Reachable m → Insert m key value = some m' → Reachable m'
  | remove {m m' : LLRB_multimap K V} (key : K) :
      Reachable m → Remove m key = some m' → Reachable m'

/-- A sequence of `Insert` calls, one per (key, value) pair, in list order. -/
def insertAll : List (K × V) → LLRB_multimap K V → Option (LLRB_multimap K V)
  | [], m => some m
  | (key, value) :: rest, m => (Insert m key value).bind (insertAll rest)

/-- A sequence of `Remove` calls, one per key, in list order. -/
def removeAll : List K → LLRB_multimap K V → Option (LLRB_multimap K V)
  | [], m => some m
  | key :: rest, m => (Remove m key).bind (removeAll rest)

end LLRB_multimap

namespace Examples

open Node

/-- The container after `Insert(5, 1)` on the empty container. -/
def one : LLRB_multimap Nat Nat :=
  ⟨node 5 [1] Color.BLACK nil nil, 1⟩

/-- The container after `Insert(5, 1)`, `Insert(3, 2)`. -/
def two : LLRB_multimap Nat Nat :=
  ⟨node 5 [1] Color.BLACK (node 3 [2] Color.RED nil nil) nil, 2⟩

/-- The container after `Insert(5, 1)`, `Insert(3, 2)`, `Insert(8, 3)`. -/
def three : LLRB_multimap Nat Nat :=
  ⟨node 5 [1] Color.BLACK (node 3 [2] Color.BLACK nil nil) (node 8 [3] Color.BLACK nil nil), 3⟩

/-- The container after `Insert(5, 1)`, `Insert(5, 2)`: one node, two values. -/
def twice : LLRB_multimap Nat Nat :=
  ⟨node 5 [1, 2] Color.BLACK nil nil, 2⟩

/-- The container after `Insert(1, 10)`, `Insert(2, 20)`, `Insert(3, 30)`, `Insert(4, 40)`,
`Insert(1, 11)`: key 1 holds two values. -/
def four : LLRB_multimap Nat Nat :=
  ⟨node 2 [20] Color.BLACK (node 1 [10, 11] Color.BLACK nil nil)
    (node 4 [40] Color.BLACK (node 3 [30] Color.RED nil nil) nil), 5⟩

/-- The container `four` after `Remove(1)`. -/
def fourRemoved : LLRB_multimap Nat Nat :=
  ⟨node 3 [30] Color.BLACK (node 2 [20] Color.BLACK (node 1 [11] Color.RED nil nil) nil)
    (node 4 [40] Color.BLACK nil nil), 4⟩

/-- The container after `Insert(5, 1)`, `Insert(3, 2)`, `Insert(3, 4)`. -/
def twoAppended : LLRB_multimap Nat Nat :=
  ⟨node 5 [1] Color.BLACK (node 3 [2, 4] Color.RED nil nil) nil, 3⟩

end Examples

end LLRB

/-!
# Unbalanced binary search tree (`Binary Tree/bst.h`)
-/

/-- A possibly missing node of `BST<T>`: `nil` is the null pointer, `node` holds the key
and the two children of `struct Node`. -/
inductive BST.Node (T : Type) where
  | nil : BST.Node T
  | node (key : T) (left right : BST.Node T) : BST.Node T
  deriving DecidableEq, Repr

/-- The class `BST<T>`: the root pointer. -/
structure BST (T : Type) where
  root : BST.Node T
  deriving DecidableEq, Repr

namespace BST

namespace Node

variable {T : Type}

/-- The null test `!n`. -/
def isNil : Node T → Bool
  | nil => true
  | node _ _ _ => false

/-- In-order traversal of the keys. -/
def inorder : Node T → List T
  | nil => []
  | node k l r => inorder l ++ k :: inorder r

/-- Number of nodes. -/
def size : Node T → Nat
  | nil => 0
  | node _ l r => size l + 1 + size r

/-- `min(Node *n)`: the leftmost node; reading `n->left` through null gives `none`. -/
def min : Node T → Option (Node T)
  | nil => none
  | node k nil r => some (node k nil r)
  | node _ (node lk ll lr) _ => min (node lk ll lr)

/-- The read `n->key`; `none` through the null pointer. -/
def keyOf : Node T → Option T
  | nil => none
  | node k _ _ => some k

/-- `recur_kth_small(int& k, const int& kth, Node** kth_small, Node* n)`: the state is the
counter `k` and the node `*kth_small`; the result is the returned flag and the state after
the call.  `k` is only incremented while `k < kth`, so it stays in the range of `int`. -/
def recur_kth_small (kth : Int) : Node T → Int × Node T → Bool × (Int × Node T)
  | nil, s => (true, s)
  | node key l r, s =>
      let res := recur_kth_small kth l s
      if res.1 = false then (false, res.2)
      else if res.2.1 ≥ kth then (false, res.2)
      else recur_kth_small kth r (res.2.1 + 1, node key l r)

variable [LinearOrder T]

/-- `insert(std::unique_ptr<Node> &n, const T &key)`; a key already present is left alone
(the source only prints a message). -/
def insert : Node T → T → Node T
  | nil, key => node key nil nil
  | node k l r, key =>
      if key < k then node k (insert l key) r
      else if key > k then node k l (insert r key)
      else node k l r

/-- `remove(std::unique_ptr<Node> &n, const T &key)`. -/
def remove : Node T → T → Option (Node T)
  | nil, _ => some nil
  | node k l r, key =>
      if key < k then do
        let l ← remove l key
        pure (node k l r)
      else if key > k then do
        let r ← remove r key
        pure (node k l r)
      else if !l.isNil && !r.isNil then do
        let m ← Node.min r
        match m with
        | Node.nil => none
        | Node.node minKey _ _ =>
          let r ← remove r minKey
          pure (node minKey l r)
      else pure (if !l.isNil then l else r)

/-- Search-tree ordering: the in-order keys are strictly increasing. -/
def Ordered (t : Node T) : Prop := (inorder t).Pairwise (fun a b => a < b)

instance decOrdered (t : Node T) : Decidable (Ordered t) := by
  unfold Ordered
  exact inferInstance

end Node

variable {T : Type}

/-- The empty tree. -/
def empty : BST T := ⟨Node.nil⟩

/-- `kth_small(const int kth)`: runs the recursion from `k = 0` and `kth_small = root`,
then reads `kth_small->key`; `none` when that pointer is null. -/
def kth_small (b : BST T) (kth : Int) : Option T :=
  match (Node.recur_kth_small kth b.root (0, b.root)).2.2 with
  | Node.nil => none
  | Node.node key _ _ => some key

variable [LinearOrder T]

/-- `insert(const T &key)`. -/
def insert (b : BST T) (key : T) : BST T := ⟨Node.insert b.root key⟩

/-- `remove(const T &key)`. -/
def remove (b : BST T) (key : T) : Option (BST T) :=
  (Node.remove b.root key).map (fun r => ⟨r⟩)

/-- The trees built from the empty tree by `insert` and `remove` calls. -/
inductive Reachable : BST T → Prop
  | empty : Reachable empty
  | insert {b : BST T} (key : T) : Reachable b → Reachable (insert b key)
  | remove {b b' : BST T} (key : T) : Reachable b → remove b key = some b' → Reachable b'

/-- The tree after `insert(5)`, `insert(3)`, `insert(8)`. -/
def sample : BST Nat :=
  ⟨Node.node 5 (Node.node 3 Node.nil Node.nil) (Node.node 8 Node.nil Node.nil)⟩

end BST

/-!
# Indexed minimum priority queue (`Shortest Path/index_min_pq.h`)

The three vectors are lists; an unchecked `operator[]` outside a vector is undefined
behaviour in the source and the error `out_of_bounds` here.  The `unsigned int` index
arithmetic wraps at `LLRB.uintMod`.  The two percolation loops carry fuel.
-/

/-- The exceptions thrown by the queue, the unchecked access outside a vector, and fuel
exhaustion of a loop. -/
inductive PQError where
  | overflow_error
  | underflow_error
  | runtime_error
  | out_of_bounds
  | out_of_fuel
  deriving DecidableEq, Repr

/-- The members of `IndexMinPQ<K>`. -/
structure IndexMinPQ (K : Type) where
  capacity : Nat
  cur_size : Nat
  keys : List K
  heap_to_idx : List Nat
  idx_to_heap : List Nat
  deriving DecidableEq, Repr

namespace IndexMinPQ

variable {K : Type}

/-- Unchecked read `v[i]`. -/
def read {A : Type} (v : List A) (i : Nat) : Except PQError A :=
  match v[i]? with
  | some x => .ok x
  | none => .error .out_of_bounds

/-- Unchecked write `v[i] = x`. -/
def write {A : Type} (v : List A) (i : Nat) (x : A) : Except PQError (List A) :=
  if i < v.length then .ok (v.set i x) else .error .out_of_bounds

/-- The constructor `IndexMinPQ(unsigned int capacity)`: `keys(capacity)`,
`heap_to_idx(capacity + 1)`, `idx_to_heap(capacity, 0)`, `cur_size = 0`. -/
def create [Inhabited K] (capacity : Nat) : IndexMinPQ K :=
  { capacity := capacity
    cur_size := 0
    keys := List.replicate capacity default
    heap_to_idx := List.replicate ((capacity + 1) % LLRB.uintMod) 0
    idx_to_heap := List.replicate capacity 0 }

/-- `Size()`. -/
def Size (q : IndexMinPQ K) : Nat := q.cur_size

/-- `Root()`. -/
def Root : Nat := 1

/-- `Parent(i)`. -/
def Parent (i : Nat) : Nat := i / 2

/-- `LeftChild(i)`. -/
def LeftChild (i : Nat) : Nat := (2 * i) % LLRB.uintMod

/-- `RightChild(i)`. -/
def RightChild (i : Nat) : Nat := (2 * i + 1) % LLRB.uintMod

/-- `HasParent(i)`. -/
def HasParent (i : Nat) : Bool := i != Root

/-- `IsNode(i)`. -/
def IsNode (q : IndexMinPQ K) (i : Nat) : Bool := decide (i ≤ q.cur_size)

/-- `SwapNodes(i, j)`. -/
def SwapNodes (q : IndexMinPQ K) (i j : Nat) : Except PQError (IndexMinPQ K) := do
  let a ← read q.heap_to_idx i
  let b ← read q.heap_to_idx j
  let h ← write q.heap_to_idx i b
  let h ← write h j a
  let hi ← read h i
  let ih ← write q.idx_to_heap hi i
  let hj ← read h j
  let ih ← write ih hj j
  pure { q with heap_to_idx := h, idx_to_heap := ih }

/-- `Contains(idx)`. -/
def Contains (q : IndexMinPQ K) (idx : Nat) : Except PQError Bool := do
  if idx ≥ q.capacity then throw PQError.overflow_error
  let p ← read q.idx_to_heap idx
  pure (p != 0)

/-- `Top()`. -/
def Top (q : IndexMinPQ K) : Except PQError Nat := do
  if q.Size = 0 then throw PQError.underflow_error
  read q.heap_to_idx 1

variable [LinearOrder K]

/-- `GreaterNode(i, j)`. -/
def GreaterNode (q : IndexMinPQ K) (i j : Nat) : Except PQError Bool := do
  let a ← read q.heap_to_idx i
  let ka ← read q.keys a
  let b ← read q.heap_to_idx j
  let kb ← read q.keys b
  pure (decide (ka > kb))

/-- `PercolateUp(i)`. -/
def PercolateUp : Nat → IndexMinPQ K → Nat → Except PQError (IndexMinPQ K)
  | fuel, q, i =>
      if HasParent i then do
        let g ← GreaterNode q (Parent i) i
        if g then
          match fuel with
          | 0 => throw PQError.out_of_fuel
          | fuel + 1 => do
            let q ← SwapNodes q (Parent i) i
            PercolateUp fuel q (Parent i)
        else pure q
      else pure q

/-- `PercolateDown(i)`. -/
def PercolateDown : Nat → IndexMinPQ K → Nat → Except PQError (IndexMinPQ K)
  | fuel, q, i =>
      if IsNode q (LeftChild i) then do
        let useRight ←
          if IsNode q (RightChild i) then GreaterNode q (LeftChild i) (RightChild i)
          else pure false
        let child := if useRight then RightChild i else LeftChild i
        let g ← GreaterNode q i child
        if g then
          match fuel with
          | 0 => throw PQError.out_of_fuel
          | fuel + 1 => do
            let q ← SwapNodes q i child
            PercolateDown fuel q child
        else pure q
      else pure q

/-- `Push(key, idx)`. -/
def Push (q : IndexMinPQ K) (key : K) (idx : Nat) : Except PQError (IndexMinPQ K) := do
  if idx ≥ q.capacity then throw PQError.overflow_error
  let c ← Contains q idx
  if c then throw PQError.runtime_error
  let n := (q.cur_size + 1) % LLRB.uintMod
  let h ← write q.heap_to_idx n idx
  let ih ← write q.idx_to_heap idx n
  let ks ← write q.keys idx key
  PercolateUp n { q with cur_size := n, heap_to_idx := h, idx_to_heap := ih, keys := ks } n

/-- `Pop()`. -/
def Pop (q : IndexMinPQ K) : Except PQError (IndexMinPQ K) := do
  if q.Size = 0 then throw PQError.underflow_error
  let q ← SwapNodes q 1 q.cur_size
  let n := (q.cur_size + LLRB.uintMod - 1) % LLRB.uintMod
  let q ← PercolateDown (n + 1) { q with cur_size := n } 1
  let ih ← write q.idx_to_heap ((q.cur_size + 1) % LLRB.uintMod) 0
  pure { q with idx_to_heap := ih }

/-- `ChangeKey(key, idx)`. -/
def ChangeKey (q : IndexMinPQ K) (key : K) (idx : Nat) : Except PQError (IndexMinPQ K) := do
  if idx ≥ q.capacity then throw PQError.overflow_error
  let c ← Contains q idx
  if !c then throw PQError.runtime_error
  let ks ← write q.keys idx key
  let q := { q with keys := ks }
  let p ← read q.idx_to_heap idx
  let q ← PercolateDown (q.cur_size + 1) q p
  let p ← read q.idx_to_heap idx
  PercolateUp p q p

/-- A call of `Push`, `Pop` or `ChangeKey`. -/
inductive Call (K : Type) where
  | push (key : K) (idx : Nat)
  | pop
  | changeKey (key : K) (idx : Nat)
  deriving DecidableEq, Repr

/-- Runs one call. -/
def step (q : IndexMinPQ K) : Call K → Except PQError (IndexMinPQ K)
  | Call.push key idx => Push q key idx
  | Call.pop => Pop q
  | Call.changeKey key idx => ChangeKey q key idx

/-- Runs a sequence of calls; the first exception or fault ends the run. -/
def run : List (Call K) → IndexMinPQ K → Except PQError (IndexMinPQ K)
  | [], q => pure q
  | c :: rest, q => do
      let q ← step q c
      run rest q

/-- The queues reached from a fresh queue of the given capacity by calls of `Push`,
`Pop` and `ChangeKey` that return without exception. -/
inductive Reachable [Inhabited K] (capacity : Nat) : IndexMinPQ K → Prop
  | fresh : Reachable capacity (create capacity)
  | step {q q' : IndexMinPQ K} (c : Call K) :
      Reachable capacity q → step q c = .ok q' → Reachable capacity q'

end IndexMinPQ

namespace LLRB
namespace Node
variable {K V : Type}

@[simp] theorem inorder_nil : inorder (nil : Node K V) = [] := rfl
@[simp] theorem inorder_node (k : K) (vs : List V) (c : Color) (l r : Node K V) :
    inorder (node k vs c l r) = inorder l ++ (k, vs) :: inorder r := rfl
@[simp] theorem bh_nil : bh (nil : Node K V) = 0 := rfl
@[simp] theorem bh_node (k : K) (vs : List V) (c : Color) (l r : Node K V) :
    bh (node k vs c l r) = bh l + (if c = Color.BLACK then 1 else 0) := rfl
@[simp] theorem Valid_nil : Valid (nil : Node K V) := trivial
@[simp] theorem Valid_node (k : K) (vs : List V) (c : Color) (l r : Node K V) :
    Valid (node k vs c l r) ↔
      (Valid l ∧ Valid r ∧ bh l = bh r ∧ IsRed r = false ∧ (c = Color.RED → IsRed l = false)) :=
  Iff.rfl
@[simp] theorem IsRed_nil : IsRed (nil : Node K V) = false := rfl
@[simp] theorem IsRed_node (k : K) (vs : List V) (c : Color) (l r : Node K V) :
    IsRed (node k vs c l r) = decide (c = Color.RED) := rfl
@[simp] theorem bh_red (k : K) (vs : List V) (l r : Node K V) :
    bh (node k vs Color.RED l r) = bh l := by simp [bh]
@[simp] theorem bh_black (k : K) (vs : List V) (l r : Node K V) :
    bh (node k vs Color.BLACK l r) = bh l + 1 := by simp [bh]
@[simp] theorem flip_red : Color.RED.flip = Color.BLACK := rfl
@[simp] theorem flip_black : Color.BLACK.flip = Color.RED := rfl
@[simp] theorem size_nil : size (nil : Node K V) = 0 := rfl
@[simp] theorem size_node (k : K) (vs : List V) (c : Color) (l r : Node K V) :
    size (node k vs c l r) = size l + 1 + size r := rfl

theorem FixUp_rotL (k : K) (vs : List V) (c : Color) (l : Node K V) (rk : K) (rvs : List V)
    (rl rr : Node K V) (h1 : IsRed l = false) (h2 : IsRed rr = false) :
    FixUp (node k vs c l (node rk rvs Color.RED rl rr)) =
      some (node rk rvs c (node k vs Color.RED l rl) rr) := by
  simp [FixUp, left?, right?, RotateLeft, h1, h2]

theorem FixUp_flip (k : K) (vs : List V) (c : Color) (lk : K) (lvs : List V) (ll lr : Node K V)
    (rk : K) (rvs : List V) (rl rr : Node K V) (h1 : IsRed ll = false) :
    FixUp (node k vs c (node lk lvs Color.RED ll lr) (node rk rvs Color.RED rl rr)) =
      some (node k vs c.flip (node lk lvs Color.BLACK ll lr) (node rk rvs Color.BLACK rl rr)) := by
  simp [FixUp, left?, right?, FlipColors, Color.flip, h1]

theorem FixUp_keep (k : K) (vs : List V) (c : Color) (l r : Node K V)
    (h1 : IsRed l = false) (h2 : IsRed r = false) :
    FixUp (node k vs c l r) = some (node k vs c l r) := by
  simp [FixUp, left?, right?, h1, h2]

theorem FixUp_keep_red (k : K) (vs : List V) (c : Color) (lk : K) (lvs : List V)
    (ll lr r : Node K V) (h1 : IsRed ll = false) (h2 : IsRed r = false) :
    FixUp (node k vs c (node lk lvs Color.RED ll lr) r) =
      some (node k vs c (node lk lvs Color.RED ll lr) r) := by
  simp [FixUp, left?, right?, h1, h2]

theorem FixUp_rotR (k : K) (vs : List V) (c : Color) (lk : K) (lvs : List V)
    (llk : K) (llvs : List V) (lll llr lr r : Node K V) :
    FixUp (node k vs c (node lk lvs Color.RED (node llk llvs Color.RED lll llr) lr) r) =
      some (node lk lvs c.flip (node llk llvs Color.BLACK lll llr) (node k vs Color.BLACK lr r)) := by
  simp [FixUp, left?, right?, RotateRight, FlipColors, Color.flip]

theorem IsRed_eq_true {t : Node K V} (h : IsRed t = true) :
    ∃ k vs l r, t = node k vs Color.RED l r := by
  rcases t with _ | ⟨k, vs, c, l, r⟩
  · simp at h
  · cases c
    · exact ⟨k, vs, l, r, rfl⟩
    · simp at h

/-- `FixUp` after a deletion step: with valid children of equal black height, and black
children under a red node, the result is a valid subtree of the same black height. -/
theorem FixUp_valid (k : K) (vs : List V) (c : Color) (l r : Node K V)
    (hl : Valid l) (hr : Valid r) (hb : bh l = bh r)
    (hc : c = Color.RED → IsRed l = false ∧ IsRed r = false) :
    ∃ n, FixUp (node k vs c l r) = some n ∧ Valid n ∧
      bh n = bh (node k vs c l r) ∧ inorder n = inorder (node k vs c l r) ∧
      (c = Color.BLACK → (IsRed l && IsRed r) = false → IsRed n = false) := by
  by_cases h2 : IsRed r = true
  · obtain ⟨rk, rvs, rl, rr, rfl⟩ := IsRed_eq_true h2
    have hcb : c = Color.BLACK := by
      cases c
      · simp at hc
      · rfl
    subst hcb
    simp only [Valid_node] at hr
    obtain ⟨hrl, hrr, hrb, hrr2, hrl2⟩ := hr
    by_cases h1 : IsRed l = true
    · obtain ⟨lk, lvs, ll, lr, rfl⟩ := IsRed_eq_true h1
      simp only [Valid_node] at hl
      obtain ⟨hll, hlr, hlb, hlr2, hll2⟩ := hl
      refine ⟨_, FixUp_flip _ _ _ _ _ _ _ _ _ _ _ (hll2 trivial), ?_⟩
      simp_all [Color.flip]
    · simp only [Bool.not_eq_true] at h1
      refine ⟨_, FixUp_rotL _ _ _ _ _ _ _ _ h1 hrr2, ?_⟩
      simp_all
  · simp only [Bool.not_eq_true] at h2
    by_cases h1 : IsRed l = true
    · obtain ⟨lk, lvs, ll, lr, rfl⟩ := IsRed_eq_true h1
      have hcb : c = Color.BLACK := by
        cases c
        · simp at hc
        · rfl
      subst hcb
      simp only [Valid_node] at hl
      obtain ⟨hll, hlr, hlb, hlr2, hll2⟩ := hl
      refine ⟨_, FixUp_keep_red _ _ _ _ _ _ _ _ (hll2 trivial) h2, ?_⟩
      simp_all
    · simp only [Bool.not_eq_true] at h1
      refine ⟨_, FixUp_keep _ _ _ _ _ h1 h2, ?_⟩
      simp_all

theorem IsRed_eq_false_node {k : K} {vs : List V} {c : Color} {l r : Node K V}
    (h : IsRed (node k vs c l r) = false) : c = Color.BLACK := by
  cases c
  · simp at h
  · rfl

theorem needsMove_red (k : K) (vs : List V) (l r : Node K V) :
    needsMove (node k vs Color.RED l r) = some false := by
  simp [needsMove]

theorem needsMove_black (k : K) (vs : List V) (l r : Node K V) :
    needsMove (node k vs Color.BLACK l r) = some (!IsRed l) := by
  simp [needsMove, left?]

theorem MoveRedLeft_flip (k : K) (vs : List V) (c : Color) (lk : K) (lvs : List V) (lc : Color)
    (ll lr : Node K V) (rk : K) (rvs : List V) (rc : Color) (rl rr : Node K V)
    (h : IsRed rl = false) :
    MoveRedLeft (node k vs c (node lk lvs lc ll lr) (node rk rvs rc rl rr)) =
      some (node k vs c.flip (node lk lvs lc.flip ll lr) (node rk rvs rc.flip rl rr)) := by
  simp [MoveRedLeft, FlipColors, left?, right?, h]

theorem MoveRedLeft_rot (k : K) (vs : List V) (c : Color) (lk : K) (lvs : List V) (lc : Color)
    (ll lr : Node K V) (rk : K) (rvs : List V) (rc : Color) (xk : K) (xvs : List V)
    (xl xr rr : Node K V) :
    MoveRedLeft (node k vs c (node lk lvs lc ll lr)
        (node rk rvs rc (node xk xvs Color.RED xl xr) rr)) =
      some (node xk xvs c (node k vs Color.BLACK (node lk lvs lc.flip ll lr) xl)
        (node rk rvs Color.BLACK xr rr)) := by
  cases c <;> cases lc <;> cases rc <;> rfl

theorem MoveRedRight_flip (k : K) (vs : List V) (c : Color) (lk : K) (lvs : List V) (lc : Color)
    (ll lr : Node K V) (rk : K) (rvs : List V) (rc : Color) (rl rr : Node K V)
    (h : IsRed ll = false) :
    MoveRedRight (node k vs c (node lk lvs lc ll lr) (node rk rvs rc rl rr)) =
      some (node k vs c.flip (node lk lvs lc.flip ll lr) (node rk rvs rc.flip rl rr)) := by
  simp [MoveRedRight, FlipColors, left?, right?, h]

theorem MoveRedRight_rot (k : K) (vs : List V) (c : Color) (lk : K) (lvs : List V) (lc : Color)
    (yk : K) (yvs : List V) (yl yr lr : Node K V) (rk : K) (rvs : List V) (rc : Color)
    (rl rr : Node K V) :
    MoveRedRight (node k vs c (node lk lvs lc (node yk yvs Color.RED yl yr) lr)
        (node rk rvs rc rl rr)) =
      some (node lk lvs c (node yk yvs Color.BLACK yl yr)
        (node k vs Color.BLACK lr (node rk rvs rc.flip rl rr))) := by
  cases c <;> cases lc <;> cases rc <;> rfl

theorem Valid_nonnil_of_bh {t : Node K V} (h : 0 < bh t) :
    ∃ k vs c l r, t = node k vs c l r := by
  rcases t with _ | ⟨k, vs, c, l, r⟩
  · simp at h
  · exact ⟨k, vs, c, l, r, rfl⟩

end Node
end LLRB

namespace LLRB
namespace Node
variable {K V : Type}

/-- The step made before descending to the left (in `DeleteMin` and in `Remove`): the
left child then has a red root or a red left child, and the `FixUp` on the way back
restores a valid subtree of the original black height. -/
theorem prepLeft (k : K) (vs : List V) (c : Color) (l r : Node K V)
    (hl : l ≠ nil) (h : RedTop (node k vs c l r)) :
    ∃ move k2 vs2 c2 l2 r2, needsMove l = some move ∧
      (if move = true then MoveRedLeft (node k vs c l r) else some (node k vs c l r)) =
        some (node k2 vs2 c2 l2 r2) ∧
      RedTop l2 ∧ size l2 < size (node k vs c l r) ∧
      inorder l2 ++ (k2, vs2) :: inorder r2 = inorder (node k vs c l r) ∧
      (∃ m, inorder l2 = inorder l ++ m) ∧
      ∀ l', Valid l' → bh l' = bh l2 → (IsRed l2 = false → IsRed l' = false) →
        ∃ res, FixUp (node k2 vs2 c2 l' r2) = some res ∧ Valid res ∧
          bh res = bh (node k vs c l r) ∧ (c = Color.BLACK → IsRed res = false) ∧
          inorder res = inorder l' ++ (k2, vs2) :: inorder r2 := by
  rcases l with _ | ⟨lk, lvs, lc, ll, lr⟩
  · exact absurd rfl hl
  obtain ⟨hv, hred⟩ := h
  simp only [Valid_node] at hv
  obtain ⟨⟨hll, hlr, hlb, hlr2, hll2⟩, hr, hb, hr2, hc⟩ := hv
  cases lc
  · -- the left child is red: no move, the node itself is black
    have hcb : c = Color.BLACK := by
      cases c
      · simp at hc
      · rfl
    subst hcb
    refine ⟨false, k, vs, Color.BLACK, node lk lvs Color.RED ll lr, r, needsMove_red _ _ _ _, rfl,
      ?_, ?_, rfl, ⟨[], by simp⟩, ?_⟩
    · exact ⟨by simp [hll, hlr, hlb, hlr2, hll2], by simp⟩
    · simp; omega
    · intro l' hl' hbl' _
      obtain ⟨res, h1, h2, h3, h4, h5⟩ := FixUp_valid k vs Color.BLACK l' r hl' hr
        (by rw [hbl', ← hb]) (by simp)
      refine ⟨res, h1, h2, ?_, fun _ => h5 rfl (by simp [hr2]), by simpa using h4⟩
      simp only [bh_red, bh_black] at *
      omega
  · -- the left child is black: the node itself is red
    have hcr : c = Color.RED := by
      cases c
      · rfl
      · simp [leftRed] at hred
    subst hcr
    by_cases hllr : IsRed ll = true
    · refine ⟨false, k, vs, Color.RED, node lk lvs Color.BLACK ll lr, r,
        by simp [needsMove_black, hllr], rfl, ?_, ?_, rfl, ⟨[], by simp⟩, ?_⟩
      · exact ⟨by simp [hll, hlr, hlb, hlr2], by simp [leftRed, hllr]⟩
      · simp; omega
      · intro l' hl' hbl' hcl
        have hl'b : IsRed l' = false := hcl (by simp)
        obtain ⟨res, h1, h2, h3, h4, h5⟩ := FixUp_valid k vs Color.RED l' r hl' hr
          (by rw [hbl', ← hb]) (fun _ => ⟨hl'b, hr2⟩)
        refine ⟨res, h1, h2, ?_, by simp, by simpa using h4⟩
        simp only [bh_red, bh_black] at *
        omega
    · simp only [Bool.not_eq_true] at hllr
      -- both the left child and its left child are black: MoveRedLeft
      have hrpos : 0 < bh r := by
        rw [← hb]; simp
      obtain ⟨rk, rvs, rc, rl, rr, rfl⟩ := Valid_nonnil_of_bh hrpos
      have hrc : rc = Color.BLACK := IsRed_eq_false_node hr2
      subst hrc
      simp only [Valid_node] at hr
      obtain ⟨hrl, hrr, hrb, hrr2, -⟩ := hr
      by_cases hrlr : IsRed rl = true
      · obtain ⟨xk, xvs, xl, xr, rfl⟩ := IsRed_eq_true hrlr
        simp only [Valid_node] at hrl
        obtain ⟨hxl, hxr, hxb, hxr2, hxl2⟩ := hrl
        simp only [bh_red, bh_black] at *
        refine ⟨true, xk, xvs, Color.RED, node k vs Color.BLACK (node lk lvs Color.RED ll lr) xl,
          node rk rvs Color.BLACK xr rr, by simp [needsMove_black, hllr],
          by simp [MoveRedLeft_rot], ?_, ?_, by simp, ⟨(k, vs) :: inorder xl, by simp⟩, ?_⟩
        · refine ⟨?_, by simp [leftRed]⟩
          simp only [Valid_node, bh_red, bh_black]
          refine ⟨⟨hll, hlr, hlb, hlr2, fun _ => hllr⟩, hxl, ?_, hxl2 trivial, by simp⟩
          omega
        · simp; omega
        · intro l' hl' hbl' hcl
          have hl'b : IsRed l' = false := hcl (by simp)
          have hvr : Valid (node rk rvs Color.BLACK xr rr) := by
            simp only [Valid_node]
            exact ⟨hxr, hrr, by omega, hrr2, by simp⟩
          obtain ⟨res, h1, h2, h3, h4, h5⟩ := FixUp_valid xk xvs Color.RED l'
            (node rk rvs Color.BLACK xr rr) hl' hvr
            (by simp only [bh_red, bh_black] at *; omega) (fun _ => ⟨hl'b, by simp⟩)
          refine ⟨res, h1, h2, ?_, by simp, by simpa using h4⟩
          simp only [bh_red, bh_black] at *
          omega
      · simp only [Bool.not_eq_true] at hrlr
        simp only [bh_red, bh_black] at *
        refine ⟨true, k, vs, Color.BLACK, node lk lvs Color.RED ll lr,
          node rk rvs Color.RED rl rr, by simp [needsMove_black, hllr],
          by simp [MoveRedLeft_flip, hrlr], ?_, ?_, by simp, ⟨[], by simp⟩, ?_⟩
        · exact ⟨by simp [hll, hlr, hlb, hlr2, hllr], by simp⟩
        · simp; omega
        · intro l' hl' hbl' _
          have hvr : Valid (node rk rvs Color.RED rl rr) := by
            simp only [Valid_node]
            exact ⟨hrl, hrr, hrb, hrr2, fun _ => hrlr⟩
          obtain ⟨res, h1, h2, h3, h4, h5⟩ := FixUp_valid k vs Color.BLACK l'
            (node rk rvs Color.RED rl rr) hl' hvr
            (by simp only [bh_red, bh_black] at *; omega) (by simp)
          refine ⟨res, h1, h2, ?_, by simp, by simpa using h4⟩
          simp only [bh_red, bh_black] at *
          omega

end Node
end LLRB

namespace LLRB
namespace Node
variable {K V : Type}

theorem eq_nil_of_bh_zero {t : Node K V} (h1 : bh t = 0) (h2 : IsRed t = false) : t = nil := by
  rcases t with _ | ⟨k, vs, c, l, r⟩
  · rfl
  · cases c
    · simp at h2
    · simp at h1

theorem RedTop_ne_nil {t : Node K V} (h : RedTop t) : t ≠ nil := by
  intro h0
  subst h0
  simp [RedTop, leftRed] at h

theorem inorder_ne_nil {t : Node K V} (h : t ≠ nil) : inorder t ≠ [] := by
  rcases t with _ | ⟨k, vs, c, l, r⟩
  · exact absurd rfl h
  · simp

theorem size_eq_length (t : Node K V) : size t = (inorder t).length := by
  induction t with
  | nil => rfl
  | node k vs c l r ihl ihr => simp [ihl, ihr]; omega

theorem keys_node (k : K) (vs : List V) (c : Color) (l r : Node K V) :
    keys (node k vs c l r) = keys l ++ k :: keys r := by
  simp [keys]

theorem ne_nil_of_mem_keys {t : Node K V} {key : K} (h : key ∈ keys t) : t ≠ nil := by
  intro h0
  subst h0
  simp [keys] at h

theorem size_lt_of_inorder {n t : Node K V} {xs ys : List (K × List V)}
    (hin : inorder n = xs ++ inorder t ++ ys) (h : 0 < xs.length + ys.length) :
    size t < size n := by
  rw [size_eq_length, size_eq_length, hin]
  simp only [List.length_append]
  omega

theorem RedRed_shape {t : Node K V} (h : RedRed t) :
    ∃ k vs lk lvs ll lr r, t = node k vs Color.RED (node lk lvs Color.RED ll lr) r ∧
      Valid (node lk lvs Color.RED ll lr) ∧ Valid r ∧ bh ll = bh r ∧ IsRed r = false := by
  rcases t with _ | ⟨k, vs, c, l, r⟩
  · exact absurd h (by simp [RedRed])
  · cases c
    · rcases l with _ | ⟨lk, lvs, lc, ll, lr⟩
      · exact absurd h (by simp [RedRed])
      · cases lc
        · exact ⟨k, vs, lk, lvs, ll, lr, r, rfl, h⟩
        · exact absurd h (by simp [RedRed])
    · exact absurd h (by simp [RedRed])

/-- `DeleteMin` on a valid subtree with a red root or red left child returns a valid
subtree of the same black height whose traversal lost its first entry. -/
theorem DeleteMin_spec : ∀ (fuel : Nat) (n : Node K V), size n ≤ fuel → RedTop n →
    ∃ res, DeleteMin fuel n = some res ∧ Valid res ∧ bh res = bh n ∧
      (IsRed n = false → IsRed res = false) ∧ inorder res = (inorder n).tail := by
  intro fuel
  induction fuel with
  | zero =>
    intro n hs h
    have : n = nil := by
      rcases n with _ | ⟨k, vs, c, l, r⟩
      · rfl
      · simp at hs
    exact absurd this (RedTop_ne_nil h)
  | succ fuel ih =>
    intro n hs h
    rcases n with _ | ⟨k, vs, c, l, r⟩
    · exact absurd rfl (RedTop_ne_nil h)
    rcases l with _ | ⟨lk, lvs, lc, ll, lr⟩
    · -- no left child: the node itself goes
      obtain ⟨hv, hred⟩ := h
      simp only [Valid_node] at hv
      obtain ⟨-, hr, hb, hr2, -⟩ := hv
      have hc : c = Color.RED := by
        cases c
        · rfl
        · simp [leftRed] at hred
      subst hc
      have hrn : r = nil := eq_nil_of_bh_zero (by rw [← hb]; rfl) hr2
      subst hrn
      exact ⟨nil, by simp [DeleteMin], by simp, by simp, by simp, by simp⟩
    · obtain ⟨move, k2, vs2, c2, l2, r2, hm, hp, hl2, hsz, hin, -, hk⟩ :=
        prepLeft k vs c (node lk lvs lc ll lr) r (by simp) h
      obtain ⟨l', hd, hv', hb', hc', hi'⟩ := ih l2 (by omega) hl2
      obtain ⟨res, hf, hrv, hrb, hrc, hri⟩ := hk l' hv' hb' hc'
      refine ⟨res, ?_, hrv, hrb, ?_, ?_⟩
      · cases move
        · simp only [Bool.false_eq_true, if_false] at hp
          simp [DeleteMin, hm, hp, left?, setLeft?, hd, hf]
        · simp only [if_true] at hp
          simp [DeleteMin, hm, hp, left?, setLeft?, hd, hf]
      · intro hnr
        exact hrc (IsRed_eq_false_node hnr)
      · rw [hri, hi', ← hin]
        have := inorder_ne_nil (RedTop_ne_nil hl2)
        cases hl : inorder l2 with
        | nil => exact absurd hl this
        | cons a t => simp

end Node
end LLRB

namespace LLRB
namespace Node
variable {K V : Type} [LinearOrder K]

theorem not_mem_left_of_sorted {xs ys : List (K × List V)} {key : K}
    (h : ((xs ++ ys).map Prod.fst).Pairwise (fun a b => a < b))
    (hk : key ∈ ys.map Prod.fst) : key ∉ xs.map Prod.fst := by
  intro hx
  rw [List.map_append, List.pairwise_append] at h
  exact lt_irrefl _ (h.2.2 key hx key hk)

theorem not_mem_right_of_sorted {xs ys : List (K × List V)} {key : K}
    (h : ((xs ++ ys).map Prod.fst).Pairwise (fun a b => a < b))
    (hk : key ∈ xs.map Prod.fst) : key ∉ ys.map Prod.fst :=
  fun hy => not_mem_left_of_sorted h hy hk

theorem sorted_left {xs ys : List (K × List V)}
    (h : ((xs ++ ys).map Prod.fst).Pairwise (fun a b => a < b)) :
    (xs.map Prod.fst).Pairwise (fun a b => a < b) := by
  rw [List.map_append, List.pairwise_append] at h
  exact h.1

theorem sorted_right {xs ys : List (K × List V)}
    (h : ((xs ++ ys).map Prod.fst).Pairwise (fun a b => a < b)) :
    (ys.map Prod.fst).Pairwise (fun a b => a < b) := by
  rw [List.map_append, List.pairwise_append] at h
  exact h.2.1

theorem removeList_append (key : K) (xs ys : List (K × List V)) :
    removeList key (xs ++ ys) = removeList key xs ++ removeList key ys := by
  simp [removeList, List.filterMap_append]

theorem removeList_of_not_mem {key : K} {xs : List (K × List V)}
    (h : key ∉ xs.map Prod.fst) : removeList key xs = xs := by
  induction xs with
  | nil => rfl
  | cons a t ih =>
    simp only [List.map_cons, List.mem_cons, not_or] at h
    have ha : removeEntry key a = some a := by
      simp [removeEntry, Ne.symm h.1]
    simp only [removeList, List.filterMap_cons, ha] at ih ⊢
    rw [ih h.2]

theorem removeList_right {xs ys : List (K × List V)} {key : K}
    (h : ((xs ++ ys).map Prod.fst).Pairwise (fun a b => a < b))
    (hk : key ∈ ys.map Prod.fst) : removeList key (xs ++ ys) = xs ++ removeList key ys := by
  rw [removeList_append, removeList_of_not_mem (not_mem_left_of_sorted h hk)]

theorem removeList_left {xs ys : List (K × List V)} {key : K}
    (h : ((xs ++ ys).map Prod.fst).Pairwise (fun a b => a < b))
    (hk : key ∈ xs.map Prod.fst) : removeList key (xs ++ ys) = removeList key xs ++ ys := by
  rw [removeList_append, removeList_of_not_mem (not_mem_right_of_sorted h hk)]

theorem removeList_head_single {ys : List (K × List V)} {key : K} {vs : List V}
    (h : (((key, vs) :: ys).map Prod.fst).Pairwise (fun a b => a < b))
    (hv : ¬ vs.length > 1) : removeList key ((key, vs) :: ys) = ys := by
  have hn : key ∉ ys.map Prod.fst := by
    intro hy
    simp only [List.map_cons, List.pairwise_cons] at h
    exact lt_irrefl _ (h.1 key hy)
  have := removeList_of_not_mem hn
  simp only [removeList, List.filterMap_cons] at this ⊢
  simp [removeEntry, hv, this]

theorem removeList_head_multi {ys : List (K × List V)} {key : K} {vs : List V}
    (h : (((key, vs) :: ys).map Prod.fst).Pairwise (fun a b => a < b))
    (hv : vs.length > 1) : removeList key ((key, vs) :: ys) = (key, vs.tail) :: ys := by
  have hn : key ∉ ys.map Prod.fst := by
    intro hy
    simp only [List.map_cons, List.pairwise_cons] at h
    exact lt_irrefl _ (h.1 key hy)
  have := removeList_of_not_mem hn
  simp only [removeList, List.filterMap_cons] at this ⊢
  simp [removeEntry, hv, this]

theorem Ordered_node (k : K) (vs : List V) (c : Color) (l r : Node K V) :
    Ordered (node k vs c l r) ↔
      Ordered l ∧ Ordered r ∧ (∀ x ∈ keys l, x < k) ∧ (∀ x ∈ keys r, k < x) := by
  simp only [Ordered, keys_node, List.pairwise_append, List.pairwise_cons, List.mem_cons]
  constructor
  · rintro ⟨h1, ⟨h2, h3⟩, h4⟩
    exact ⟨h1, h3, fun x hx => h4 x hx k (Or.inl rfl), h2⟩
  · rintro ⟨h1, h2, h3, h4⟩
    refine ⟨h1, ⟨h4, h2⟩, ?_⟩
    intro a ha b hb
    rcases hb with rfl | hb
    · exact h3 a ha
    · exact lt_trans (h3 a ha) (h4 b hb)

end Node
end LLRB

namespace LLRB
namespace Node
variable {K V : Type}

/-- The shifting loop started at position `pre.length` on `pre ++ x :: rest` yields
`pre ++ rest` followed by the last value. -/
theorem shiftLoop_spec : ∀ (rest pre : List V) (x : V) (fuel : Nat), rest.length ≤ fuel →
    shiftLoop fuel pre.length (pre ++ x :: rest) =
      some (pre ++ rest ++ [(x :: rest).getLast (by simp)]) := by
  intro rest
  induction rest with
  | nil =>
    intro pre x fuel _
    cases fuel <;> simp [shiftLoop]
  | cons y rest ih =>
    intro pre x fuel hf
    cases fuel with
    | zero => simp at hf
    | succ fuel =>
      have h1 : pre.length < (pre ++ x :: y :: rest).length - 1 := by simp
      have h2 : (pre ++ x :: y :: rest)[pre.length + 1]? = some y := by
        rw [List.getElem?_append_right (by omega)]
        simp
      have h3 : (pre ++ x :: y :: rest).set pre.length y = (pre ++ [y]) ++ y :: rest := by
        rw [List.set_append_right _ _ (le_refl _)]
        simp
      have h4 := ih (pre ++ [y]) y fuel (by simpa using hf)
      simp only [List.length_append, List.length_singleton] at h4
      rw [shiftLoop, if_pos h1, h2]
      simp only [h3]
      rw [if_pos (by simp)]
      rw [h4]
      simp

/-- Dropping the front value of a list with at least two values gives its tail. -/
theorem dropFront_spec (vs : List V) (h : 1 < vs.length) : dropFront vs = some vs.tail := by
  rcases vs with _ | ⟨x, rest⟩
  · simp at h
  · have := shiftLoop_spec rest [] x (x :: rest).length (by simp)
    simp only [List.nil_append, List.length_nil, List.length_cons] at this
    simp [dropFront, this]

/-- `Min` returns the node of the first entry of the traversal. -/
theorem Min_spec : ∀ (n : Node K V), n ≠ nil →
    ∃ mk mvs mc ml mr, Min n = some (node mk mvs mc ml mr) ∧
      inorder n = (mk, mvs) :: (inorder n).tail := by
  intro n
  induction n with
  | nil => intro h; exact absurd rfl h
  | node k vs c l r ihl _ =>
    intro _
    rcases l with _ | ⟨lk, lvs, lc, ll, lr⟩
    · exact ⟨k, vs, c, nil, r, by simp [Min], by simp⟩
    · obtain ⟨mk, mvs, mc, ml, mr, h1, h2⟩ := ihl (by simp)
      refine ⟨mk, mvs, mc, ml, mr, by simpa [Min] using h1, ?_⟩
      rw [inorder_node, h2]
      simp

end Node
end LLRB

namespace LLRB
namespace Node
variable {K V : Type} [LinearOrder K]

theorem Ordered_suffix {n t : Node K V} {xs : List (K × List V)} (ho : Ordered n)
    (hin : inorder n = xs ++ inorder t) : Ordered t := by
  unfold Ordered keys at ho ⊢
  rw [hin] at ho
  exact sorted_right ho

theorem Ordered_initial {n t : Node K V} {ys : List (K × List V)} (ho : Ordered n)
    (hin : inorder n = inorder t ++ ys) : Ordered t := by
  unfold Ordered keys at ho ⊢
  rw [hin] at ho
  exact sorted_left ho

theorem removeList_suffix {n t : Node K V} {xs : List (K × List V)} {key : K} (ho : Ordered n)
    (hin : inorder n = xs ++ inorder t) (hk : key ∈ keys t) :
    removeList key (inorder n) = xs ++ removeList key (inorder t) := by
  unfold Ordered keys at ho
  rw [hin] at ho ⊢
  exact removeList_right ho hk

theorem removeList_initial {n t : Node K V} {ys : List (K × List V)} {key : K} (ho : Ordered n)
    (hin : inorder n = inorder t ++ ys) (hk : key ∈ keys t) :
    removeList key (inorder n) = removeList key (inorder t) ++ ys := by
  unfold Ordered keys at ho
  rw [hin] at ho ⊢
  exact removeList_left ho hk

theorem removeList_at_single {n : Node K V} {xs ys : List (K × List V)} {key : K} {vs : List V}
    (ho : Ordered n) (hin : inorder n = xs ++ (key, vs) :: ys) (hv : ¬ vs.length > 1) :
    removeList key (inorder n) = xs ++ ys := by
  unfold Ordered keys at ho
  rw [hin] at ho ⊢
  rw [removeList_right ho (by simp), removeList_head_single (sorted_right ho) hv]

theorem removeList_at_multi {n : Node K V} {xs ys : List (K × List V)} {key : K} {vs : List V}
    (ho : Ordered n) (hin : inorder n = xs ++ (key, vs) :: ys) (hv : vs.length > 1) :
    removeList key (inorder n) = xs ++ (key, vs.tail) :: ys := by
  unfold Ordered keys at ho
  rw [hin] at ho ⊢
  rw [removeList_right ho (by simp), removeList_head_multi (sorted_right ho) hv]

end Node
end LLRB

namespace LLRB
namespace Node
variable {K V : Type} [LinearOrder K]

/-- The recursive `Remove` on a subtree that holds the key and satisfies one of the two
entry conditions: it returns, the result is a valid subtree of the same black height, black
when the input root was black, and its traversal is that of the input with the entry of
the key updated. -/
theorem Remove_spec : ∀ (fuel : Nat) (n : Node K V) (key : K), size n ≤ fuel →
    (RedTop n ∨ RedRight n key) → Ordered n → key ∈ keys n →
    ∃ res, Remove fuel n key = some res ∧ Valid res ∧ bh res = bh n ∧
      (IsRed n = false → IsRed res = false) ∧ inorder res = removeList key (inorder n) := by
  intro fuel
  induction fuel with
  | zero =>
    intro n key hs _ _ hk
    rcases n with _ | ⟨k, vs, c, l, r⟩
    · simp [keys] at hk
    · simp at hs
  | succ fuel ih =>
    intro n key hs hpre ho hk
    rcases n with _ | ⟨k, vs, c, l, r⟩
    · simp [keys] at hk
    obtain ⟨hol, hor, hlk, hrk⟩ := (Ordered_node k vs c l r).1 ho
    by_cases hmulti : key = k ∧ vs.length > 1
    · -- several values under the key: only the front value goes
      obtain ⟨rfl, hv⟩ := hmulti
      have hA : RedTop (node key vs c l r) := by
        rcases hpre with h | h
        · exact h
        · exact absurd ⟨rfl, hv⟩ h.2.2.2.2.2.2.2
      refine ⟨node key vs.tail c l r, ?_, ?_, ?_, ?_, ?_⟩
      · simp [Remove, hv, dropFront_spec vs hv]
      · exact hA.1
      · rfl
      · exact id
      · rw [removeList_at_multi ho (inorder_node _ _ _ _ _) hv]
        rfl
    by_cases hlt : key < k
    · -- the key is in the left subtree
      have hA : RedTop (node k vs c l r) := by
        rcases hpre with h | h
        · exact h
        · exact absurd hlt h.2.2.2.2.2.2.1
      have hkl : key ∈ keys l := by
        rw [keys_node] at hk
        rcases List.mem_append.1 hk with h | h
        · exact h
        · rcases List.mem_cons.1 h with h | h
          · exact absurd hlt (by rw [h]; exact lt_irrefl _)
          · exact absurd hlt (not_lt_of_gt (hrk key h))
      obtain ⟨move, k2, vs2, c2, l2, r2, hm, hp, hl2, hsz, hin, ⟨m, hm2⟩, hk2⟩ :=
        prepLeft k vs c l r (ne_nil_of_mem_keys hkl) hA
      have ho2 : Ordered l2 := Ordered_initial ho hin.symm
      have hkl2 : key ∈ keys l2 := by
        unfold keys at hkl ⊢
        rw [hm2, List.map_append]
        exact List.mem_append_left _ hkl
      obtain ⟨l', hd, hv', hb', hc', hi'⟩ := ih l2 key (by omega) (Or.inl hl2) ho2 hkl2
      obtain ⟨res, hf, hrv, hrb, hrc, hri⟩ := hk2 l' hv' hb' hc'
      refine ⟨res, ?_, hrv, hrb, fun h => hrc (IsRed_eq_false_node h), ?_⟩
      · cases move
        · simp only [Bool.false_eq_true, if_false] at hp
          simp [Remove, hmulti, hlt, hm, hp, left?, setLeft?, hd, hf]
        · simp only [if_true] at hp
          simp [Remove, hmulti, hlt, hm, hp, left?, setLeft?, hd, hf]
      · rw [hri, hi', removeList_initial ho hin.symm hkl2]
    · -- the key is at this node or in the right subtree
      have hkr : key = k ∨ key ∈ keys r := by
        rw [keys_node] at hk
        rcases List.mem_append.1 hk with h | h
        · exact absurd (hlk key h) hlt
        · exact List.mem_cons.1 h
      have hsingle : key = k → ¬ vs.length > 1 := fun h1 h2 => hmulti ⟨h1, h2⟩
      by_cases hlr : IsRed l = true
      · -- red left child: rotate right, then continue in the old node
        have hA : RedTop (node k vs c l r) := by
          rcases hpre with h | h
          · exact h
          · rw [h.2.2.2.2.1] at hlr
            exact absurd hlr (by simp)
        obtain ⟨lk, lvs, ll, lr, rfl⟩ := IsRed_eq_true hlr
        obtain ⟨hv, -⟩ := hA
        simp only [Valid_node] at hv
        obtain ⟨⟨hll, hlr1, hlb, hlr2, hll2⟩, hr, hb, hr2, hc⟩ := hv
        have hcb : c = Color.BLACK := by
          cases c
          · simp at hc
          · rfl
        subst hcb
        have hklk : key ≠ lk := by
          intro h
          have : lk < k := hlk lk (by simp [keys_node])
          exact hlt (h ▸ this)
        have hin : inorder (node k vs Color.BLACK (node lk lvs Color.RED ll lr) r) =
            (inorder ll ++ [(lk, lvs)]) ++ inorder (node k vs Color.RED lr r) := by simp
        have hkt : key ∈ keys (node k vs Color.RED lr r) := by
          rw [keys_node]
          rcases hkr with h | h
          · simp [h]
          · simp [h]
        have hT : RedTop (node k vs Color.RED lr r) := by
          refine ⟨?_, by simp⟩
          simp only [Valid_node, bh_red, bh_black] at *
          exact ⟨hlr1, hr, by omega, hr2, fun _ => hlr2⟩
        obtain ⟨r', hd, hv', hb', -, hi'⟩ := ih (node k vs Color.RED lr r) key
          (by simp at hs ⊢; omega) (Or.inl hT) (Ordered_suffix ho hin) hkt
        obtain ⟨res, hf, hrv, hrb, hri, hrc⟩ := FixUp_valid lk lvs Color.BLACK ll r' hll hv'
          (by simp only [bh_red, bh_black] at *; omega) (by simp)
        refine ⟨res, ?_, hrv, ?_, fun _ => hrc rfl (by simp [hll2 trivial]), ?_⟩
        · simp [Remove, hmulti, hlt, RotateRight, hklk, needsMove_red, hd, hf]
        · simp only [bh_red, bh_black] at *
          omega
        · rw [hri, removeList_suffix ho hin hkt, inorder_node, hi']
          simp
      · simp only [Bool.not_eq_true] at hlr
        rcases r with _ | ⟨rk, rvs, rc, rl, rr⟩
        · -- no right child: the key is here and the node goes
          have hkk : key = k := by
            rcases hkr with h | h
            · exact h
            · simp [keys] at h
          subst hkk
          have hA : RedTop (node key vs c l nil) := by
            rcases hpre with h | h
            · exact h
            · have := h.2.2.2.2.2.1
              simp at this
          obtain ⟨hv, hred⟩ := hA
          simp only [Valid_node] at hv
          obtain ⟨-, -, hb, -, -⟩ := hv
          have hcr : c = Color.RED := by
            cases c
            · rfl
            · simp [leftRed, hlr] at hred
          subst hcr
          have hln : l = nil := eq_nil_of_bh_zero (by rw [hb]; rfl) hlr
          subst hln
          have hv1 : ¬ 1 < vs.length := hsingle rfl
          refine ⟨nil, ?_, by simp, by simp, by simp, ?_⟩
          · simp [Remove, hv1, isNil]
          · rw [@removeList_at_single K V _ _ [] [] key vs ho (by simp) (hsingle rfl)]
            rfl
        · cases rc
          · -- red right child: the node was re-entered after MoveRedRight
            have hB : RedRight (node k vs c l (node rk rvs Color.RED rl rr)) key := by
              rcases hpre with h | h
              · have := h.1
                simp at this
              · exact h
            obtain ⟨rfl, hvl, hvr, hb, -, -, -, -⟩ := hB
            have hT : RedTop (node rk rvs Color.RED rl rr) := ⟨hvr, by simp⟩
            by_cases hkk : key = k
            · subst hkk
              obtain ⟨mk, mvs, mc, ml, mr, hmin, hmi⟩ :=
                Min_spec (node rk rvs Color.RED rl rr) (by simp)
              obtain ⟨r', hd, hv', hb', -, hi'⟩ := DeleteMin_spec fuel
                (node rk rvs Color.RED rl rr) (by simp at hs ⊢; omega) hT
              obtain ⟨res, hf, hrv, hrb, hri, hrc⟩ := FixUp_valid mk mvs Color.BLACK l r' hvl hv'
                (by rw [hb', hb]) (by simp)
              have hv1 : ¬ 1 < vs.length := hsingle rfl
              refine ⟨res, ?_, hrv, ?_, fun _ => hrc rfl (by simp [hlr]), ?_⟩
              · simp [Remove, hv1, hlr, isNil, needsMove_red, hmin, hd, hf]
              · simp only [bh_red, bh_black] at *
                omega
              · rw [hri, removeList_at_single ho (inorder_node _ _ _ _ _) (hsingle rfl),
                  inorder_node, hi']
                conv_rhs => rw [hmi]
            · have hkt : key ∈ keys (node rk rvs Color.RED rl rr) := hkr.resolve_left hkk
              have hin : inorder (node k vs Color.BLACK l (node rk rvs Color.RED rl rr)) =
                  (inorder l ++ [(k, vs)]) ++ inorder (node rk rvs Color.RED rl rr) := by simp
              obtain ⟨r', hd, hv', hb', -, hi'⟩ := ih (node rk rvs Color.RED rl rr) key
                (by simp at hs ⊢; omega) (Or.inl hT) hor hkt
              obtain ⟨res, hf, hrv, hrb, hri, hrc⟩ := FixUp_valid k vs Color.BLACK l r' hvl hv'
                (by rw [hb', hb]) (by simp)
              refine ⟨res, ?_, hrv, ?_, fun _ => hrc rfl (by simp [hlr]), ?_⟩
              · simp [Remove, hmulti, hlt, hlr, hkk, needsMove_red, hd, hf]
              · simp only [bh_red, bh_black] at *
                omega
              · rw [hri, removeList_suffix ho hin hkt, inorder_node, hi']
                simp
          · -- black right child: the node itself is red
            have hA : RedTop (node k vs c l (node rk rvs Color.BLACK rl rr)) := by
              rcases hpre with h | h
              · exact h
              · have := h.2.2.2.2.2.1
                simp at this
            obtain ⟨hv, hred⟩ := hA
            have hcr : c = Color.RED := by
              cases c
              · rfl
              · simp [leftRed, hlr] at hred
            subst hcr
            simp only [Valid_node] at hv
            obtain ⟨hvl, ⟨hrl, hrr, hrb, hrr2, -⟩, hb, -, -⟩ := hv
            have hvr : Valid (node rk rvs Color.BLACK rl rr) := by
              simp only [Valid_node]
              exact ⟨hrl, hrr, hrb, hrr2, by simp⟩
            have hv1 : key = k → ¬ 1 < vs.length := hsingle
            by_cases hrlr : IsRed rl = true
            · -- its left child is red: no move
              have hT : RedTop (node rk rvs Color.BLACK rl rr) := ⟨hvr, by simp [leftRed, hrlr]⟩
              by_cases hkk : key = k
              · subst hkk
                obtain ⟨mk, mvs, mc, ml, mr, hmin, hmi⟩ :=
                  Min_spec (node rk rvs Color.BLACK rl rr) (by simp)
                obtain ⟨r', hd, hv', hb', hc', hi'⟩ := DeleteMin_spec fuel
                  (node rk rvs Color.BLACK rl rr) (by simp at hs ⊢; omega) hT
                obtain ⟨res, hf, hrv, hrb', hri, -⟩ := FixUp_valid mk mvs Color.RED l r' hvl hv'
                  (by rw [hb', hb]) (fun _ => ⟨hlr, hc' (by simp)⟩)
                have hv2 : ¬ 1 < vs.length := hsingle rfl
                refine ⟨res, ?_, hrv, ?_, by simp, ?_⟩
                · simp [Remove, hv2, hlr, isNil, needsMove_black, hrlr, hmin, hd, hf]
                · simp only [bh_red, bh_black] at *
                  omega
                · rw [hri, removeList_at_single ho (inorder_node _ _ _ _ _) (hsingle rfl),
                    inorder_node, hi']
                  conv_rhs => rw [hmi]
              · have hkt : key ∈ keys (node rk rvs Color.BLACK rl rr) := hkr.resolve_left hkk
                have hin : inorder (node k vs Color.RED l (node rk rvs Color.BLACK rl rr)) =
                    (inorder l ++ [(k, vs)]) ++ inorder (node rk rvs Color.BLACK rl rr) := by simp
                obtain ⟨r', hd, hv', hb', hc', hi'⟩ := ih (node rk rvs Color.BLACK rl rr) key
                  (by simp at hs ⊢; omega) (Or.inl hT) hor hkt
                obtain ⟨res, hf, hrv, hrb', hri, -⟩ := FixUp_valid k vs Color.RED l r' hvl hv'
                  (by rw [hb', hb]) (fun _ => ⟨hlr, hc' (by simp)⟩)
                refine ⟨res, ?_, hrv, ?_, by simp, ?_⟩
                · simp [Remove, hmulti, hlt, hlr, hkk, needsMove_black, hrlr, hd, hf]
                · simp only [bh_red, bh_black] at *
                  omega
                · rw [hri, removeList_suffix ho hin hkt, inorder_node, hi']
                  simp
            · simp only [Bool.not_eq_true] at hrlr
              -- MoveRedRight
              have hlpos : 0 < bh l := by
                rw [hb]; simp
              obtain ⟨lk, lvs, lc, ll, lr, rfl⟩ := Valid_nonnil_of_bh hlpos
              have hlc : lc = Color.BLACK := IsRed_eq_false_node hlr
              subst hlc
              simp only [Valid_node] at hvl
              obtain ⟨hll, hlr1, hlb, hlr2, -⟩ := hvl
              have hklk : key ≠ lk := by
                intro h
                have : lk < k := hlk lk (by simp [keys_node])
                exact hlt (h ▸ this)
              by_cases hllr : IsRed ll = true
              · -- rotation: continue in the old node, now below its former left child
                obtain ⟨yk, yvs, yl, yr, rfl⟩ := IsRed_eq_true hllr
                simp only [Valid_node] at hll
                obtain ⟨hyl, hyr, hyb, hyr2, hyl2⟩ := hll
                have hin : inorder (node k vs Color.RED
                      (node lk lvs Color.BLACK (node yk yvs Color.RED yl yr) lr)
                      (node rk rvs Color.BLACK rl rr)) =
                    (inorder (node yk yvs Color.BLACK yl yr) ++ [(lk, lvs)]) ++
                      inorder (node k vs Color.BLACK lr (node rk rvs Color.RED rl rr)) := by simp
                have hkt : key ∈ keys (node k vs Color.BLACK lr (node rk rvs Color.RED rl rr)) := by
                  rw [keys_node]
                  rcases hkr with h | h
                  · simp [h]
                  · exact List.mem_append_right _ (List.mem_cons_of_mem _ h)
                have hT : RedRight (node k vs Color.BLACK lr (node rk rvs Color.RED rl rr)) key := by
                  refine ⟨rfl, hlr1, ?_, ?_, hlr2, by simp, hlt, hmulti⟩
                  · simp only [Valid_node]
                    exact ⟨hrl, hrr, hrb, hrr2, fun _ => hrlr⟩
                  · simp only [bh_red, bh_black] at *
                    omega
                obtain ⟨r', hd, hv', hb', hc', hi'⟩ :=
                  ih (node k vs Color.BLACK lr (node rk rvs Color.RED rl rr)) key
                  (by simp at hs ⊢; omega) (Or.inr hT) (Ordered_suffix ho hin) hkt
                obtain ⟨res, hf, hrv, hrb', hri, -⟩ := FixUp_valid lk lvs Color.RED
                  (node yk yvs Color.BLACK yl yr) r'
                  (by simp only [Valid_node]; exact ⟨hyl, hyr, hyb, hyr2, by simp⟩) hv'
                  (by simp only [bh_red, bh_black] at *; omega)
                  (fun _ => ⟨by simp, hc' (by simp)⟩)
                refine ⟨res, ?_, hrv, ?_, by simp, ?_⟩
                · simp [Remove, hmulti, hlt, isNil, needsMove_black, hrlr, MoveRedRight_rot,
                    hklk, hd, hf]
                · simp only [bh_red, bh_black] at *
                  omega
                · rw [hri, removeList_suffix ho hin hkt, inorder_node, hi']
                  simp
              · simp only [Bool.not_eq_true] at hllr
                have hT : RedTop (node rk rvs Color.RED rl rr) := by
                  refine ⟨?_, by simp⟩
                  simp only [Valid_node]
                  exact ⟨hrl, hrr, hrb, hrr2, fun _ => hrlr⟩
                have hvl' : Valid (node lk lvs Color.RED ll lr) := by
                  simp only [Valid_node]
                  exact ⟨hll, hlr1, hlb, hlr2, fun _ => hllr⟩
                by_cases hkk : key = k
                · subst hkk
                  obtain ⟨mk, mvs, mc, ml, mr, hmin, hmi⟩ :=
                    Min_spec (node rk rvs Color.RED rl rr) (by simp)
                  obtain ⟨r', hd, hv', hb', -, hi'⟩ := DeleteMin_spec fuel
                    (node rk rvs Color.RED rl rr) (by simp at hs ⊢; omega) hT
                  obtain ⟨res, hf, hrv, hrb', hri, -⟩ := FixUp_valid mk mvs Color.BLACK
                    (node lk lvs Color.RED ll lr) r' hvl' hv'
                    (by simp only [bh_red, bh_black] at *; omega) (by simp)
                  have hv2 : ¬ 1 < vs.length := hsingle rfl
                  refine ⟨res, ?_, hrv, ?_, by simp, ?_⟩
                  · simp [Remove, hv2, isNil, needsMove_black, hrlr, MoveRedRight_flip, hllr,
                      hmin, hd, hf]
                  · simp only [bh_red, bh_black] at *
                    omega
                  · rw [hri, removeList_at_single ho (inorder_node _ _ _ _ _) (hsingle rfl),
                      inorder_node, hi']
                    have hmi' : inorder (node rk rvs Color.BLACK rl rr) =
                        (mk, mvs) :: (inorder (node rk rvs Color.RED rl rr)).tail := hmi
                    rw [hmi']
                    rfl
                · have hkt : key ∈ keys (node rk rvs Color.RED rl rr) := hkr.resolve_left hkk
                  have hin : inorder (node k vs Color.RED (node lk lvs Color.BLACK ll lr)
                        (node rk rvs Color.BLACK rl rr)) =
                      (inorder (node lk lvs Color.RED ll lr) ++ [(k, vs)]) ++
                        inorder (node rk rvs Color.RED rl rr) := by simp
                  obtain ⟨r', hd, hv', hb', -, hi'⟩ := ih (node rk rvs Color.RED rl rr) key
                    (by simp at hs ⊢; omega) (Or.inl hT) hor hkt
                  obtain ⟨res, hf, hrv, hrb', hri, -⟩ := FixUp_valid k vs Color.BLACK
                    (node lk lvs Color.RED ll lr) r' hvl' hv'
                    (by simp only [bh_red, bh_black] at *; omega) (by simp)
                  refine ⟨res, ?_, hrv, ?_, by simp, ?_⟩
                  · simp [Remove, hmulti, hlt, hkk, isNil, needsMove_black, hrlr,
                      MoveRedRight_flip, hllr, hd, hf]
                  · simp only [bh_red, bh_black] at *
                    omega
                  · rw [hri, removeList_suffix ho hin hkt, inorder_node, hi']
                    simp

end Node
end LLRB

namespace LLRB
namespace Node
variable {K V : Type} [LinearOrder K]

theorem insertList_left (key : K) (value : V) (k : K) (vs : List V) (ys : List (K × List V))
    (h : key < k) : ∀ xs : List (K × List V),
    insertList key value (xs ++ (k, vs) :: ys) = insertList key value xs ++ (k, vs) :: ys := by
  intro xs
  induction xs with
  | nil => simp [insertList, h]
  | cons a t ih =>
    obtain ⟨ak, avs⟩ := a
    by_cases h1 : key < ak
    · simp [insertList, h1]
    · by_cases h2 : ak < key
      · simp [insertList, h1, h2, ih]
      · simp [insertList, h1, h2]

theorem insertList_right (key : K) (value : V) (ys : List (K × List V)) :
    ∀ xs : List (K × List V), (∀ x ∈ xs.map Prod.fst, x < key) →
    insertList key value (xs ++ ys) = xs ++ insertList key value ys := by
  intro xs
  induction xs with
  | nil => intro _; rfl
  | cons a t ih =>
    intro h
    obtain ⟨ak, avs⟩ := a
    have h1 : ak < key := h ak (by simp)
    have h2 : ¬ key < ak := not_lt_of_gt h1
    have h3 := ih (fun x hx => h x (by simp at hx ⊢; exact Or.inr hx))
    simp [insertList, h1, h2, h3]

/-- The recursive `Insert` on a valid ordered subtree: it returns a node of the same black
height whose traversal is the updated one; the result is valid, or, when the input root was
red, a red node with a red left child. -/
theorem Insert_spec (key : K) (value : V) : ∀ (n : Node K V), Valid n → Ordered n →
    ∃ res, Insert n key value = some res ∧ res ≠ nil ∧ bh res = bh n ∧
      (Valid res ∨ (IsRed n = true ∧ RedRed res)) ∧
      inorder res = insertList key value (inorder n) := by
  intro n
  induction n with
  | nil =>
    intro _ _
    refine ⟨node key [value] Color.RED nil nil, ?_, by simp, by simp, Or.inl (by simp), rfl⟩
    simp [Insert, FixUp_keep]
  | node k vs c l r ihl ihr =>
    intro hv ho
    obtain ⟨hol, hor, hlk, hrk⟩ := (Ordered_node k vs c l r).1 ho
    have hv0 := hv
    simp only [Valid_node] at hv
    obtain ⟨hl, hr, hb, hr2, hc⟩ := hv
    by_cases hlt : key < k
    · obtain ⟨l', hi, hne, hbl, hsh, hin⟩ := ihl hl hol
      have hfin : ∀ res, inorder res = inorder l' ++ (k, vs) :: inorder r →
          inorder res = insertList key value (inorder (node k vs c l r)) := by
        intro res h
        rw [h, hin, inorder_node, insertList_left key value k vs _ hlt]
      rcases hsh with hvl' | ⟨hlred, hrr⟩
      · cases c
        · -- red node: its children were black
          have hlb : IsRed l = false := hc rfl
          by_cases hl'r : IsRed l' = true
          · obtain ⟨lk, lvs, ll, lr, rfl⟩ := IsRed_eq_true hl'r
            have hvl2 := hvl'
            simp only [Valid_node] at hvl2
            obtain ⟨hll, hlr, hlb2, hlr2, hll2⟩ := hvl2
            refine ⟨node k vs Color.RED (node lk lvs Color.RED ll lr) r, ?_, by simp, ?_,
              Or.inr ⟨by simp, ?_⟩, hfin _ (by simp)⟩
            · simp [Insert, hlt, hi, FixUp_keep_red, hll2 trivial, hr2]
            · simp only [bh_red] at *
              omega
            · refine ⟨hvl', hr, ?_, hr2⟩
              simp only [bh_red] at *
              omega
          · simp only [Bool.not_eq_true] at hl'r
            obtain ⟨res, hf, hrv, hrb, hri, -⟩ := FixUp_valid k vs Color.RED l' r hvl' hr
              (by rw [hbl, hb]) (fun _ => ⟨hl'r, hr2⟩)
            refine ⟨res, ?_, ?_, ?_, Or.inl hrv, hfin _ (by simpa using hri)⟩
            · simp [Insert, hlt, hi, hf]
            · intro h0
              subst h0
              simp at hri
            · simp only [bh_red] at *
              omega
        · obtain ⟨res, hf, hrv, hrb, hri, -⟩ := FixUp_valid k vs Color.BLACK l' r hvl' hr
            (by rw [hbl, hb]) (by simp)
          refine ⟨res, ?_, ?_, ?_, Or.inl hrv, hfin _ (by simpa using hri)⟩
          · simp [Insert, hlt, hi, hf]
          · intro h0
            subst h0
            simp at hri
          · simp only [bh_black] at *
            omega
      · -- red-red on the left: the node is black, rotate right and flip
        obtain ⟨lk, lvs, llk, llvs, lll, llr, lr, rfl, hvll, hvlr, hbll, hlr2⟩ := RedRed_shape hrr
        have hcb : c = Color.BLACK := by
          cases c
          · rw [hc rfl] at hlred
            exact absurd hlred (by simp)
          · rfl
        subst hcb
        simp only [Valid_node] at hvll
        obtain ⟨h1, h2, h3, h4, -⟩ := hvll
        refine ⟨node lk lvs Color.RED (node llk llvs Color.BLACK lll llr)
          (node k vs Color.BLACK lr r), ?_, by simp, ?_, Or.inl ?_, hfin _ (by simp)⟩
        · simp [Insert, hlt, hi, FixUp_rotR]
        · simp only [bh_red, bh_black] at *
          omega
        · simp only [Valid_node, bh_red, bh_black] at *
          exact ⟨⟨h1, h2, h3, h4, by simp⟩, ⟨hvlr, hr, by omega, hr2, by simp⟩, by omega,
            by simp, by simp⟩
    · by_cases hgt : k < key
      · obtain ⟨r', hi, hne, hbr, hsh, hin⟩ := ihr hr hor
        have hvr' : Valid r' := by
          rcases hsh with h | ⟨h, -⟩
          · exact h
          · rw [hr2] at h
            exact absurd h (by simp)
        have hfin : ∀ res, inorder res = inorder l ++ (k, vs) :: inorder r' →
            inorder res = insertList key value (inorder (node k vs c l r)) := by
          intro res h
          rw [h, hin, inorder_node, insertList_right key value _ _
            (fun x hx => lt_trans (hlk x hx) hgt)]
          simp [insertList, hlt, hgt]
        cases c
        · have hlb : IsRed l = false := hc rfl
          by_cases hr'r : IsRed r' = true
          · obtain ⟨rk, rvs, rl, rr, rfl⟩ := IsRed_eq_true hr'r
            have hvr2 := hvr'
            simp only [Valid_node] at hvr2
            obtain ⟨hrl, hrr, hrb2, hrr2, hrl2⟩ := hvr2
            refine ⟨node rk rvs Color.RED (node k vs Color.RED l rl) rr, ?_, by simp, ?_,
              Or.inr ⟨by simp, ?_⟩, hfin _ (by simp)⟩
            · simp [Insert, hlt, hgt, hi, FixUp_rotL, hlb, hrr2]
            · simp only [bh_red]
            · show Valid (node k vs Color.RED l rl) ∧ Valid rr ∧ bh l = bh rr ∧ IsRed rr = false
              simp only [bh_red] at *
              refine ⟨?_, hrr, by omega, hrr2⟩
              simp only [Valid_node]
              exact ⟨hl, hrl, by omega, hrl2 trivial, fun _ => hlb⟩
          · simp only [Bool.not_eq_true] at hr'r
            obtain ⟨res, hf, hrv, hrb, hri, -⟩ := FixUp_valid k vs Color.RED l r' hl hvr'
              (by rw [hbr, hb]) (fun _ => ⟨hlb, hr'r⟩)
            refine ⟨res, ?_, ?_, ?_, Or.inl hrv, hfin _ (by simpa using hri)⟩
            · simp [Insert, hlt, hgt, hi, hf]
            · intro h0
              subst h0
              simp at hri
            · simp only [bh_red] at *
              omega
        · obtain ⟨res, hf, hrv, hrb, hri, -⟩ := FixUp_valid k vs Color.BLACK l r' hl hvr'
            (by rw [hbr, hb]) (by simp)
          refine ⟨res, ?_, ?_, ?_, Or.inl hrv, hfin _ (by simpa using hri)⟩
          · simp [Insert, hlt, hgt, hi, hf]
          · intro h0
            subst h0
            simp at hri
          · simp only [bh_black] at *
            omega
      · -- equal key: the value is appended
        have hkk : key = k := le_antisymm (not_lt.1 hgt) (not_lt.1 hlt)
        subst hkk
        obtain ⟨res, hf, hrv, hrb, hri, -⟩ := FixUp_valid key (vs ++ [value]) c l r hl hr hb
          (fun h => ⟨hc h, hr2⟩)
        refine ⟨res, ?_, ?_, ?_, Or.inl hrv, ?_⟩
        · simp [Insert, hf]
        · intro h0
          subst h0
          simp at hri
        · simpa using hrb
        · rw [hri, inorder_node, inorder_node, insertList_right key value _ _ hlk]
          simp [insertList]

end Node
end LLRB

namespace LLRB
namespace Node
variable {K V : Type}

@[simp] theorem paintBlack_nil : paintBlack (nil : Node K V) = nil := rfl
@[simp] theorem paintBlack_node (k : K) (vs : List V) (c : Color) (l r : Node K V) :
    paintBlack (node k vs c l r) = node k vs Color.BLACK l r := rfl

theorem FixUp_rotL_flip (k : K) (vs : List V) (c : Color) (l : Node K V) (rk : K) (rvs : List V)
    (rl : Node K V) (xk : K) (xvs : List V) (xl xr : Node K V) (h1 : IsRed l = false) :
    FixUp (node k vs c l (node rk rvs Color.RED rl (node xk xvs Color.RED xl xr))) =
      some (node rk rvs c.flip (node k vs Color.BLACK l rl) (node xk xvs Color.BLACK xl xr)) := by
  simp [FixUp, left?, right?, RotateLeft, FlipColors, h1]

/-- The result of `FixUp` depends on the colour of the node only in the colour of the
resulting root. -/
theorem FixUp_paint (k : K) (vs : List V) (c c' : Color) (l r : Node K V) :
    (FixUp (node k vs c l r)).map paintBlack = (FixUp (node k vs c' l r)).map paintBlack := by
  by_cases hl : IsRed l = true
  · obtain ⟨lk, lvs, ll, lr, rfl⟩ := IsRed_eq_true hl
    by_cases hll : IsRed ll = true
    · obtain ⟨yk, yvs, yl, yr, rfl⟩ := IsRed_eq_true hll
      simp [FixUp_rotR]
    · simp only [Bool.not_eq_true] at hll
      by_cases hr : IsRed r = true
      · obtain ⟨rk, rvs, rl, rr, rfl⟩ := IsRed_eq_true hr
        simp [FixUp_flip, hll]
      · simp only [Bool.not_eq_true] at hr
        simp [FixUp_keep_red, hll, hr]
  · simp only [Bool.not_eq_true] at hl
    by_cases hr : IsRed r = true
    · obtain ⟨rk, rvs, rl, rr, rfl⟩ := IsRed_eq_true hr
      by_cases hrr : IsRed rr = true
      · obtain ⟨xk, xvs, xl, xr, rfl⟩ := IsRed_eq_true hrr
        simp [FixUp_rotL_flip, hl]
      · simp only [Bool.not_eq_true] at hrr
        simp [FixUp_rotL, hl, hrr]
    · simp only [Bool.not_eq_true] at hr
      simp [FixUp_keep, hl, hr]

theorem MoveRedLeft_paint (k : K) (vs : List V) (c c' : Color) (l r : Node K V) :
    (MoveRedLeft (node k vs c l r)).map paintBlack =
      (MoveRedLeft (node k vs c' l r)).map paintBlack := by
  rcases l with _ | ⟨lk, lvs, lc, ll, lr⟩
  · simp [MoveRedLeft, FlipColors]
  rcases r with _ | ⟨rk, rvs, rc, rl, rr⟩
  · simp [MoveRedLeft, FlipColors]
  by_cases hrl : IsRed rl = true
  · obtain ⟨xk, xvs, xl, xr, rfl⟩ := IsRed_eq_true hrl
    simp [MoveRedLeft_rot]
  · simp only [Bool.not_eq_true] at hrl
    simp [MoveRedLeft_flip, hrl]

theorem MoveRedRight_paint (k : K) (vs : List V) (c c' : Color) (l r : Node K V) :
    (MoveRedRight (node k vs c l r)).map paintBlack =
      (MoveRedRight (node k vs c' l r)).map paintBlack := by
  rcases l with _ | ⟨lk, lvs, lc, ll, lr⟩
  · simp [MoveRedRight, FlipColors]
  rcases r with _ | ⟨rk, rvs, rc, rl, rr⟩
  · simp [MoveRedRight, FlipColors]
  by_cases hll : IsRed ll = true
  · obtain ⟨yk, yvs, yl, yr, rfl⟩ := IsRed_eq_true hll
    simp [MoveRedRight_rot]
  · simp only [Bool.not_eq_true] at hll
    simp [MoveRedRight_flip, hll]

/-- Two optional nodes that agree up to the colour of the root. -/
theorem paint_cases {a b : Option (Node K V)} (h : a.map paintBlack = b.map paintBlack) :
    (a = none ∧ b = none) ∨ (a = some nil ∧ b = some nil) ∨
      ∃ k vs c c' l r, a = some (node k vs c l r) ∧ b = some (node k vs c' l r) := by
  rcases a with _ | a <;> rcases b with _ | b
  · exact Or.inl ⟨rfl, rfl⟩
  · simp at h
  · simp at h
  · rcases a with _ | ⟨k, vs, c, l, r⟩ <;> rcases b with _ | ⟨k', vs', c', l', r'⟩
    · exact Or.inr (Or.inl ⟨rfl, rfl⟩)
    · simp at h
    · simp at h
    · simp at h
      obtain ⟨rfl, rfl, rfl, rfl⟩ := h
      exact Or.inr (Or.inr ⟨k, vs, c, c', l, r, rfl, rfl⟩)

end Node
end LLRB

namespace LLRB
namespace Node
variable {K V : Type} [LinearOrder K]

/-- The recursive `Remove` depends on the colour of the node it starts from only in the
colour of the resulting root. -/
theorem Remove_paint (fuel : Nat) (k : K) (vs : List V) (c c' : Color) (l r : Node K V)
    (key : K) :
    (Remove fuel (node k vs c l r) key).map paintBlack =
      (Remove fuel (node k vs c' l r) key).map paintBlack := by
  cases fuel with
  | zero => simp [Remove]
  | succ fuel =>
    by_cases hmulti : key = k ∧ vs.length > 1
    · simp only [Remove, if_pos hmulti]
      cases dropFront vs <;> simp
    by_cases hlt : key < k
    · simp only [Remove, if_neg hmulti, if_pos hlt]
      cases hm : needsMove l with
      | none => simp
      | some move =>
        cases move
        · simp [left?, setLeft?]
          cases hr : Remove fuel l key with
          | none => simp
          | some l' => simpa using FixUp_paint k vs c c' l' r
        · rcases paint_cases (MoveRedLeft_paint k vs c c' l r) with
            ⟨h1, h2⟩ | ⟨h1, h2⟩ | ⟨k2, vs2, c2, c2', l2, r2, h1, h2⟩
          · simp [h1, h2]
          · simp [h1, h2, left?]
          · simp [h1, h2, left?, setLeft?]
            cases hr : Remove fuel l2 key with
            | none => simp
            | some l' => simpa using FixUp_paint k2 vs2 c2 c2' l' r2
    · simp only [Remove, if_neg hmulti, if_neg hlt]
      by_cases hl : IsRed l = true
      · obtain ⟨lk, lvs, ll, lr, rfl⟩ := IsRed_eq_true hl
        simp [RotateRight, isNil, needsMove_red]
        by_cases hk : key = lk
        · simp [hk]
          cases hmin : Min (node k vs Color.RED lr r) with
          | none => simp
          | some nm =>
            rcases nm with _ | ⟨mk, mvs, mc, ml, mr⟩
            · simp
            · simp
              cases hd : DeleteMin fuel (node k vs Color.RED lr r) with
              | none => simp
              | some r' => simpa using FixUp_paint mk mvs c c' ll r'
        · simp [hk]
          cases hd : Remove fuel (node k vs Color.RED lr r) key with
          | none => simp
          | some r' => simpa using FixUp_paint lk lvs c c' ll r'
      · simp only [Bool.not_eq_true] at hl
        simp [hl]
        by_cases hnil : key = k ∧ r.isNil = true
        · simp [hnil]
        · rw [if_neg hnil, if_neg hnil]
          cases hm : needsMove r with
          | none => simp
          | some move =>
            cases move
            · simp
              by_cases hk : key = k
              · simp [hk]
                cases hmin : Min r with
                | none => simp
                | some nm =>
                  rcases nm with _ | ⟨mk, mvs, mc, ml, mr⟩
                  · simp
                  · simp
                    cases hd : DeleteMin fuel r with
                    | none => simp
                    | some r' => simpa using FixUp_paint mk mvs c c' l r'
              · simp [hk]
                cases hd : Remove fuel r key with
                | none => simp
                | some r' => simpa using FixUp_paint k vs c c' l r'
            · rcases paint_cases (MoveRedRight_paint k vs c c' l r) with
                ⟨h1, h2⟩ | ⟨h1, h2⟩ | ⟨k2, vs2, c2, c2', l2, r2, h1, h2⟩
              · simp [h1, h2]
              · simp [h1, h2]
              · simp [h1, h2]
                by_cases hk : key = k2
                · simp [hk]
                  cases hmin : Min r2 with
                  | none => simp
                  | some nm =>
                    rcases nm with _ | ⟨mk, mvs, mc, ml, mr⟩
                    · simp
                    · simp
                      cases hd : DeleteMin fuel r2 with
                      | none => simp
                      | some r' => simpa using FixUp_paint mk mvs c2 c2' l2 r'
                · simp [hk]
                  cases hd : Remove fuel r2 key with
                  | none => simp
                  | some r' => simpa using FixUp_paint k2 vs2 c2 c2' l2 r'

end Node
end LLRB

namespace LLRB
namespace Node
variable {K V : Type}

/-- Number of values in a traversal. -/
theorem totalValues_eq (t : Node K V) :
    totalValues t = ((inorder t).map (fun e => e.2.length)).sum := by
  induction t with
  | nil => rfl
  | node k vs c l r ihl ihr => simp [totalValues, ihl, ihr]; omega

theorem inorder_paintBlack (t : Node K V) : inorder (paintBlack t) = inorder t := by
  cases t <;> rfl

theorem Valid_paintBlack {t : Node K V} (h : Valid t) : Valid (paintBlack t) := by
  rcases t with _ | ⟨k, vs, c, l, r⟩
  · exact h
  · simp only [paintBlack_node, Valid_node] at h ⊢
    exact ⟨h.1, h.2.1, h.2.2.1, h.2.2.2.1, by simp⟩

theorem IsRed_paintBlack (t : Node K V) : IsRed (paintBlack t) = false := by
  cases t <;> simp

theorem Valid_paintBlack_of_RedRed {t : Node K V} (h : RedRed t) : Valid (paintBlack t) := by
  obtain ⟨k, vs, lk, lvs, ll, lr, r, rfl, h1, h2, h3, h4⟩ := RedRed_shape h
  simp only [paintBlack_node, Valid_node, bh_red] at h1 ⊢
  exact ⟨h1, h2, h3, h4, by simp⟩

theorem totalValues_of_single : ∀ (t : Node K V), (∀ e ∈ inorder t, e.2.length = 1) →
    totalValues t = size t := by
  intro t
  induction t with
  | nil => intro _; rfl
  | node k vs c l r ihl ihr =>
    intro h
    have h1 := ihl (fun e he => h e (by simp [he]))
    have h2 := ihr (fun e he => h e (by simp [he]))
    have h3 : vs.length = 1 := h (k, vs) (by simp)
    simp only [totalValues, size_node, h1, h2, h3]

variable [LinearOrder K]

theorem mem_insertList {key : K} {value : V} {e : K × List V} : ∀ {xs : List (K × List V)},
    e ∈ insertList key value xs →
      e = (key, [value]) ∨ e ∈ xs ∨ ∃ vs, (key, vs) ∈ xs ∧ e = (key, vs ++ [value]) := by
  intro xs
  induction xs with
  | nil =>
    intro h
    simp [insertList] at h
    exact Or.inl h
  | cons a t ih =>
    obtain ⟨ak, avs⟩ := a
    intro h
    by_cases h1 : key < ak
    · simp only [insertList, if_pos h1, List.mem_cons] at h
      rcases h with h | h | h
      · exact Or.inl h
      · exact Or.inr (Or.inl (by simp [h]))
      · exact Or.inr (Or.inl (by simp [h]))
    · by_cases h2 : ak < key
      · simp only [insertList, if_neg h1, if_pos h2, List.mem_cons] at h
        rcases h with h | h
        · exact Or.inr (Or.inl (by simp [h]))
        · rcases ih h with h | h | ⟨vs, h, h'⟩
          · exact Or.inl h
          · exact Or.inr (Or.inl (by simp [h]))
          · exact Or.inr (Or.inr ⟨vs, by simp [h], h'⟩)
      · have hk : key = ak := le_antisymm (not_lt.1 h2) (not_lt.1 h1)
        subst hk
        simp only [insertList, if_neg h1, List.mem_cons] at h
        rcases h with h | h
        · exact Or.inr (Or.inr ⟨avs, by simp, h⟩)
        · exact Or.inr (Or.inl (by simp [h]))

theorem insertList_sorted (key : K) (value : V) : ∀ (xs : List (K × List V)),
    (xs.map Prod.fst).Pairwise (fun a b => a < b) →
    ((insertList key value xs).map Prod.fst).Pairwise (fun a b => a < b) := by
  intro xs
  induction xs with
  | nil => intro _; simp [insertList]
  | cons a t ih =>
    obtain ⟨ak, avs⟩ := a
    intro h
    simp only [List.map_cons, List.pairwise_cons] at h
    by_cases h1 : key < ak
    · simp only [insertList, if_pos h1, List.map_cons, List.pairwise_cons, List.mem_cons]
      refine ⟨?_, h.1, h.2⟩
      rintro b (rfl | hb)
      · exact h1
      · exact lt_trans h1 (h.1 b hb)
    · by_cases h2 : ak < key
      · simp only [insertList, if_neg h1, if_pos h2, List.map_cons, List.pairwise_cons]
        refine ⟨?_, ih h.2⟩
        intro b hb
        obtain ⟨e, he, rfl⟩ := List.mem_map.1 hb
        rcases mem_insertList he with rfl | he | ⟨vs, he, rfl⟩
        · exact h2
        · exact h.1 _ (List.mem_map_of_mem _ he)
        · exact h2
      · simp only [insertList, if_neg h1, if_neg h2, List.map_cons, List.pairwise_cons]
        exact h

theorem insertList_total (key : K) (value : V) : ∀ (xs : List (K × List V)),
    ((insertList key value xs).map (fun e => e.2.length)).sum =
      (xs.map (fun e => e.2.length)).sum + 1 := by
  intro xs
  induction xs with
  | nil => simp [insertList]
  | cons a t ih =>
    obtain ⟨ak, avs⟩ := a
    by_cases h1 : key < ak
    · simp [insertList, h1]; omega
    · by_cases h2 : ak < key
      · simp [insertList, h1, h2, ih]; omega
      · simp [insertList, h1, h2]; omega

theorem insertList_nonempty (key : K) (value : V) (xs : List (K × List V))
    (h : ∀ e ∈ xs, e.2 ≠ []) : ∀ e ∈ insertList key value xs, e.2 ≠ [] := by
  intro e he
  rcases mem_insertList he with rfl | he | ⟨vs, _, rfl⟩
  · simp
  · exact h e he
  · simp

theorem mem_removeList {key : K} {e : K × List V} {xs : List (K × List V)}
    (h : e ∈ removeList key xs) :
    (e ∈ xs ∧ e.1 ≠ key) ∨ ∃ vs, (key, vs) ∈ xs ∧ 1 < vs.length ∧ e = (key, vs.tail) := by
  simp only [removeList, List.mem_filterMap] at h
  obtain ⟨a, ha, hr⟩ := h
  obtain ⟨ak, avs⟩ := a
  by_cases hk : ak = key
  · subst hk
    by_cases hv : avs.length > 1
    · simp [removeEntry, hv] at hr
      exact Or.inr ⟨avs, ha, hv, hr.symm⟩
    · simp [removeEntry, hv] at hr
  · simp [removeEntry, hk] at hr
    subst hr
    exact Or.inl ⟨ha, hk⟩

theorem removeList_sorted (key : K) : ∀ (xs : List (K × List V)),
    (xs.map Prod.fst).Pairwise (fun a b => a < b) →
    ((removeList key xs).map Prod.fst).Pairwise (fun a b => a < b) := by
  intro xs
  induction xs with
  | nil => intro _; simp [removeList]
  | cons a t ih =>
    intro h
    simp only [List.map_cons, List.pairwise_cons] at h
    have hall : ∀ b ∈ (removeList key t).map Prod.fst, a.1 < b := by
      intro b hb
      obtain ⟨e, he, rfl⟩ := List.mem_map.1 hb
      rcases mem_removeList he with ⟨he1, -⟩ | ⟨vs, he2, -, rfl⟩
      · exact h.1 _ (List.mem_map_of_mem _ he1)
      · exact h.1 key (List.mem_map.2 ⟨(key, vs), he2, rfl⟩)
    have ih' := ih h.2
    simp only [removeList, List.filterMap_cons] at ih' hall ⊢
    cases hr : removeEntry key a with
    | none => simpa using ih'
    | some b =>
      have hb : b.1 = a.1 := by
        obtain ⟨ak, avs⟩ := a
        by_cases hk : ak = key
        · by_cases hv : avs.length > 1
          · simp [removeEntry, hk, hv] at hr
            simp [← hr, hk]
          · simp [removeEntry, hk, hv] at hr
        · simp [removeEntry, hk] at hr
          simp [← hr]
      simp only [List.map_cons, List.pairwise_cons, hb]
      exact ⟨hall, ih'⟩

theorem removeList_nonempty (key : K) (xs : List (K × List V)) (h : ∀ e ∈ xs, e.2 ≠ []) :
    ∀ e ∈ removeList key xs, e.2 ≠ [] := by
  intro e he
  rcases mem_removeList he with ⟨he, -⟩ | ⟨vs, _, hv, rfl⟩
  · exact h e he
  · intro h0
    have : vs.tail.length = 0 := by simp only [] at h0; rw [h0]; rfl
    simp at this
    omega

end Node
end LLRB

namespace LLRB
namespace Node
variable {K V : Type} [LinearOrder K]

theorem removeList_total (key : K) : ∀ (xs : List (K × List V)),
    (xs.map Prod.fst).Pairwise (fun a b => a < b) → (∀ e ∈ xs, e.2 ≠ []) →
    key ∈ xs.map Prod.fst →
    ((removeList key xs).map (fun e => e.2.length)).sum + 1 =
      (xs.map (fun e => e.2.length)).sum := by
  intro xs
  induction xs with
  | nil => intro _ _ h; simp at h
  | cons a t ih =>
    obtain ⟨ak, avs⟩ := a
    intro hs hne hk
    have hs' := hs
    simp only [List.map_cons, List.pairwise_cons] at hs'
    by_cases hak : ak = key
    · subst hak
      have hnot : ak ∉ t.map Prod.fst := fun h => lt_irrefl _ (hs'.1 ak h)
      have ht := removeList_of_not_mem hnot
      have hpos : avs ≠ [] := hne (ak, avs) (by simp)
      have hlen : 0 < avs.length := List.length_pos.2 hpos
      simp only [removeList, List.filterMap_cons] at ht ⊢
      by_cases hv : avs.length > 1
      · simp [removeEntry, hv, ht]
        omega
      · simp [removeEntry, hv, ht]
        omega
    · have hk' : key ∈ t.map Prod.fst := by
        simp only [List.map_cons, List.mem_cons] at hk
        rcases hk with h | h
        · exact absurd h.symm hak
        · exact h
      have := ih hs'.2 (fun e he => hne e (by simp [he])) hk'
      simp only [removeList, List.filterMap_cons] at this ⊢
      simp [removeEntry, hak]
      omega

theorem lookupList_of_not_mem {key : K} : ∀ {xs : List (K × List V)},
    key ∉ xs.map Prod.fst → lookupList key xs = none := by
  intro xs
  induction xs with
  | nil => intro _; rfl
  | cons a t ih =>
    obtain ⟨ak, avs⟩ := a
    intro h
    simp only [List.map_cons, List.mem_cons, not_or] at h
    simp [lookupList, h.1, ih h.2]

theorem lookupList_isSome {key : K} : ∀ {xs : List (K × List V)},
    key ∈ xs.map Prod.fst → ∃ vs, lookupList key xs = some vs ∧ (key, vs) ∈ xs := by
  intro xs
  induction xs with
  | nil => intro h; simp at h
  | cons a t ih =>
    obtain ⟨ak, avs⟩ := a
    intro h
    by_cases hk : key = ak
    · exact ⟨avs, by simp [lookupList, hk], by simp [hk]⟩
    · simp only [List.map_cons, List.mem_cons] at h
      obtain ⟨vs, h1, h2⟩ := ih (h.resolve_left hk)
      exact ⟨vs, by simp [lookupList, hk, h1], by simp [h2]⟩

theorem lookupList_append_left {key : K} {xs ys : List (K × List V)}
    (h : key ∈ xs.map Prod.fst) : lookupList key (xs ++ ys) = lookupList key xs := by
  induction xs with
  | nil => simp at h
  | cons a t ih =>
    obtain ⟨ak, avs⟩ := a
    by_cases hk : key = ak
    · simp [lookupList, hk]
    · simp only [List.map_cons, List.mem_cons] at h
      simp [lookupList, hk, ih (h.resolve_left hk)]

theorem lookupList_append_right {key : K} {xs ys : List (K × List V)}
    (h : key ∉ xs.map Prod.fst) : lookupList key (xs ++ ys) = lookupList key ys := by
  induction xs with
  | nil => rfl
  | cons a t ih =>
    obtain ⟨ak, avs⟩ := a
    simp only [List.map_cons, List.mem_cons, not_or] at h
    simp [lookupList, h.1, ih h.2]

/-- On an ordered tree the search of `Get` finds the entry of the key in the traversal. -/
theorem valuesOf_eq_lookupList (key : K) : ∀ (t : Node K V), Ordered t →
    valuesOf t key = lookupList key (inorder t) := by
  intro t
  induction t with
  | nil => intro _; rfl
  | node k vs c l r ihl ihr =>
    intro ho
    obtain ⟨hol, hor, hlk, hrk⟩ := (Ordered_node k vs c l r).1 ho
    rw [inorder_node]
    by_cases h1 : key = k
    · subst h1
      have : key ∉ (inorder l).map Prod.fst := fun h => lt_irrefl _ (hlk key h)
      rw [lookupList_append_right this]
      simp [valuesOf, Get, lookupList]
    · by_cases h2 : key < k
      · have hv : valuesOf (node k vs c l r) key = valuesOf l key := by
          simp [valuesOf, Get, h1, h2]
        rw [hv, ihl hol]
        by_cases hm : key ∈ (inorder l).map Prod.fst
        · rw [lookupList_append_left hm]
        · rw [lookupList_append_right hm, lookupList_of_not_mem hm]
          have : key ∉ (inorder r).map Prod.fst := fun h => lt_asymm h2 (hrk key h)
          simp [lookupList, h1, lookupList_of_not_mem this]
      · have hv : valuesOf (node k vs c l r) key = valuesOf r key := by
          simp [valuesOf, Get, h1, h2]
        have : key ∉ (inorder l).map Prod.fst := fun h => h2 (hlk key h)
        rw [hv, ihr hor, lookupList_append_right this]
        simp [lookupList, h1]

theorem lookupList_insertList_other {key key' : K} (value : V) (h : key' ≠ key) :
    ∀ (xs : List (K × List V)),
    lookupList key' (insertList key value xs) = lookupList key' xs := by
  intro xs
  induction xs with
  | nil => simp [insertList, lookupList, h]
  | cons a t ih =>
    obtain ⟨ak, avs⟩ := a
    by_cases h1 : key < ak
    · simp [insertList, h1, lookupList, h]
    · by_cases h2 : ak < key
      · simp [insertList, h1, h2, lookupList, ih]
      · have hk : key = ak := le_antisymm (not_lt.1 h2) (not_lt.1 h1)
        subst hk
        simp [insertList, h1, lookupList, h]

theorem lookupList_insertList_self (key : K) (value : V) : ∀ (xs : List (K × List V)),
    (xs.map Prod.fst).Pairwise (fun a b => a < b) →
    lookupList key (insertList key value xs) = some ((lookupList key xs).getD [] ++ [value]) := by
  intro xs
  induction xs with
  | nil => intro _; simp [insertList, lookupList]
  | cons a t ih =>
    obtain ⟨ak, avs⟩ := a
    intro hs
    simp only [List.map_cons, List.pairwise_cons] at hs
    by_cases h1 : key < ak
    · have hne : key ≠ ak := ne_of_lt h1
      have hnot : key ∉ t.map Prod.fst := fun h => lt_asymm h1 (hs.1 key h)
      simp [insertList, h1, lookupList, hne, lookupList_of_not_mem hnot]
    · by_cases h2 : ak < key
      · have hne : key ≠ ak := (ne_of_lt h2).symm
        simp [insertList, h1, h2, lookupList, hne, ih hs.2]
      · have hk : key = ak := le_antisymm (not_lt.1 h2) (not_lt.1 h1)
        subst hk
        simp [insertList, h1, lookupList]

theorem lookupList_removeList_other {key key' : K} (h : key' ≠ key) :
    ∀ (xs : List (K × List V)),
    lookupList key' (removeList key xs) = lookupList key' xs := by
  intro xs
  induction xs with
  | nil => rfl
  | cons a t ih =>
    obtain ⟨ak, avs⟩ := a
    simp only [removeList, List.filterMap_cons] at ih ⊢
    by_cases hk : ak = key
    · subst hk
      by_cases hv : avs.length > 1
      · simp [removeEntry, hv, lookupList, h, ih]
      · simp [removeEntry, hv, lookupList, h, ih]
    · simp [removeEntry, hk, lookupList, ih]

theorem lookupList_removeList_self (key : K) : ∀ (xs : List (K × List V)),
    (xs.map Prod.fst).Pairwise (fun a b => a < b) →
    lookupList key (removeList key xs) =
      (lookupList key xs).bind (fun vs => if vs.length > 1 then some vs.tail else none) := by
  intro xs
  induction xs with
  | nil => intro _; rfl
  | cons a t ih =>
    obtain ⟨ak, avs⟩ := a
    intro hs
    simp only [List.map_cons, List.pairwise_cons] at hs
    have ih' := ih hs.2
    simp only [removeList, List.filterMap_cons] at ih' ⊢
    by_cases hk : ak = key
    · subst hk
      have hnot : ak ∉ t.map Prod.fst := fun h => lt_irrefl _ (hs.1 ak h)
      have ht := removeList_of_not_mem hnot
      simp only [removeList] at ht
      by_cases hv : avs.length > 1
      · simp [removeEntry, hv, lookupList]
      · simp [removeEntry, hv, lookupList, ht, lookupList_of_not_mem hnot]
    · have hk' : key ≠ ak := fun h => hk h.symm
      simp [removeEntry, hk, lookupList, hk', ih']

end Node
end LLRB

namespace LLRB
namespace LLRB_multimap
open Node
variable {K V : Type} [LinearOrder K]

theorem uintMod_eq : uintMod = 4294967296 := by
  simp [uintMod, uintBits]

theorem Contains_eq_isSome (m : LLRB_multimap K V) (key : K) :
    Contains m key = (valuesOf m.root key).isSome := by
  unfold Contains valuesOf
  cases Node.Get m.root key <;> rfl

theorem Contains_iff_mem {m : LLRB_multimap K V} (ho : Ordered m.root) (key : K) :
    Contains m key = true ↔ key ∈ keys m.root := by
  rw [Contains_eq_isSome, valuesOf_eq_lookupList key m.root ho]
  constructor
  · intro h
    by_contra hn
    rw [lookupList_of_not_mem hn] at h
    simp at h
  · intro h
    obtain ⟨vs, h1, -⟩ := lookupList_isSome h
    simp [h1]

theorem Ordered_of_inorder {t' : Node K V} {xs : List (K × List V)}
    (h : inorder t' = xs) (hs : (xs.map Prod.fst).Pairwise (fun a b => a < b)) : Ordered t' := by
  unfold Ordered keys
  rw [h]
  exact hs

/-- The public `Insert` keeps the invariant and updates the traversal. -/
theorem Insert_ok (m : LLRB_multimap K V) (key : K) (value : V) (h : Inv m) :
    ∃ m', Insert m key value = some m' ∧ Inv m' ∧
      inorder m'.root = insertList key value (inorder m.root) ∧
      m'.cur_size = (m.cur_size + 1) % uintMod := by
  obtain ⟨hv, ho, hr, hne, hsz⟩ := h
  obtain ⟨res, hi, hnn, hb, hsh, hin⟩ := Insert_spec key value m.root hv ho
  rcases res with _ | ⟨k, vs, c, l, r⟩
  · exact absurd rfl hnn
  have hin' : inorder (node k vs Color.BLACK l r) = insertList key value (inorder m.root) := hin
  refine ⟨⟨node k vs Color.BLACK l r, (m.cur_size + 1) % uintMod⟩, ?_, ⟨?_, ?_, ?_, ?_, ?_⟩,
    hin', rfl⟩
  · simp [Insert, hi]
  · rcases hsh with h1 | ⟨-, h1⟩
    · exact Valid_paintBlack h1
    · exact Valid_paintBlack_of_RedRed h1
  · exact Ordered_of_inorder hin' (insertList_sorted key value _ ho)
  · rfl
  · show ∀ e ∈ inorder (node k vs Color.BLACK l r), e.2 ≠ []
    rw [hin']
    exact insertList_nonempty key value _ hne
  · show (m.cur_size + 1) % uintMod = totalValues (node k vs Color.BLACK l r) % uintMod
    rw [totalValues_eq, hin', insertList_total, ← totalValues_eq, hsz, uintMod_eq]
    omega

/-- The recursive `Remove` started at a black root, with the number of nodes as fuel. -/
theorem Remove_root (root : Node K V) (key : K) (hv : Valid root) (ho : Ordered root)
    (hr : IsRed root = false) (hk : key ∈ keys root) :
    ∃ res, Node.Remove (size root) root key = some res ∧ Valid (paintBlack res) ∧
      inorder (paintBlack res) = removeList key (inorder root) := by
  rcases root with _ | ⟨k, vs, c, l, r⟩
  · simp [keys] at hk
  have hc : c = Color.BLACK := IsRed_eq_false_node hr
  subst hc
  obtain ⟨fuel, hfuel⟩ : ∃ f, f = size (node k vs Color.BLACK l r) := ⟨_, rfl⟩
  have hsz : size (node k vs Color.RED l r) ≤ fuel := by rw [hfuel]; exact le_refl _
  have hsz' : size (node k vs Color.BLACK l r) ≤ fuel := by rw [hfuel]
  rw [← hfuel]
  by_cases hl : IsRed l = true
  · obtain ⟨res, h1, h2, -, -, h3⟩ := Remove_spec fuel
      (node k vs Color.BLACK l r) key hsz' (Or.inl ⟨hv, by simp [leftRed, hl]⟩) ho hk
    exact ⟨res, h1, Valid_paintBlack h2, by rw [inorder_paintBlack, h3]⟩
  · simp only [Bool.not_eq_true] at hl
    have hv' : Valid (node k vs Color.RED l r) := by
      simp only [Valid_node] at hv ⊢
      exact ⟨hv.1, hv.2.1, hv.2.2.1, hv.2.2.2.1, fun _ => hl⟩
    obtain ⟨res', h1, h2, -, -, h3⟩ := Remove_spec fuel
      (node k vs Color.RED l r) key hsz (Or.inl ⟨hv', by simp⟩) ho hk
    have hp := Remove_paint fuel k vs Color.BLACK Color.RED l r key
    rw [h1] at hp
    cases hres : Node.Remove fuel (node k vs Color.BLACK l r) key with
    | none =>
      rw [hres] at hp
      simp at hp
    | some res =>
      rw [hres] at hp
      simp only [Option.map_some', Option.some.injEq] at hp
      refine ⟨res, rfl, ?_, ?_⟩
      · rw [hp]
        exact Valid_paintBlack h2
      · rw [hp, inorder_paintBlack, h3]
        rfl

/-- The public `Remove` of a present key keeps the invariant and updates the traversal. -/
theorem Remove_ok (m : LLRB_multimap K V) (key : K) (h : Inv m) (hc : Contains m key = true) :
    ∃ m', Remove m key = some m' ∧ Inv m' ∧
      inorder m'.root = removeList key (inorder m.root) ∧
      m'.cur_size = (m.cur_size + uintMod - 1) % uintMod := by
  obtain ⟨hv, ho, hr, hne, hsz⟩ := h
  have hk : key ∈ keys m.root := (Contains_iff_mem ho key).1 hc
  obtain ⟨res, h1, h2, h3⟩ := Remove_root m.root key hv ho hr hk
  have hrem : Remove m key =
      some ⟨paintBlack res, (m.cur_size + uintMod - 1) % uintMod⟩ := by
    cases res <;> simp [Remove, hc, h1]
  refine ⟨_, hrem, ⟨h2, ?_, IsRed_paintBlack res, ?_, ?_⟩, h3, rfl⟩
  · exact Ordered_of_inorder h3 (removeList_sorted key _ ho)
  · show ∀ e ∈ inorder (paintBlack res), e.2 ≠ []
    rw [h3]
    exact removeList_nonempty key _ hne
  · show (m.cur_size + uintMod - 1) % uintMod = totalValues (paintBlack res) % uintMod
    have := removeList_total key (inorder m.root) ho hne hk
    rw [totalValues_eq, h3, hsz, totalValues_eq m.root, uintMod_eq]
    omega

/-- The public `Remove` of an absent key returns the container as it is. -/
theorem Remove_absent (m : LLRB_multimap K V) (key : K) (hc : Contains m key = false) :
    Remove m key = some m := by
  simp [Remove, hc]

theorem Inv_empty : Inv (empty : LLRB_multimap K V) := by
  refine ⟨trivial, ?_, rfl, ?_, rfl⟩
  · simp [Ordered, keys, empty]
  · simp [empty]

/-- Every reachable container satisfies the invariant. -/
theorem Inv_of_Reachable {m : LLRB_multimap K V} (h : Reachable m) : Inv m := by
  induction h with
  | empty => exact Inv_empty
  | @insert m0 m1 key value _ hi ih =>
    obtain ⟨m', h1, h2, -⟩ := Insert_ok m0 key value ih
    rw [hi] at h1
    cases h1
    exact h2
  | @remove m0 m1 key _ hr ih =>
    by_cases hc : Contains m0 key = true
    · obtain ⟨m', h1, h2, -⟩ := Remove_ok m0 key ih hc
      rw [hr] at h1
      cases h1
      exact h2
    · simp only [Bool.not_eq_true] at hc
      rw [Remove_absent m0 key hc] at hr
      cases hr
      exact ih

/-- On a reachable container `Insert` always returns, and its result is reachable. -/
theorem Insert_total {m : LLRB_multimap K V} (h : Reachable m) (key : K) (value : V) :
    ∃ m', Insert m key value = some m' ∧ Reachable m' := by
  obtain ⟨m', h1, -⟩ := Insert_ok m key value (Inv_of_Reachable h)
  exact ⟨m', h1, Reachable.insert key value h h1⟩

/-- On a reachable container `Remove` always returns, and its result is reachable. -/
theorem Remove_total {m : LLRB_multimap K V} (h : Reachable m) (key : K) :
    ∃ m', Remove m key = some m' ∧ Reachable m' := by
  by_cases hc : Contains m key = true
  · obtain ⟨m', h1, -⟩ := Remove_ok m key (Inv_of_Reachable h) hc
    exact ⟨m', h1, Reachable.remove key h h1⟩
  · simp only [Bool.not_eq_true] at hc
    exact ⟨m, Remove_absent m key hc, h⟩

end LLRB_multimap
end LLRB

namespace LLRB
namespace Node
variable {K V : Type}

theorem blackCounts_of_Valid : ∀ (t : Node K V), Valid t → ∀ a ∈ blackCounts t, a = bh t := by
  intro t
  induction t with
  | nil =>
    intro _ a ha
    simpa [blackCounts] using ha
  | node k vs c l r ihl ihr =>
    intro hv a ha
    simp only [Valid_node] at hv
    obtain ⟨hl, hr, hb, -, -⟩ := hv
    simp only [blackCounts, List.mem_map, List.mem_append] at ha
    obtain ⟨x, hx, rfl⟩ := ha
    rcases hx with hx | hx
    · rw [ihl hl x hx]
      rfl
    · rw [ihr hr x hx, ← hb]
      rfl

theorem BlackBalanced_of_Valid {t : Node K V} (h : Valid t) : BlackBalanced t := by
  intro a ha b hb
  rw [blackCounts_of_Valid t h a ha, blackCounts_of_Valid t h b hb]

theorem LeftLeaning_of_Valid : ∀ (t : Node K V), Valid t → LeftLeaning t := by
  intro t
  induction t with
  | nil => intro _; trivial
  | node k vs c l r ihl ihr =>
    intro hv
    simp only [Valid_node] at hv
    obtain ⟨hl, hr, -, hr2, hc⟩ := hv
    exact ⟨hr2, hc, ihl hl, ihr hr⟩

theorem pow_bh_le_size : ∀ (t : Node K V), Valid t → 2 ^ bh t ≤ size t + 1 := by
  intro t
  induction t with
  | nil => intro _; simp
  | node k vs c l r ihl ihr =>
    intro hv
    simp only [Valid_node] at hv
    obtain ⟨hl, hr, hb, -, -⟩ := hv
    have h1 := ihl hl
    have h2 := ihr hr
    rw [← hb] at h2
    cases c
    · simp only [bh_red, size_node]
      omega
    · simp only [bh_black, size_node, pow_succ]
      omega

theorem height_le_bh : ∀ (t : Node K V), Valid t →
    height t ≤ 2 * bh t + (if IsRed t = true then 1 else 0) := by
  intro t
  induction t with
  | nil => intro _; simp [height]
  | node k vs c l r ihl ihr =>
    intro hv
    simp only [Valid_node] at hv
    obtain ⟨hl, hr, hb, hr2, hc⟩ := hv
    have h1 := ihl hl
    have h2 := ihr hr
    rw [hr2] at h2
    simp only [Bool.false_eq_true, if_false, Nat.add_zero] at h2
    cases c
    · rw [hc rfl] at h1
      simp only [Bool.false_eq_true, if_false, Nat.add_zero] at h1
      simp only [height, bh_red, IsRed_node, decide_True, if_true]
      omega
    · simp only [height, bh_black, IsRed_node]
      split at h1 <;> simp <;> omega

/-- Height bound of a valid tree with a black root. -/
theorem height_bound {t : Node K V} (hv : Valid t) (hr : IsRed t = false) :
    2 ^ height t ≤ (size t + 1) ^ 2 ∧ height t ≤ 2 * Nat.log 2 (size t + 1) := by
  have h1 := height_le_bh t hv
  rw [hr] at h1
  simp only [Bool.false_eq_true, if_false, Nat.add_zero] at h1
  have h2 := pow_bh_le_size t hv
  constructor
  · calc 2 ^ height t ≤ 2 ^ (2 * bh t) := Nat.pow_le_pow_right (by norm_num) h1
      _ = (2 ^ bh t) ^ 2 := by rw [Nat.mul_comm, pow_mul]
      _ ≤ (size t + 1) ^ 2 := Nat.pow_le_pow_left h2 2
  · have h3 : bh t ≤ Nat.log 2 (size t + 1) := Nat.le_log_of_pow_le (by norm_num) h2
    omega

variable [LinearOrder K]

theorem SearchTree_of_Ordered : ∀ (t : Node K V), Ordered t → SearchTree t := by
  intro t
  induction t with
  | nil => intro _; trivial
  | node k vs c l r ihl ihr =>
    intro ho
    obtain ⟨hol, hor, hlk, hrk⟩ := (Ordered_node k vs c l r).1 ho
    exact ⟨hlk, hrk, ihl hol, ihr hor⟩

end Node
end LLRB

namespace LLRB
namespace LLRB_multimap
open Node
variable {K V : Type} [LinearOrder K]

theorem Get_of_valuesOf {m : LLRB_multimap K V} {key : K} {v : V} {vs : List V}
    (h : valuesOf m.root key = some (v :: vs)) : Get m key = .ok v := by
  unfold valuesOf at h
  unfold Get
  cases hg : Node.Get m.root key with
  | nil => simp [hg] at h
  | node k ws c l r =>
    simp only [hg, Option.some.injEq] at h
    subst h
    rfl

/-- The effect of the public `Insert` on membership and value lists. -/
theorem Insert_lookup (m : LLRB_multimap K V) (hm : Inv m) (key : K) (value : V) :
    ∃ m', Insert m key value = some m' ∧ Inv m' ∧
      valuesOf m'.root key = some ((valuesOf m.root key).getD [] ++ [value]) ∧
      ∀ key', key' ≠ key → valuesOf m'.root key' = valuesOf m.root key' := by
  obtain ⟨m', h1, h2, h3, -⟩ := Insert_ok m key value hm
  refine ⟨m', h1, h2, ?_, ?_⟩
  · rw [valuesOf_eq_lookupList key _ h2.2.1, valuesOf_eq_lookupList key _ hm.2.1, h3]
    exact lookupList_insertList_self key value _ hm.2.1
  · intro key' hne
    rw [valuesOf_eq_lookupList key' _ h2.2.1, valuesOf_eq_lookupList key' _ hm.2.1, h3]
    exact lookupList_insertList_other value hne _

/-- The effect of the public `Remove` of a present key on membership and value lists. -/
theorem Remove_lookup (m : LLRB_multimap K V) (hm : Inv m) (key : K)
    (hc : Contains m key = true) :
    ∃ m', Remove m key = some m' ∧ Inv m' ∧
      valuesOf m'.root key =
        (valuesOf m.root key).bind (fun vs => if vs.length > 1 then some vs.tail else none) ∧
      ∀ key', key' ≠ key → valuesOf m'.root key' = valuesOf m.root key' := by
  obtain ⟨m', h1, h2, h3, -⟩ := Remove_ok m key hm hc
  refine ⟨m', h1, h2, ?_, ?_⟩
  · rw [valuesOf_eq_lookupList key _ h2.2.1, valuesOf_eq_lookupList key _ hm.2.1, h3]
    exact lookupList_removeList_self key _ hm.2.1
  · intro key' hne
    rw [valuesOf_eq_lookupList key' _ h2.2.1, valuesOf_eq_lookupList key' _ hm.2.1, h3]
    exact lookupList_removeList_other hne _

/-- C1: on every container reachable from the empty one by `Insert`/`Remove` calls,
`Insert(key, value)` returns; afterwards `Contains(key)` is true, the value list of `key`
is its previous list with `value` appended at the end (`[value]` when the key was absent),
and every other key has the same membership and the same value list as before. -/
theorem C1_insert_is_multimap_update (m : LLRB_multimap K V) (hm : Reachable m)
    (key : K) (value : V) :
    ∃ m', Insert m key value = some m' ∧ Contains m' key = true ∧
      valuesOf m'.root key = some ((valuesOf m.root key).getD [] ++ [value]) ∧
      ∀ key', key' ≠ key →
        Contains m' key' = Contains m key' ∧ valuesOf m'.root key' = valuesOf m.root key' := by
  obtain ⟨m', h1, -, h3, h4⟩ := Insert_lookup m (Inv_of_Reachable hm) key value
  refine ⟨m', h1, ?_, h3, ?_⟩
  · rw [Contains_eq_isSome, h3]
    rfl
  · intro key' hne
    refine ⟨?_, h4 key' hne⟩
    rw [Contains_eq_isSome, Contains_eq_isSome, h4 key' hne]

/-- Witness for C1 on the container holding keys 5 and 3. -/
theorem C1_insert_is_multimap_update_witness :
    Reachable Examples.two ∧
    ∃ m', Insert Examples.two 3 4 = some m' ∧ Contains m' 3 = true ∧
      valuesOf m'.root 3 = some ((valuesOf Examples.two.root 3).getD [] ++ [4]) ∧
      ∀ key', key' ≠ 3 →
        Contains m' key' = Contains Examples.two key' ∧
          valuesOf m'.root key' = valuesOf Examples.two.root key' :=
  ⟨Reachable.insert 3 2 (Reachable.insert 5 1 Reachable.empty rfl) rfl,
   C1_insert_is_multimap_update Examples.two
     (Reachable.insert 3 2 (Reachable.insert 5 1 Reachable.empty rfl) rfl) 3 4⟩

/-- C2: on every reachable container, when `key` is present with exactly one value,
`Remove(key)` returns; afterwards `Contains(key)` is false and every other key has the same
membership and exactly its previous value list. -/
theorem C2_remove_last_value (m : LLRB_multimap K V) (hm : Reachable m) (key : K) (v : V)
    (hv : valuesOf m.root key = some [v]) :
    ∃ m', Remove m key = some m' ∧ Contains m' key = false ∧
      ∀ key', key' ≠ key →
        Contains m' key' = Contains m key' ∧ valuesOf m'.root key' = valuesOf m.root key' := by
  have hc : Contains m key = true := by
    rw [Contains_eq_isSome, hv]
    rfl
  obtain ⟨m', h1, -, h3, h4⟩ := Remove_lookup m (Inv_of_Reachable hm) key hc
  refine ⟨m', h1, ?_, ?_⟩
  · rw [Contains_eq_isSome, h3, hv]
    rfl
  · intro key' hne
    refine ⟨?_, h4 key' hne⟩
    rw [Contains_eq_isSome, Contains_eq_isSome, h4 key' hne]

/-- Witness for C2: removing key 5, the root with two children, from the container
holding 3, 5 and 8. -/
theorem C2_remove_last_value_witness :
    Reachable Examples.three ∧ valuesOf Examples.three.root 5 = some [1] ∧
    ∃ m', Remove Examples.three 5 = some m' ∧ Contains m' 5 = false ∧
      ∀ key', key' ≠ 5 →
        Contains m' key' = Contains Examples.three key' ∧
          valuesOf m'.root key' = valuesOf Examples.three.root key' :=
  ⟨Reachable.insert 8 3 (Reachable.insert 3 2 (Reachable.insert 5 1 Reachable.empty rfl) rfl) rfl,
   rfl,
   C2_remove_last_value Examples.three
     (Reachable.insert 8 3 (Reachable.insert 3 2 (Reachable.insert 5 1 Reachable.empty rfl) rfl)
       rfl) 5 1 rfl⟩

/-- C3: on every reachable container the in-order keys are strictly increasing, and at
every node the keys of the left subtree are below the node key and the keys of the right
subtree above it. -/
theorem C3_ordering_invariant (m : LLRB_multimap K V) (hm : Reachable m) :
    (keys m.root).Pairwise (fun a b => a < b) ∧ SearchTree m.root :=
  ⟨(Inv_of_Reachable hm).2.1, SearchTree_of_Ordered m.root (Inv_of_Reachable hm).2.1⟩

/-- Witness for C3 on the container holding 3, 5 and 8. -/
theorem C3_ordering_invariant_witness :
    Reachable Examples.three ∧
    ((keys Examples.three.root).Pairwise (fun a b => a < b) ∧ SearchTree Examples.three.root) :=
  ⟨Reachable.insert 8 3 (Reachable.insert 3 2 (Reachable.insert 5 1 Reachable.empty rfl) rfl) rfl,
   C3_ordering_invariant Examples.three
     (Reachable.insert 8 3 (Reachable.insert 3 2 (Reachable.insert 5 1 Reachable.empty rfl) rfl)
       rfl)⟩

/-- C4: on every reachable container all paths from the root to a missing child pass
through the same number of black nodes. -/
theorem C4_black_balance (m : LLRB_multimap K V) (hm : Reachable m) :
    BlackBalanced m.root :=
  BlackBalanced_of_Valid (Inv_of_Reachable hm).1

/-- Witness for C4 on the container holding 3 and 5. -/
theorem C4_black_balance_witness :
    Reachable Examples.two ∧ BlackBalanced Examples.two.root :=
  ⟨Reachable.insert 3 2 (Reachable.insert 5 1 Reachable.empty rfl) rfl,
   C4_black_balance Examples.two
     (Reachable.insert 3 2 (Reachable.insert 5 1 Reachable.empty rfl) rfl)⟩

/-- C5: on every reachable container no node has a red right child and no red node has a
red left child. -/
theorem C5_left_leaning (m : LLRB_multimap K V) (hm : Reachable m) :
    LeftLeaning m.root :=
  LeftLeaning_of_Valid m.root (Inv_of_Reachable hm).1

/-- Witness for C5 on the container holding 3 and 5. -/
theorem C5_left_leaning_witness :
    Reachable Examples.two ∧ LeftLeaning Examples.two.root :=
  ⟨Reachable.insert 3 2 (Reachable.insert 5 1 Reachable.empty rfl) rfl,
   C5_left_leaning Examples.two
     (Reachable.insert 3 2 (Reachable.insert 5 1 Reachable.empty rfl) rfl)⟩

/-- C6: on every reachable container with `n` nodes and height `h`,
`2 ^ h ≤ (n + 1) ^ 2` and `h ≤ 2 * log2 (n + 1)`. -/
theorem C6_logarithmic_height (m : LLRB_multimap K V) (hm : Reachable m) :
    2 ^ height m.root ≤ (size m.root + 1) ^ 2 ∧
      height m.root ≤ 2 * Nat.log 2 (size m.root + 1) :=
  height_bound (Inv_of_Reachable hm).1 (Inv_of_Reachable hm).2.2.1

/-- Witness for C6 on the container holding 3, 5 and 8. -/
theorem C6_logarithmic_height_witness :
    Reachable Examples.three ∧
    (2 ^ height Examples.three.root ≤ (size Examples.three.root + 1) ^ 2 ∧
      height Examples.three.root ≤ 2 * Nat.log 2 (size Examples.three.root + 1)) :=
  ⟨Reachable.insert 8 3 (Reachable.insert 3 2 (Reachable.insert 5 1 Reachable.empty rfl) rfl) rfl,
   C6_logarithmic_height Examples.three
     (Reachable.insert 8 3 (Reachable.insert 3 2 (Reachable.insert 5 1 Reachable.empty rfl) rfl)
       rfl)⟩

end LLRB_multimap
end LLRB

namespace LLRB
namespace LLRB_multimap
open Node
variable {K V : Type} [LinearOrder K]

theorem mem_keys_insertList {key key' : K} {value : V} {xs : List (K × List V)}
    (h : key' ∈ (insertList key value xs).map Prod.fst) : key' = key ∨ key' ∈ xs.map Prod.fst := by
  obtain ⟨e, he, rfl⟩ := List.mem_map.1 h
  rcases mem_insertList he with rfl | he | ⟨vs, he, rfl⟩
  · exact Or.inl rfl
  · exact Or.inr (List.mem_map_of_mem _ he)
  · exact Or.inl rfl

/-- A run of `Insert` calls with pairwise distinct fresh keys keeps every value list a
singleton. -/
theorem insertAll_spec : ∀ (kvs : List (K × V)) (m : LLRB_multimap K V), Inv m →
    (∀ e ∈ inorder m.root, e.2.length = 1) → (kvs.map Prod.fst).Nodup →
    (∀ k ∈ kvs.map Prod.fst, k ∉ keys m.root) →
    ∃ m', insertAll kvs m = some m' ∧ Inv m' ∧ (∀ e ∈ inorder m'.root, e.2.length = 1) ∧
      (∀ k ∈ keys m'.root, k ∈ keys m.root ∨ k ∈ kvs.map Prod.fst) := by
  intro kvs
  induction kvs with
  | nil =>
    intro m hm hs _ _
    exact ⟨m, rfl, hm, hs, fun k hk => Or.inl hk⟩
  | cons a rest ih =>
    obtain ⟨key, value⟩ := a
    intro m hm hs hnd hfresh
    simp only [List.map_cons, List.nodup_cons] at hnd
    obtain ⟨m1, h1, h2, h3, -⟩ := Insert_ok m key value hm
    have hkey : key ∉ keys m.root := hfresh key (by simp)
    have hs1 : ∀ e ∈ inorder m1.root, e.2.length = 1 := by
      intro e he
      rw [h3] at he
      rcases mem_insertList he with rfl | he1 | ⟨vs, he2, rfl⟩
      · rfl
      · exact hs e he1
      · exact absurd (List.mem_map.2 ⟨(key, vs), he2, rfl⟩) hkey
    have hk1 : ∀ k ∈ keys m1.root, k = key ∨ k ∈ keys m.root := by
      intro k hk
      unfold keys at hk
      rw [h3] at hk
      exact mem_keys_insertList hk
    have hfresh1 : ∀ k ∈ rest.map Prod.fst, k ∉ keys m1.root := by
      intro k hk hk'
      rcases hk1 k hk' with rfl | h
      · exact hnd.1 hk
      · exact hfresh k (by simp [hk]) h
    obtain ⟨m', h4, h5, h6, h7⟩ := ih m1 h2 hs1 hnd.2 hfresh1
    refine ⟨m', by simp [insertAll, h1, h4], h5, h6, ?_⟩
    intro k hk
    rcases h7 k hk with h | h
    · rcases hk1 k h with rfl | h
      · exact Or.inr (by simp)
      · exact Or.inl h
    · exact Or.inr (by simp [h])

/-- A run of `Remove` calls on a container whose value lists are singletons leaves none of
the removed keys. -/
theorem removeAll_spec : ∀ (ks : List K) (m : LLRB_multimap K V), Inv m →
    (∀ e ∈ inorder m.root, e.2.length = 1) →
    ∃ m', removeAll ks m = some m' ∧ Inv m' ∧
      (∀ k ∈ keys m'.root, k ∈ keys m.root ∧ k ∉ ks) := by
  intro ks
  induction ks with
  | nil =>
    intro m hm _
    exact ⟨m, rfl, hm, fun k hk => ⟨hk, by simp⟩⟩
  | cons key rest ih =>
    intro m hm hs
    by_cases hc : Contains m key = true
    · obtain ⟨m1, h1, h2, h3, -⟩ := Remove_ok m key hm hc
      have hmem : ∀ e ∈ inorder m1.root, e ∈ inorder m.root ∧ e.1 ≠ key := by
        intro e he
        rw [h3] at he
        rcases mem_removeList he with h | ⟨vs, h, hv, -⟩
        · exact h
        · have := hs (key, vs) h
          simp only [] at this
          omega
      obtain ⟨m', h4, h5, h6⟩ := ih m1 h2 (fun e he => hs e (hmem e he).1)
      refine ⟨m', by simp [removeAll, h1, h4], h5, ?_⟩
      intro k hk
      obtain ⟨hk1, hk2⟩ := h6 k hk
      obtain ⟨e, he, rfl⟩ := List.mem_map.1 hk1
      obtain ⟨he1, he2⟩ := hmem e he
      exact ⟨List.mem_map_of_mem _ he1, by simp [he2, hk2]⟩
    · simp only [Bool.not_eq_true] at hc
      obtain ⟨m', h4, h5, h6⟩ := ih m hm hs
      refine ⟨m', by simp [removeAll, Remove_absent m key hc, h4], h5, ?_⟩
      intro k hk
      obtain ⟨hk1, hk2⟩ := h6 k hk
      refine ⟨hk1, ?_⟩
      have hne : k ≠ key := by
        rintro rfl
        have := (Contains_iff_mem hm.2.1 k).2 hk1
        rw [hc] at this
        exact absurd this (by simp)
      simp [hne, hk2]

/-- C7: on every reachable container that does not contain `key`, after `Insert(key, v1)`
and `Insert(key, v2)` the call `Get(key)` returns `v1`; after one further `Remove(key)`
the key is still contained and `Get(key)` returns `v2`. -/
theorem C7_multiplicity_fifo (m : LLRB_multimap K V) (hm : Reachable m) (key : K) (v1 v2 : V)
    (habs : Contains m key = false) :
    ∃ m1 m2 m3, Insert m key v1 = some m1 ∧ Insert m1 key v2 = some m2 ∧
      Get m2 key = .ok v1 ∧ Remove m2 key = some m3 ∧ Contains m3 key = true ∧
      Get m3 key = .ok v2 := by
  have h0 : valuesOf m.root key = none := by
    rw [Contains_eq_isSome] at habs
    cases h : valuesOf m.root key with
    | none => rfl
    | some vs => simp [h] at habs
  obtain ⟨m1, h1, hi1, hv1, -⟩ := Insert_lookup m (Inv_of_Reachable hm) key v1
  obtain ⟨m2, h2, hi2, hv2, -⟩ := Insert_lookup m1 hi1 key v2
  rw [h0] at hv1
  rw [hv1] at hv2
  have hc2 : Contains m2 key = true := by
    rw [Contains_eq_isSome, hv2]
    rfl
  obtain ⟨m3, h3, -, hv3, -⟩ := Remove_lookup m2 hi2 key hc2
  rw [hv2] at hv3
  have hv3' : valuesOf m3.root key = some [v2] := by simpa using hv3
  refine ⟨m1, m2, m3, h1, h2, Get_of_valuesOf hv2, h3, ?_, Get_of_valuesOf hv3'⟩
  rw [Contains_eq_isSome, hv3']
  rfl

/-- Witness for C7: key 3 twice into the container holding only key 5. -/
theorem C7_multiplicity_fifo_witness :
    Reachable Examples.one ∧ Contains Examples.one 3 = false ∧
    ∃ m1 m2 m3, Insert Examples.one 3 10 = some m1 ∧ Insert m1 3 20 = some m2 ∧
      Get m2 3 = .ok 10 ∧ Remove m2 3 = some m3 ∧ Contains m3 3 = true ∧
      Get m3 3 = .ok 20 :=
  ⟨Reachable.insert 5 1 Reachable.empty rfl, rfl,
   C7_multiplicity_fifo Examples.one (Reachable.insert 5 1 Reachable.empty rfl) 3 10 20 rfl⟩

/-- C8: inserting pairwise distinct keys, one value each, into the empty container in any
order and then removing the same keys in any order leaves the empty tree: no root,
`Size()` zero, and `Contains` false for every inserted key. -/
theorem C8_round_trip_to_empty (kvs : List (K × V)) (ks : List K)
    (hnd : (kvs.map Prod.fst).Nodup) (hperm : ks.Perm (kvs.map Prod.fst)) :
    ∃ m m', insertAll kvs empty = some m ∧ removeAll ks m = some m' ∧
      m'.root = nil ∧ Size m' = 0 ∧ ∀ k ∈ kvs.map Prod.fst, Contains m' k = false := by
  obtain ⟨m, h1, h2, h3, h4⟩ := insertAll_spec kvs (empty : LLRB_multimap K V) Inv_empty
    (by simp [empty]) hnd (by simp [empty, keys])
  obtain ⟨m', h5, h6, h7⟩ := removeAll_spec ks m h2 h3
  have hroot : m'.root = nil := by
    by_contra hne
    have hne' := inorder_ne_nil hne
    obtain ⟨e, l, hl⟩ := List.exists_cons_of_ne_nil hne'
    have hk : e.1 ∈ keys m'.root := by
      unfold keys
      rw [hl]
      simp
    obtain ⟨hk1, hk2⟩ := h7 e.1 hk
    rcases h4 e.1 hk1 with h | h
    · simp [empty, keys] at h
    · exact hk2 (hperm.mem_iff.2 h)
  refine ⟨m, m', h1, h5, hroot, ?_, ?_⟩
  · have := h6.2.2.2.2
    rw [hroot] at this
    simpa [Size, totalValues] using this
  · intro k _
    simp [Contains, hroot, Node.Get]

/-- Witness for C8: keys 5, 3, 8 inserted, then removed in the order 3, 8, 5. -/
theorem C8_round_trip_to_empty_witness :
    ([(5, 1), (3, 2), (8, 3)].map Prod.fst).Nodup ∧
    [3, 8, 5].Perm ([(5, 1), (3, 2), (8, 3)].map Prod.fst) ∧
    ∃ m m' : LLRB_multimap Nat Nat, insertAll [(5, 1), (3, 2), (8, 3)] empty = some m ∧
      removeAll [3, 8, 5] m = some m' ∧
      m'.root = nil ∧ Size m' = 0 ∧
      ∀ k ∈ [(5, 1), (3, 2), (8, 3)].map Prod.fst, Contains m' k = false :=
  ⟨by decide, by decide,
   C8_round_trip_to_empty [(5, 1), (3, 2), (8, 3)] [3, 8, 5] (by decide) (by decide)⟩

/-- C9: `Remove(key)` on a container that does not contain `key` returns the container
unchanged (tree shape, keys, colours, value lists and counter); repeating the call changes
nothing either. -/
theorem C9_remove_absent_is_noop (m : LLRB_multimap K V) (key : K)
    (habs : Contains m key = false) :
    Remove m key = some m ∧ ∀ m', Remove m key = some m' → Remove m' key = some m' := by
  have h := Remove_absent m key habs
  refine ⟨h, ?_⟩
  intro m' hm'
  rw [h] at hm'
  cases hm'
  exact h

/-- Witness for C9: key 7 is not in the container holding 3, 5 and 8. -/
theorem C9_remove_absent_is_noop_witness :
    Contains Examples.three 7 = false ∧
    (Remove Examples.three 7 = some Examples.three ∧
      ∀ m', Remove Examples.three 7 = some m' → Remove m' 7 = some m') :=
  ⟨rfl, C9_remove_absent_is_noop Examples.three 7 rfl⟩

/-- Counterexample to C10: after `Insert(5, 1)` and `Insert(5, 2)` on the empty container
the tree has one node and one key, and `Size()` is 2. -/
theorem C10_size_not_distinct_keys :
    Reachable Examples.twice ∧ Size Examples.twice = 2 ∧ size Examples.twice.root = 1 ∧
      keys Examples.twice.root = [5] :=
  ⟨Reachable.insert 5 2 (Reachable.insert 5 1 Reachable.empty rfl) rfl, rfl, rfl, rfl⟩

/-- C10 (amended): on every reachable container `Size()` is the number of stored values,
modulo the range of the counter; it is the number of nodes (distinct keys) when every key
holds exactly one value. -/
theorem C10_size_counts_values (m : LLRB_multimap K V) (hm : Reachable m) :
    Size m = totalValues m.root % uintMod ∧
      ((∀ e ∈ inorder m.root, e.2.length = 1) → Size m = size m.root % uintMod) := by
  have h := (Inv_of_Reachable hm).2.2.2.2
  refine ⟨h, fun hs => ?_⟩
  rw [← totalValues_of_single m.root hs]
  exact h

/-- Witness for the amended C10 on the container with two values under one key. -/
theorem C10_size_counts_values_witness :
    Reachable Examples.twice ∧
    (Size Examples.twice = totalValues Examples.twice.root % uintMod ∧
      ((∀ e ∈ inorder Examples.twice.root, e.2.length = 1) →
        Size Examples.twice = size Examples.twice.root % uintMod)) :=
  ⟨Reachable.insert 5 2 (Reachable.insert 5 1 Reachable.empty rfl) rfl,
   C10_size_counts_values Examples.twice
     (Reachable.insert 5 2 (Reachable.insert 5 1 Reachable.empty rfl) rfl)⟩

end LLRB_multimap
end LLRB

namespace LLRB
namespace Node
variable {K V : Type}

theorem uintMod_pos : 0 < uintMod := by
  simp [uintMod]

/-- On a list of at most `uintMod` values the index never wraps: the loop with the
`unsigned int` index is the loop with the natural-number index. -/
theorem shiftLoopU_eq : ∀ (fuel i : Nat) (vals : List V), vals.length ≤ uintMod →
    shiftLoopU fuel i vals = shiftLoop fuel i vals := by
  intro fuel
  induction fuel with
  | zero =>
    intro i vals _
    rfl
  | succ fuel ih =>
    intro i vals hlen
    by_cases hi : i < vals.length - 1
    · have hmod : (i + 1) % uintMod = i + 1 := Nat.mod_eq_of_lt (by omega)
      simp only [shiftLoopU, shiftLoop, hi, if_true, hmod]
      cases vals[i + 1]? with
      | none => rfl
      | some x =>
        simp only []
        by_cases hi2 : i < vals.length
        · simp only [hi2, if_true]
          exact ih (i + 1) (vals.set i x) (by rw [List.length_set]; exact hlen)
        · simp only [hi2, if_false]
    · simp only [shiftLoopU, shiftLoop, hi, if_false]

/-- With the `unsigned int` index, dropping the front value of a list of at least two
and at most `uintMod` values gives its tail. -/
theorem dropFrontU_spec (vs : List V) (h : 1 < vs.length) (hlen : vs.length ≤ uintMod) :
    dropFrontU vs = some vs.tail := by
  have h1 := dropFront_spec vs h
  unfold dropFront at h1
  unfold dropFrontU
  rw [shiftLoopU_eq _ _ _ hlen]
  exact h1

/-- On a list of more than `uintMod` values the `unsigned int` index stays below
`size() - 1` for ever: the loop does not return, whatever the fuel. -/
theorem shiftLoopU_no_exit : ∀ (fuel i : Nat) (vals : List V), uintMod < vals.length →
    i < uintMod → shiftLoopU fuel i vals = none := by
  intro fuel
  induction fuel with
  | zero =>
    intro i vals hlen hi
    have : i < vals.length - 1 := by omega
    simp [shiftLoopU, this]
  | succ fuel ih =>
    intro i vals hlen hi
    have h1 : i < vals.length - 1 := by omega
    have h2 : (i + 1) % uintMod < vals.length :=
      lt_trans (Nat.mod_lt _ uintMod_pos) hlen
    have h3 : i < vals.length := by omega
    simp only [shiftLoopU, h1, if_true, List.getElem?_eq_getElem h2, h3]
    exact ih ((i + 1) % uintMod) _ (by rw [List.length_set]; exact hlen)
      (Nat.mod_lt _ uintMod_pos)

/-- With the `unsigned int` index, the front of a list of more than `uintMod` values is
never dropped: the loop does not return. -/
theorem dropFrontU_no_exit (vs : List V) (h : uintMod < vs.length) : dropFrontU vs = none := by
  unfold dropFrontU
  rw [shiftLoopU_no_exit _ _ _ h uintMod_pos]
  rfl

end Node
end LLRB

namespace LLRB
namespace LLRB_multimap
open Node
variable {K V : Type} [LinearOrder K]

theorem insertList_length (key : K) (value : V) : ∀ (xs : List (K × List V)),
    (xs.map Prod.fst).Pairwise (fun a b => a < b) →
    (insertList key value xs).length =
      if key ∈ xs.map Prod.fst then xs.length else xs.length + 1 := by
  intro xs
  induction xs with
  | nil => intro _; simp [insertList]
  | cons a t ih =>
    obtain ⟨ak, avs⟩ := a
    intro hs
    simp only [List.map_cons, List.pairwise_cons] at hs
    by_cases h1 : key < ak
    · have hne : key ≠ ak := ne_of_lt h1
      have hnot : key ∉ t.map Prod.fst := fun h => lt_asymm h1 (hs.1 key h)
      simp [insertList, h1, hne, hnot]
    · by_cases h2 : ak < key
      · have hne : key ≠ ak := (ne_of_lt h2).symm
        have := ih hs.2
        simp only [insertList, if_neg h1, if_pos h2, List.length_cons, this, List.map_cons,
          List.mem_cons, hne, false_or]
        split <;> rfl
      · have hk : key = ak := le_antisymm (not_lt.1 h2) (not_lt.1 h1)
        subst hk
        simp [insertList, h1]

/-- Counterexample to C11: key 3 is present in the container holding 5 and 3, and
`Insert(3, 4)` takes `Size()` from 2 to 3. -/
theorem C11_append_grows_size :
    Reachable Examples.two ∧ Contains Examples.two 3 = true ∧
      Insert Examples.two 3 4 = some Examples.twoAppended ∧
      Size Examples.two = 2 ∧ Size Examples.twoAppended = 3 :=
  ⟨Reachable.insert 3 2 (Reachable.insert 5 1 Reachable.empty rfl) rfl, rfl, rfl, rfl, rfl⟩

/-- C11 (amended): on every reachable container `Insert(key, value)` returns and adds one
to `Size()`, modulo the range of the counter, whether or not the key was present; the
number of nodes grows by one exactly when the key was absent and is unchanged on an
equal-key append. -/
theorem C11_insert_adds_one_to_size (m : LLRB_multimap K V) (hm : Reachable m)
    (key : K) (value : V) :
    ∃ m', Insert m key value = some m' ∧ Size m' = (Size m + 1) % uintMod ∧
      size m'.root = (if Contains m key = true then size m.root else size m.root + 1) := by
  have hi := Inv_of_Reachable hm
  obtain ⟨m', h1, -, h3, h4⟩ := Insert_ok m key value hi
  refine ⟨m', h1, h4, ?_⟩
  rw [size_eq_length, size_eq_length, h3, insertList_length key value _ hi.2.1]
  by_cases hc : Contains m key = true
  · have hk : key ∈ List.map Prod.fst (inorder m.root) := (Contains_iff_mem hi.2.1 key).1 hc
    rw [if_pos hc, if_pos hk]
  · have hk : key ∉ List.map Prod.fst (inorder m.root) :=
      fun h => hc ((Contains_iff_mem hi.2.1 key).2 h)
    rw [if_neg hc, if_neg hk]

/-- Witness for the amended C11: an equal-key append on the container holding 5 and 3. -/
theorem C11_insert_adds_one_to_size_witness :
    Reachable Examples.two ∧
    ∃ m', Insert Examples.two 3 4 = some m' ∧ Size m' = (Size Examples.two + 1) % uintMod ∧
      size m'.root =
        (if Contains Examples.two 3 = true then size Examples.two.root
          else size Examples.two.root + 1) :=
  ⟨Reachable.insert 3 2 (Reachable.insert 5 1 Reachable.empty rfl) rfl,
   C11_insert_adds_one_to_size Examples.two
     (Reachable.insert 3 2 (Reachable.insert 5 1 Reachable.empty rfl) rfl) 3 4⟩

theorem entry_unique {key : K} {a b : List V} : ∀ {xs : List (K × List V)},
    (xs.map Prod.fst).Pairwise (fun x y => x < y) → (key, a) ∈ xs → (key, b) ∈ xs → a = b := by
  intro xs
  induction xs with
  | nil => intro _ h; simp at h
  | cons e t ih =>
    intro hs ha hb
    simp only [List.map_cons, List.pairwise_cons] at hs
    rcases List.mem_cons.1 ha with h1 | h1 <;> rcases List.mem_cons.1 hb with h2 | h2
    · rw [← h1] at h2
      exact (Prod.mk.inj h2).2.symm
    · have : key ∈ t.map Prod.fst := List.mem_map.2 ⟨(key, b), h2, rfl⟩
      rw [← h1] at hs
      exact absurd (hs.1 key this) (lt_irrefl _)
    · have : key ∈ t.map Prod.fst := List.mem_map.2 ⟨(key, a), h1, rfl⟩
      rw [← h2] at hs
      exact absurd (hs.1 key this) (lt_irrefl _)
    · exact ih hs.2 h1 h2

theorem removeList_keys (key : K) : ∀ (xs : List (K × List V)),
    (∀ e ∈ xs, e.1 = key → 1 < e.2.length) →
    (removeList key xs).map Prod.fst = xs.map Prod.fst := by
  intro xs
  induction xs with
  | nil => intro _; rfl
  | cons a t ih =>
    obtain ⟨ak, avs⟩ := a
    intro h
    have ih' := ih (fun e he => h e (by simp [he]))
    simp only [removeList, List.filterMap_cons] at ih' ⊢
    by_cases hk : ak = key
    · have hv : avs.length > 1 := h (ak, avs) (by simp) hk
      simp [removeEntry, hk, hv, ih']
    · simp [removeEntry, hk, ih']

/-- Counterexample to C12: key 1 holds two values; `Remove(1)` rotates on the way down and
returns a tree with another root key and other colours. -/
theorem C12_multi_value_remove_restructures :
    Reachable Examples.four ∧ valuesOf Examples.four.root 1 = some [10, 11] ∧
      Remove Examples.four 1 = some Examples.fourRemoved ∧
      skeleton Examples.fourRemoved.root ≠ skeleton Examples.four.root :=
  ⟨Reachable.insert 1 11 (Reachable.insert 4 40 (Reachable.insert 3 30
      (Reachable.insert 2 20 (Reachable.insert 1 10 Reachable.empty rfl) rfl) rfl) rfl) rfl,
    rfl, rfl, by decide⟩

/-- C12 (amended): on every reachable container, when `key` holds at least two and at
most `uintMod` values, `Remove(key)` returns, removes exactly the front value of the list
of `key` (the others keep their order), and leaves the in-order sequence of keys and the
value list of every other key unchanged.  Within that bound the shifting loop returns the
tail of the list also when its index is the `unsigned int` of the source. -/
theorem C12_multi_value_remove (m : LLRB_multimap K V) (hm : Reachable m) (key : K)
    (v w : V) (vs : List V) (hv : valuesOf m.root key = some (v :: w :: vs))
    (hlen : (v :: w :: vs).length ≤ uintMod) :
    ∃ m', Remove m key = some m' ∧ valuesOf m'.root key = some (w :: vs) ∧
      keys m'.root = keys m.root ∧
      (∀ key', key' ≠ key → valuesOf m'.root key' = valuesOf m.root key') ∧
      dropFrontU (v :: w :: vs) = some (w :: vs) ∧
      dropFront (v :: w :: vs) = some (w :: vs) := by
  have hi := Inv_of_Reachable hm
  have hc : Contains m key = true := by
    rw [Contains_eq_isSome, hv]
    rfl
  obtain ⟨m', h1, h2, h3, h4⟩ := Remove_lookup m hi key hc
  obtain ⟨m'', h1', -, h5, -⟩ := Remove_ok m key hi hc
  rw [h1] at h1'
  cases h1'
  have htwo : 1 < (v :: w :: vs).length := by simp
  refine ⟨m', h1, ?_, ?_, h4, dropFrontU_spec _ htwo hlen, dropFront_spec _ htwo⟩
  · rw [h3, hv]
    simp
  · unfold keys
    rw [h5]
    apply removeList_keys
    intro e he hek
    have hl := hv
    rw [valuesOf_eq_lookupList key _ hi.2.1] at hl
    obtain ⟨ws, hw1, hw2⟩ := lookupList_isSome (List.mem_map.2 ⟨e, he, hek⟩)
    rw [hl] at hw1
    cases hw1
    have he' : (key, e.2) ∈ inorder m.root := by
      rw [← hek]
      exact he
    rw [entry_unique hi.2.1 he' hw2]
    simp

/-- Witness for the amended C12 on the container in which key 1 holds two values. -/
theorem C12_multi_value_remove_witness :
    Reachable Examples.four ∧ valuesOf Examples.four.root 1 = some (10 :: 11 :: []) ∧
    (10 :: 11 :: ([] : List Nat)).length ≤ uintMod ∧
    ∃ m', Remove Examples.four 1 = some m' ∧ valuesOf m'.root 1 = some (11 :: []) ∧
      keys m'.root = keys Examples.four.root ∧
      (∀ key', key' ≠ 1 → valuesOf m'.root key' = valuesOf Examples.four.root key') ∧
      dropFrontU (10 :: 11 :: ([] : List Nat)) = some (11 :: []) ∧
      dropFront (10 :: 11 :: ([] : List Nat)) = some (11 :: []) :=
  ⟨Reachable.insert 1 11 (Reachable.insert 4 40 (Reachable.insert 3 30
      (Reachable.insert 2 20 (Reachable.insert 1 10 Reachable.empty rfl) rfl) rfl) rfl) rfl,
    rfl, by simp [uintMod, uintBits],
    C12_multi_value_remove Examples.four
      (Reachable.insert 1 11 (Reachable.insert 4 40 (Reachable.insert 3 30
        (Reachable.insert 2 20 (Reachable.insert 1 10 Reachable.empty rfl) rfl) rfl) rfl) rfl)
      1 10 11 [] rfl (by simp [uintMod, uintBits])⟩

end LLRB_multimap
end LLRB

namespace LLRB
namespace Node
variable {K V : Type}

/-- The loop of `Max()` returns the node of the last entry of the traversal. -/
theorem maxLoop_spec : ∀ (n : Node K V), n ≠ nil →
    ∃ mk mvs mc ml mr, maxLoop n = some (node mk mvs mc ml mr) ∧
      ∃ init, inorder n = init ++ [(mk, mvs)] := by
  intro n
  induction n with
  | nil => intro h; exact absurd rfl h
  | node k vs c l r _ ihr =>
    intro _
    rcases r with _ | ⟨rk, rvs, rc, rl, rr⟩
    · exact ⟨k, vs, c, l, nil, by simp [maxLoop], inorder l, by simp⟩
    · obtain ⟨mk, mvs, mc, ml, mr, h1, init, h2⟩ := ihr (by simp)
      refine ⟨mk, mvs, mc, ml, mr, by simpa [maxLoop] using h1, inorder l ++ (k, vs) :: init, ?_⟩
      rw [inorder_node, h2]
      simp

theorem GetAll_perm : ∀ (t : Node K V), (GetAll t).Perm (allValues t) := by
  intro t
  induction t with
  | nil => exact List.Perm.refl _
  | node k vs c l r ihl ihr =>
    simp only [GetAll, allValues]
    have h1 : (GetAll l ++ GetAll r ++ vs).Perm (GetAll l ++ (vs ++ GetAll r)) := by
      rw [List.append_assoc]
      exact List.Perm.append_left _ List.perm_append_comm
    have h2 : (GetAll l ++ (vs ++ GetAll r)).Perm (allValues l ++ (vs ++ allValues r)) :=
      List.Perm.append ihl (List.Perm.append_left _ ihr)
    rw [List.append_assoc (allValues l)]
    exact h1.trans h2

theorem GetAll_length (t : Node K V) : (GetAll t).length = totalValues t := by
  induction t with
  | nil => rfl
  | node k vs c l r ihl ihr =>
    simp only [GetAll, totalValues, List.length_append, ihl, ihr]
    omega

end Node

namespace LLRB_multimap
open Node
variable {K V : Type}

/-- C14: `GetAll()` fails with `EmptyTree` on the empty tree; on a non-empty tree it
returns the values of the left subtree, then those of the right subtree, then the values
of the root node, the same at every node below; the result is a rearrangement of all stored
values, so each stored value appears exactly once, and its length is the number of stored
values. -/
theorem C14_getall_order :
    (∀ s : Nat, GetAll (⟨nil, s⟩ : LLRB_multimap K V) = .error .EmptyTree) ∧
    (∀ (k : K) (vs : List V) (c : Color) (l r : Node K V) (s : Nat),
      GetAll ⟨node k vs c l r, s⟩ = .ok (Node.GetAll l ++ Node.GetAll r ++ vs)) ∧
    (∀ (k : K) (vs : List V) (c : Color) (l r : Node K V),
      Node.GetAll (node k vs c l r) = Node.GetAll l ++ Node.GetAll r ++ vs) ∧
    (∀ t : Node K V, (Node.GetAll t).Perm (allValues t) ∧
      (Node.GetAll t).length = totalValues t) :=
  ⟨fun _ => rfl, fun _ _ _ _ _ _ => rfl, fun _ _ _ _ _ => rfl,
    fun t => ⟨GetAll_perm t, GetAll_length t⟩⟩

/-- C15 (evaluation at the failing input): on the empty container, fresh or emptied by
`Remove`, `Min()` and `Max()` read through the null root; no `EmptyTree` error is
signalled, whereas `GetAll()` on the same container does signal it. -/
theorem C15_min_max_on_empty_read_null :
    Min (empty : LLRB_multimap K V) = none ∧ Max (empty : LLRB_multimap K V) = none ∧
      Min (empty : LLRB_multimap K V) ≠ some (.error .EmptyTree) ∧
      Max (empty : LLRB_multimap K V) ≠ some (.error .EmptyTree) ∧
      GetAll (empty : LLRB_multimap K V) = .error .EmptyTree ∧
      (∃ m : LLRB_multimap Nat Nat, Insert empty 5 1 = some Examples.one ∧
        Remove Examples.one 5 = some m ∧ m.root = nil ∧ Min m = none ∧ Max m = none ∧
        GetAll m = .error .EmptyTree) := by
  refine ⟨rfl, rfl, ?_, ?_, rfl, ⟨⟨nil, 0⟩, rfl, rfl, rfl, rfl, rfl, rfl⟩⟩ <;>
    simp [Min, Max, empty, Node.Min, maxLoop]

variable [LinearOrder K]

/-- C13: on every reachable container `Get(key)` fails with `NotFound` exactly when
`Contains(key)` is false; when the key is contained, `Get(key)` returns the first value of
its value list.  `Get` only reads the container: the embedding gives it no way to change
the tree. -/
theorem C13_get_fails_exactly_on_absent (m : LLRB_multimap K V) (hm : Reachable m) (key : K) :
    (Get m key = .error .NotFound ↔ Contains m key = false) ∧
      (Contains m key = true →
        ∃ v vs, valuesOf m.root key = some (v :: vs) ∧ Get m key = .ok v) := by
  have hi := Inv_of_Reachable hm
  constructor
  · unfold Get Contains
    cases hg : Node.Get m.root key with
    | nil => simp
    | node k ws c l r =>
      cases ws with
      | nil => simp
      | cons v t => simp
  · intro hc
    have hk := (Contains_iff_mem hi.2.1 key).1 hc
    obtain ⟨ws, h1, h2⟩ := lookupList_isSome hk
    have hne : ws ≠ [] := hi.2.2.2.1 (key, ws) h2
    rw [← valuesOf_eq_lookupList key _ hi.2.1] at h1
    cases ws with
    | nil => exact absurd rfl hne
    | cons v t => exact ⟨v, t, h1, Get_of_valuesOf h1⟩

/-- Witness for C13 on the container holding 3, 5 and 8. -/
theorem C13_get_fails_exactly_on_absent_witness :
    Reachable Examples.three ∧
    ((Get Examples.three 8 = .error .NotFound ↔ Contains Examples.three 8 = false) ∧
      (Contains Examples.three 8 = true →
        ∃ v vs, valuesOf Examples.three.root 8 = some (v :: vs) ∧ Get Examples.three 8 = .ok v)) :=
  ⟨Reachable.insert 8 3 (Reachable.insert 3 2 (Reachable.insert 5 1 Reachable.empty rfl) rfl) rfl,
   C13_get_fails_exactly_on_absent Examples.three
     (Reachable.insert 8 3 (Reachable.insert 3 2 (Reachable.insert 5 1 Reachable.empty rfl) rfl)
       rfl) 8⟩

/-- C16: on every reachable non-empty container `Min()` returns a key that is present
and not above any key present, and `Max()` returns a key that is present and not below
any key present. -/
theorem C16_min_max_values (m : LLRB_multimap K V) (hm : Reachable m) (hne : m.root ≠ nil) :
    ∃ lo hi, Min m = some (.ok lo) ∧ Max m = some (.ok hi) ∧
      Contains m lo = true ∧ Contains m hi = true ∧
      ∀ x, Contains m x = true → lo ≤ x ∧ x ≤ hi := by
  have hi' := Inv_of_Reachable hm
  have ho := hi'.2.1
  obtain ⟨lk, lvs, lc, ll, lr, h1, h2⟩ := Min_spec m.root hne
  obtain ⟨hk, hvs, hc, hl, hr, h3, init, h4⟩ := maxLoop_spec m.root hne
  have hlo : lk ∈ keys m.root := by
    unfold keys
    rw [h2]
    simp
  have hhi : hk ∈ keys m.root := by
    unfold keys
    rw [h4]
    simp
  refine ⟨lk, hk, by simp [Min, h1], by simp [Max, h3], (Contains_iff_mem ho lk).2 hlo,
    (Contains_iff_mem ho hk).2 hhi, ?_⟩
  intro x hx
  have hxk := (Contains_iff_mem ho x).1 hx
  constructor
  · have hs : (keys m.root).Pairwise (fun a b => a < b) := ho
    unfold keys at hs hxk
    rw [h2] at hs hxk
    simp only [List.map_cons, List.pairwise_cons, List.mem_cons] at hs hxk
    rcases hxk with rfl | h
    · exact le_refl _
    · exact le_of_lt (hs.1 x h)
  · have hs : (keys m.root).Pairwise (fun a b => a < b) := ho
    unfold keys at hs hxk
    rw [h4] at hs hxk
    simp only [List.map_append, List.map_cons, List.map_nil, List.pairwise_append,
      List.mem_append, List.mem_singleton] at hs hxk
    rcases hxk with h | rfl
    · exact le_of_lt (hs.2.2 x h hk rfl)
    · exact le_refl _

/-- Witness for C16 on the container holding 3, 5 and 8. -/
theorem C16_min_max_values_witness :
    Reachable Examples.three ∧ Examples.three.root ≠ nil ∧
    ∃ lo hi, Min Examples.three = some (.ok lo) ∧ Max Examples.three = some (.ok hi) ∧
      Contains Examples.three lo = true ∧ Contains Examples.three hi = true ∧
      ∀ x, Contains Examples.three x = true → lo ≤ x ∧ x ≤ hi :=
  ⟨Reachable.insert 8 3 (Reachable.insert 3 2 (Reachable.insert 5 1 Reachable.empty rfl) rfl) rfl,
   by decide,
   C16_min_max_values Examples.three
     (Reachable.insert 8 3 (Reachable.insert 3 2 (Reachable.insert 5 1 Reachable.empty rfl) rfl)
       rfl) (by decide)⟩

/-- C17: the concrete scenario.  After `Insert(5, "a")`, `Insert(3, "b")`,
`Insert(8, "c")`, `Insert(3, "d")` on the empty container `Get(3)` returns "b"; after
`Remove(3)` it returns "d"; after a second `Remove(3)` key 3 is not contained, `Size()` is
2, `Min()` is 5 and `Max()` is 8. -/
theorem C17_concrete_scenario :
    ∃ m4 m5 m6 : LLRB_multimap Nat String,
      insertAll [(5, "a"), (3, "b"), (8, "c"), (3, "d")] empty = some m4 ∧
      Get m4 3 = .ok "b" ∧
      Remove m4 3 = some m5 ∧ Get m5 3 = .ok "d" ∧
      Remove m5 3 = some m6 ∧ Contains m6 3 = false ∧ Size m6 = 2 ∧
      Min m6 = some (.ok 5) ∧ Max m6 = some (.ok 8) :=
  ⟨⟨node 5 ["a"] Color.BLACK (node 3 ["b", "d"] Color.BLACK nil nil)
      (node 8 ["c"] Color.BLACK nil nil), 4⟩,
   ⟨node 5 ["a"] Color.BLACK (node 3 ["d"] Color.BLACK nil nil)
      (node 8 ["c"] Color.BLACK nil nil), 3⟩,
   ⟨node 8 ["c"] Color.BLACK (node 5 ["a"] Color.RED nil nil) nil, 2⟩,
   rfl, rfl, rfl, rfl, rfl, rfl, rfl, rfl, rfl⟩

end LLRB_multimap
end LLRB

namespace IndexMinPQ
variable {K : Type} [LinearOrder K]

/-- A call that returns lets the run continue from its result. -/
theorem run_cons_ok {q q1 : IndexMinPQ K} {c : Call K} (cs : List (Call K))
    (h : step q c = .ok q1) : run (c :: cs) q = run cs q1 := by
  simp [run, h, bind, Except.bind]

/-- C18 (evaluation at the failing input): on a queue of capacity 4 the calls
`Push(1, 0)`, `Push(5, 3)`, `Push(7, 1)`, `Pop()`, `Push(100, 3)` all return without
exception; afterwards `Size()` is 3 and `Top()` returns index 3, whose key is 100, while
index 1 is contained with the smaller key 7. -/
theorem C18_top_not_minimum :
    ∃ q : IndexMinPQ Nat,
      run [Call.push 1 0, Call.push 5 3, Call.push 7 1, Call.pop, Call.push 100 3]
        (create 4) = .ok q ∧
      Reachable 4 q ∧ Size q = 3 ∧ Top q = .ok 3 ∧ read q.keys 3 = .ok 100 ∧
      Contains q 1 = .ok true ∧ read q.keys 1 = .ok 7 := by
  have h1 : step (create 4 : IndexMinPQ Nat) (Call.push 1 0) =
      .ok ⟨4, 1, [1, 0, 0, 0], [0, 0, 0, 0, 0], [1, 0, 0, 0]⟩ := rfl
  have h2 : step (⟨4, 1, [1, 0, 0, 0], [0, 0, 0, 0, 0], [1, 0, 0, 0]⟩ : IndexMinPQ Nat)
      (Call.push 5 3) = .ok ⟨4, 2, [1, 0, 0, 5], [0, 0, 3, 0, 0], [1, 0, 0, 2]⟩ := rfl
  have h3 : step (⟨4, 2, [1, 0, 0, 5], [0, 0, 3, 0, 0], [1, 0, 0, 2]⟩ : IndexMinPQ Nat)
      (Call.push 7 1) = .ok ⟨4, 3, [1, 7, 0, 5], [0, 0, 3, 1, 0], [1, 3, 0, 2]⟩ := rfl
  have h4 : step (⟨4, 3, [1, 7, 0, 5], [0, 0, 3, 1, 0], [1, 3, 0, 2]⟩ : IndexMinPQ Nat)
      Call.pop = .ok ⟨4, 2, [1, 7, 0, 5], [0, 3, 1, 0, 0], [3, 2, 0, 0]⟩ := rfl
  have h5 : step (⟨4, 2, [1, 7, 0, 5], [0, 3, 1, 0, 0], [3, 2, 0, 0]⟩ : IndexMinPQ Nat)
      (Call.push 100 3) = .ok ⟨4, 3, [1, 7, 0, 100], [0, 3, 1, 3, 0], [3, 2, 0, 3]⟩ := rfl
  refine ⟨⟨4, 3, [1, 7, 0, 100], [0, 3, 1, 3, 0], [3, 2, 0, 3]⟩, ?_, ?_, rfl, rfl, rfl, rfl,
    rfl⟩
  · rw [run_cons_ok _ h1, run_cons_ok _ h2, run_cons_ok _ h3, run_cons_ok _ h4,
      run_cons_ok _ h5]
    rfl
  · exact Reachable.step _ (Reachable.step _ (Reachable.step _ (Reachable.step _
      (Reachable.step _ Reachable.fresh h1) h2) h3) h4) h5

/-- C19 (evaluation at the failing inputs): on a queue of capacity 3 after `Push(1, 0)`
and `Push(5, 2)` the top is index 0; `Pop()` returns, `Size()` goes from 2 to 1, but
`Contains(0)` is still true and `Contains(2)` has changed from true to false.  On a full
queue of capacity 1 `Pop()` writes `idx_to_heap[1]`, outside the vector of length 1. -/
theorem C19_pop_clears_wrong_entry :
    (∃ q q' : IndexMinPQ Nat,
      run [Call.push 1 0, Call.push 5 2] (create 3) = .ok q ∧ Reachable 3 q ∧
      Size q = 2 ∧ Top q = .ok 0 ∧ Contains q 0 = .ok true ∧ Contains q 2 = .ok true ∧
      Pop q = .ok q' ∧ Size q' = 1 ∧ Contains q' 0 = .ok true ∧ Contains q' 2 = .ok false) ∧
    (∃ q : IndexMinPQ Nat,
      run [Call.push 1 0] (create 1) = .ok q ∧ Reachable 1 q ∧ Size q = 1 ∧
      q.capacity = 1 ∧ q.idx_to_heap.length = 1 ∧ Pop q = .error .out_of_bounds) := by
  have h1 : step (create 3 : IndexMinPQ Nat) (Call.push 1 0) =
      .ok ⟨3, 1, [1, 0, 0], [0, 0, 0, 0], [1, 0, 0]⟩ := rfl
  have h2 : step (⟨3, 1, [1, 0, 0], [0, 0, 0, 0], [1, 0, 0]⟩ : IndexMinPQ Nat)
      (Call.push 5 2) = .ok ⟨3, 2, [1, 0, 5], [0, 0, 2, 0], [1, 0, 2]⟩ := rfl
  have h3 : step (create 1 : IndexMinPQ Nat) (Call.push 1 0) =
      .ok ⟨1, 1, [1], [0, 0], [1]⟩ := rfl
  refine ⟨⟨⟨3, 2, [1, 0, 5], [0, 0, 2, 0], [1, 0, 2]⟩,
      ⟨3, 1, [1, 0, 5], [0, 2, 0, 0], [2, 0, 0]⟩, ?_, ?_, rfl, rfl, rfl, rfl, rfl, rfl, rfl,
      rfl⟩, ⟨⟨1, 1, [1], [0, 0], [1]⟩, ?_, ?_, rfl, rfl, rfl, rfl⟩⟩
  · rw [run_cons_ok _ h1, run_cons_ok _ h2]
    rfl
  · exact Reachable.step _ (Reachable.step _ Reachable.fresh h1) h2
  · rw [run_cons_ok _ h3]
    rfl
  · exact Reachable.step _ Reachable.fresh h3

end IndexMinPQ

namespace BST
namespace Node
variable {T : Type}

theorem bst_size_eq_length : ∀ t : Node T, size t = (inorder t).length := by
  intro t
  induction t with
  | nil => rfl
  | node k l r ihl ihr =>
    simp only [size, inorder, List.length_append, List.length_cons, ihl, ihr]
    omega

/-- The recursion of `kth_small` started with `d` keys still to count: it reports whether
the whole subtree was counted, advances the counter by the number of keys counted, and
leaves the pointer on the last key counted. -/
theorem bst_recur_spec (kth : Int) : ∀ (t : Node T) (k : Int) (p : Node T) (d : Nat),
    kth = k + (d : Int) →
    (recur_kth_small kth t (k, p)).1 = decide (size t ≤ d) ∧
    (recur_kth_small kth t (k, p)).2.1 = k + ((Min.min d (size t) : Nat) : Int) ∧
    keyOf (recur_kth_small kth t (k, p)).2.2 =
      if Min.min d (size t) = 0 then keyOf p else (inorder t)[Min.min d (size t) - 1]? := by
  intro t
  induction t with
  | nil =>
    intro k p d _
    simp [recur_kth_small, size]
  | node key l r ihl ihr =>
    intro k p d hd
    obtain ⟨h1, h2, h3⟩ := ihl k p d hd
    rcases hres : recur_kth_small kth l (k, p) with ⟨f, k', q⟩
    rw [hres] at h1 h2 h3
    simp only at h1 h2 h3
    have hlen := bst_size_eq_length l
    by_cases hle : size l ≤ d
    · have hmin : Min.min d (size l) = size l := by omega
      rw [hmin] at h2 h3
      have hf : f = true := by rw [h1]; simpa using hle
      by_cases heq : size l = d
      · have hk : k' ≥ kth := by rw [h2, hd, heq]
        have hres2 : recur_kth_small kth (node key l r) (k, p) = (false, (k', q)) := by
          simp [recur_kth_small, hres, hf, hk]
        rw [hres2]
        have hm : Min.min d (size (node key l r)) = size l := by
          simp only [size]
          omega
        rw [hm]
        refine ⟨?_, h2, ?_⟩
        · simp only [size]
          symm
          simp only [decide_eq_false_iff_not]
          omega
        · rw [h3]
          by_cases hz : size l = 0
          · simp [hz]
          · simp only [hz, if_false, inorder]
            rw [List.getElem?_append_left (by omega)]
      · have hlt : size l < d := lt_of_le_of_ne hle heq
        have hk : ¬ k' ≥ kth := by
          rw [h2, hd]
          omega
        have hres2 : recur_kth_small kth (node key l r) (k, p) =
            recur_kth_small kth r (k' + 1, node key l r) := by
          simp [recur_kth_small, hres, hf, hk]
        rw [hres2]
        obtain ⟨g1, g2, g3⟩ := ihr (k' + 1) (node key l r) (d - size l - 1) (by
          rw [h2, hd]
          omega)
        refine ⟨?_, ?_, ?_⟩
        · rw [g1]
          simp only [size]
          apply decide_eq_decide.2
          omega
        · rw [g2, h2]
          simp only [size]
          omega
        · rw [g3]
          have hm : Min.min d (size (node key l r)) ≠ 0 := by
            simp only [size]
            omega
          simp only [hm, if_false]
          by_cases hz : Min.min (d - size l - 1) (size r) = 0
          · simp only [hz, if_true, keyOf]
            have hi : Min.min d (size (node key l r)) - 1 = (inorder l).length := by
              simp only [size] at *
              omega
            rw [hi]
            simp only [inorder]
            rw [List.getElem?_append_right (le_refl _)]
            simp
          · simp only [hz, if_false]
            have hi : Min.min d (size (node key l r)) - 1 =
                (inorder l).length + (Min.min (d - size l - 1) (size r) - 1 + 1) := by
              simp only [size] at *
              omega
            rw [hi]
            simp only [inorder]
            rw [List.getElem?_append_right (by omega)]
            simp
    · have hmin : Min.min d (size l) = d := by omega
      rw [hmin] at h2 h3
      have hf : f = false := by rw [h1]; simpa using hle
      have hres2 : recur_kth_small kth (node key l r) (k, p) = (false, (k', q)) := by
        simp [recur_kth_small, hres, hf]
      rw [hres2]
      have hm : Min.min d (size (node key l r)) = d := by
        simp only [size]
        omega
      rw [hm]
      refine ⟨?_, h2, ?_⟩
      · simp only [size]
        symm
        simp only [decide_eq_false_iff_not]
        omega
      · rw [h3]
        by_cases hz : d = 0
        · simp [hz]
        · simp only [hz, if_false, inorder]
          rw [List.getElem?_append_left (by omega)]

theorem bst_min_spec : ∀ t : Node T, t ≠ nil →
    ∃ mk ml mr rest, min t = some (node mk ml mr) ∧ inorder t = mk :: rest := by
  intro t
  induction t with
  | nil => intro h; exact absurd rfl h
  | node k l r ihl _ =>
    intro _
    rcases l with _ | ⟨lk, ll, lr⟩
    · exact ⟨k, nil, r, inorder r, by simp [min], by simp [inorder]⟩
    · obtain ⟨mk, ml, mr, rest, h1, h2⟩ := ihl (by simp)
      refine ⟨mk, ml, mr, rest ++ k :: inorder r, by simpa [min] using h1, ?_⟩
      show inorder (node lk ll lr) ++ k :: inorder r = _
      rw [h2]
      rfl

variable [LinearOrder T]

theorem bst_ordered_node (k : T) (l r : Node T) :
    Ordered (node k l r) ↔
      Ordered l ∧ Ordered r ∧ (∀ x ∈ inorder l, x < k) ∧ (∀ y ∈ inorder r, k < y) := by
  unfold Ordered
  simp only [inorder, List.pairwise_append, List.pairwise_cons, List.mem_cons]
  constructor
  · rintro ⟨hl, ⟨hkr, hr⟩, hlr⟩
    exact ⟨hl, hr, fun x hx => hlr x hx k (Or.inl rfl), hkr⟩
  · rintro ⟨hl, hr, h1, h2⟩
    refine ⟨hl, ⟨h2, hr⟩, ?_⟩
    intro x hx y hy
    rcases hy with rfl | hy
    · exact h1 x hx
    · exact lt_trans (h1 x hx) (h2 y hy)

theorem bst_mem_insert (key : T) : ∀ (t : Node T) (x : T),
    x ∈ inorder (insert t key) ↔ x = key ∨ x ∈ inorder t := by
  intro t
  induction t with
  | nil =>
    intro x
    simp [insert, inorder]
  | node k l r ihl ihr =>
    intro x
    by_cases h1 : key < k
    · simp only [insert, h1, if_true, inorder, List.mem_append, List.mem_cons, ihl]
      tauto
    · by_cases h2 : key > k
      · simp only [insert, h1, h2, if_true, if_false, inorder, List.mem_append, List.mem_cons,
          ihr]
        tauto
      · have hk : key = k := le_antisymm (not_lt.1 h2) (not_lt.1 h1)
        subst hk
        simp only [insert, h1, h2, if_false, inorder, List.mem_append, List.mem_cons]
        tauto

theorem bst_insert_ordered (key : T) : ∀ t : Node T, Ordered t → Ordered (insert t key) := by
  intro t
  induction t with
  | nil =>
    intro _
    simp [insert, Ordered, inorder]
  | node k l r ihl ihr =>
    intro h
    obtain ⟨hl, hr, hlk, hkr⟩ := (bst_ordered_node k l r).1 h
    by_cases h1 : key < k
    · simp only [insert, h1, if_true]
      refine (bst_ordered_node _ _ _).2 ⟨ihl hl, hr, ?_, hkr⟩
      intro x hx
      rcases (bst_mem_insert key l x).1 hx with rfl | hx
      · exact h1
      · exact hlk x hx
    · by_cases h2 : key > k
      · simp only [insert, h1, h2, if_true, if_false]
        refine (bst_ordered_node _ _ _).2 ⟨hl, ihr hr, hlk, ?_⟩
        intro x hx
        rcases (bst_mem_insert key r x).1 hx with rfl | hx
        · exact h2
        · exact hkr x hx
      · simp only [insert, h1, h2, if_false]
        exact h

/-- The removal returns, keeps the ordering, and removes exactly the given key. -/
theorem bst_remove_spec : ∀ (t : Node T) (key : T), Ordered t →
    ∃ t', remove t key = some t' ∧ Ordered t' ∧
      ∀ x, x ∈ inorder t' ↔ (x ∈ inorder t ∧ x ≠ key) := by
  intro t
  induction t with
  | nil =>
    intro key _
    exact ⟨nil, rfl, by simp [Ordered, inorder], by simp [inorder]⟩
  | node k l r ihl ihr =>
    intro key h
    obtain ⟨hl, hr, hlk, hkr⟩ := (bst_ordered_node k l r).1 h
    by_cases h1 : key < k
    · obtain ⟨l', e, ol, ml⟩ := ihl key hl
      refine ⟨node k l' r, by simp [remove, h1, e],
        (bst_ordered_node _ _ _).2 ⟨ol, hr, fun x hx => hlk x ((ml x).1 hx).1, hkr⟩, ?_⟩
      intro x
      simp only [inorder, List.mem_append, List.mem_cons, ml]
      constructor
      · rintro (⟨hx, hne⟩ | rfl | hx)
        · exact ⟨Or.inl hx, hne⟩
        · exact ⟨Or.inr (Or.inl rfl), ne_of_gt h1⟩
        · exact ⟨Or.inr (Or.inr hx), ne_of_gt (lt_trans h1 (hkr x hx))⟩
      · rintro ⟨hx | rfl | hx, hne⟩
        · exact Or.inl ⟨hx, hne⟩
        · exact Or.inr (Or.inl rfl)
        · exact Or.inr (Or.inr hx)
    · by_cases h2 : key > k
      · obtain ⟨r', e, orr, mr⟩ := ihr key hr
        refine ⟨node k l r', by simp [remove, h1, h2, e],
          (bst_ordered_node _ _ _).2 ⟨hl, orr, hlk, fun x hx => hkr x ((mr x).1 hx).1⟩, ?_⟩
        intro x
        simp only [inorder, List.mem_append, List.mem_cons, mr]
        constructor
        · rintro (hx | rfl | ⟨hx, hne⟩)
          · exact ⟨Or.inl hx, ne_of_lt (lt_trans (hlk x hx) h2)⟩
          · exact ⟨Or.inr (Or.inl rfl), ne_of_lt h2⟩
          · exact ⟨Or.inr (Or.inr hx), hne⟩
        · rintro ⟨hx | rfl | hx, hne⟩
          · exact Or.inl hx
          · exact Or.inr (Or.inl rfl)
          · exact Or.inr (Or.inr ⟨hx, hne⟩)
      · have hk : key = k := le_antisymm (not_lt.1 h2) (not_lt.1 h1)
        subst hk
        by_cases hboth : (!l.isNil && !r.isNil) = true
        · have hrne : r ≠ nil := by
            intro e
            subst e
            simp [isNil] at hboth
          obtain ⟨mk, ml, mr, rest, hmin, hin⟩ := bst_min_spec r hrne
          obtain ⟨r', e, orr, mr'⟩ := ihr mk hr
          have hmem : mk ∈ inorder r := by
            rw [hin]
            simp
          have hrest : ∀ y ∈ inorder r, y ≠ mk → mk < y := by
            intro y hy hne
            have hp : (inorder r).Pairwise (fun a b => a < b) := hr
            rw [hin] at hp hy
            rcases List.mem_cons.1 hy with rfl | hy
            · exact absurd rfl hne
            · exact (List.pairwise_cons.1 hp).1 y hy
          refine ⟨node mk l r', by simp [remove, hboth, hmin, e],
            (bst_ordered_node _ _ _).2 ⟨hl, orr,
              fun x hx => lt_trans (hlk x hx) (hkr mk hmem),
              fun y hy => hrest y ((mr' y).1 hy).1 ((mr' y).1 hy).2⟩, ?_⟩
          intro x
          simp only [inorder, List.mem_append, List.mem_cons, mr']
          constructor
          · rintro (hx | rfl | ⟨hx, hne⟩)
            · exact ⟨Or.inl hx, ne_of_lt (hlk x hx)⟩
            · exact ⟨Or.inr (Or.inr hmem), ne_of_gt (hkr _ hmem)⟩
            · exact ⟨Or.inr (Or.inr hx), ne_of_gt (hkr x hx)⟩
          · rintro ⟨hx | rfl | hx, hne⟩
            · exact Or.inl hx
            · exact absurd rfl hne
            · by_cases hxm : x = mk
              · exact Or.inr (Or.inl hxm)
              · exact Or.inr (Or.inr ⟨hx, hxm⟩)
        · have hin : inorder (if (!l.isNil) = true then l else r) = inorder l ++ inorder r := by
            cases l with
            | nil => simp [isNil, inorder]
            | node lk ll lr =>
              cases r with
              | nil => simp [isNil, inorder]
              | node rk rl rr => simp [isNil] at hboth
          refine ⟨if (!l.isNil) = true then l else r, by simp [remove, hboth], ?_, ?_⟩
          · unfold Ordered
            rw [hin]
            have hp : (inorder (node key l r)).Pairwise (fun a b => a < b) := h
            simp only [inorder, List.pairwise_append, List.pairwise_cons, List.mem_cons] at hp ⊢
            exact ⟨hp.1, hp.2.1.2, fun x hx y hy => hp.2.2 x hx y (Or.inr hy)⟩
          · intro x
            rw [hin]
            simp only [inorder, List.mem_append, List.mem_cons]
            constructor
            · rintro (hx | hx)
              · exact ⟨Or.inl hx, ne_of_lt (hlk x hx)⟩
              · exact ⟨Or.inr (Or.inr hx), ne_of_gt (hkr x hx)⟩
            · rintro ⟨hx | rfl | hx, hne⟩
              · exact Or.inl hx
              · exact absurd rfl hne
              · exact Or.inr hx

end Node

variable {T : Type}

theorem bst_kth_small_eq (b : BST T) (kth : Int) :
    kth_small b kth = Node.keyOf (Node.recur_kth_small kth b.root (0, b.root)).2.2 := by
  unfold kth_small
  cases (Node.recur_kth_small kth b.root (0, b.root)).2.2 <;> rfl

/-- In a strictly increasing list exactly `i` elements are smaller than the element at
position `i`. -/
theorem bst_count_smaller [LinearOrder T] : ∀ (xs : List T) (i : Nat) (x : T),
    xs.Pairwise (fun a b => a < b) → xs[i]? = some x →
    (xs.filter (fun y => decide (y < x))).length = i := by
  intro xs
  induction xs with
  | nil =>
    intro i x _ h
    simp at h
  | cons a rest ih =>
    intro i x hp h
    obtain ⟨ha, hrest⟩ := List.pairwise_cons.1 hp
    cases i with
    | zero =>
      simp only [List.getElem?_cons_zero, Option.some.injEq] at h
      subst h
      have : ∀ y ∈ rest, ¬ y < a := fun y hy => not_lt.2 (le_of_lt (ha y hy))
      simp only [List.filter_cons, lt_irrefl, decide_False, Bool.false_eq_true, if_false,
        List.length_eq_zero, List.filter_eq_nil_iff, decide_eq_true_eq]
      exact this
    | succ j =>
      simp only [List.getElem?_cons_succ] at h
      have hx : x ∈ rest := (List.mem_iff_getElem?.2 ⟨j, h⟩)
      have hax : a < x := ha x hx
      simp only [List.filter_cons, hax, decide_True, if_true, List.length_cons, ih j x hrest h]

variable [LinearOrder T]

theorem bst_ordered_of_reachable {b : BST T} (hb : Reachable b) : Node.Ordered b.root := by
  induction hb with
  | empty => simp [empty, Node.Ordered, Node.inorder]
  | insert key _ ih => exact Node.bst_insert_ordered key _ ih
  | @remove b0 b1 key _ hr ih =>
    obtain ⟨t', e, ot, _⟩ := Node.bst_remove_spec b0.root key ih
    have : b1 = ⟨t'⟩ := by
      simp only [remove, e, Option.map_some', Option.some.injEq] at hr
      exact hr.symm
    rw [this]
    exact ot

/-- C20: for every tree built from the empty tree by `insert` and `remove` calls the
in-order key sequence is strictly increasing (so the keys are distinct and sorted) and has
as many entries as the tree has nodes; for every `k` with `1 ≤ k ≤ n`, where `n` is that
number, `kth_small(k)` returns the key at position `k` (counting from 1) of that sequence,
and exactly `k - 1` keys of the tree are smaller than it. -/
theorem C20_kth_small_is_kth_smallest (b : BST T) (hb : Reachable b) (k : Nat)
    (h1 : 1 ≤ k) (h2 : k ≤ Node.size b.root) :
    (Node.inorder b.root).Pairwise (fun x y => x < y) ∧
    (Node.inorder b.root).length = Node.size b.root ∧
    ∃ x, kth_small b (k : Int) = some x ∧ (Node.inorder b.root)[k - 1]? = some x ∧
      ((Node.inorder b.root).filter (fun y => decide (y < x))).length = k - 1 := by
  have ho : (Node.inorder b.root).Pairwise (fun x y => x < y) := bst_ordered_of_reachable hb
  have hlen := Node.bst_size_eq_length b.root
  obtain ⟨_, _, h3⟩ := Node.bst_recur_spec (k : Int) b.root 0 b.root k (by simp)
  have hm : Min.min k (Node.size b.root) = k := by omega
  have hk0 : k ≠ 0 := by omega
  rw [hm] at h3
  simp only [hk0, if_false] at h3
  have hlt : k - 1 < (Node.inorder b.root).length := by omega
  refine ⟨ho, hlen.symm, (Node.inorder b.root)[k - 1], ?_, ?_, ?_⟩
  · rw [bst_kth_small_eq, h3]
    exact List.getElem?_eq_getElem hlt
  · exact List.getElem?_eq_getElem hlt
  · exact bst_count_smaller _ _ _ ho (List.getElem?_eq_getElem hlt)

/-- Witness for C20 on the tree built by `insert(5)`, `insert(3)`, `insert(8)`, with
`k = 2`. -/
theorem C20_kth_small_is_kth_smallest_witness :
    Reachable sample ∧ 1 ≤ 2 ∧ 2 ≤ Node.size sample.root ∧
    ((Node.inorder sample.root).Pairwise (fun x y => x < y) ∧
    (Node.inorder sample.root).length = Node.size sample.root ∧
    ∃ x, kth_small sample ((2 : Nat) : Int) = some x ∧
      (Node.inorder sample.root)[2 - 1]? = some x ∧
      ((Node.inorder sample.root).filter (fun y => decide (y < x))).length = 2 - 1) :=
  ⟨Reachable.insert 8 (Reachable.insert 3 (Reachable.insert 5 Reachable.empty)),
   by decide, by decide,
   C20_kth_small_is_kth_smallest sample
     (Reachable.insert 8 (Reachable.insert 3 (Reachable.insert 5 Reachable.empty))) 2
     (by decide) (by decide)⟩

end BST

namespace LLRB
namespace Node
variable {K V : Type}

/-- The three tests of `FixUp` are the three steps of its description, taken in order,
each on the result of the previous one. -/
theorem FixUp_eq_steps (k : K) (vs : List V) (c : Color) (l r : Node K V) :
    FixUp (node k vs c l r) = FixUpSteps (node k vs c l r) := by
  rcases l with _ | ⟨lk, lvs, lc, ll, lr⟩
  · rcases r with _ | ⟨rk, rvs, rc, rl, rr⟩
    · rfl
    · cases rc <;> rfl
  · rcases ll with _ | ⟨llk, llvs, llc, lll, llr⟩
    · rcases r with _ | ⟨rk, rvs, rc, rl, rr⟩
      · cases lc <;> rfl
      · cases lc <;> cases rc <;> rfl
    · rcases r with _ | ⟨rk, rvs, rc, rl, rr⟩
      · cases lc <;> cases llc <;> rfl
      · cases lc <;> cases llc <;> cases rc <;> rfl

/-- What `FixUp` leaves at the top of the subtree when the right child has no red right
child: the traversal is kept, the right child is not red, and the left child and the
left-left grandchild are not both red. -/
theorem FixUp_local (k : K) (vs : List V) (c : Color) (l r : Node K V)
    (h : rightRed r = false) :
    ∃ t, FixUp (node k vs c l r) = some t ∧ inorder t = inorder (node k vs c l r) ∧
      rightRed t = false ∧ (leftRed t && leftLeftRed t) = false := by
  by_cases hr : IsRed r = true
  · obtain ⟨rk, rvs, rl, rr, rfl⟩ := IsRed_eq_true hr
    have hrr : IsRed rr = false := h
    by_cases hl : IsRed l = true
    · obtain ⟨lk, lvs, ll, lr, rfl⟩ := IsRed_eq_true hl
      by_cases hll : IsRed ll = true
      · obtain ⟨llk, llvs, lll, llr, rfl⟩ := IsRed_eq_true hll
        exact ⟨_, FixUp_rotR _ _ _ _ _ _ _ _ _ _ _, by simp, rfl, rfl⟩
      · simp only [Bool.not_eq_true] at hll
        exact ⟨_, FixUp_flip _ _ _ _ _ _ _ _ _ _ _ hll, by simp, rfl, rfl⟩
    · simp only [Bool.not_eq_true] at hl
      refine ⟨_, FixUp_rotL _ _ _ _ _ _ _ _ hl hrr, by simp, hrr, ?_⟩
      simp only [leftRed, leftLeftRed]
      cases l with
      | nil => rfl
      | node lk lvs lc ll lr =>
        simp only [leftLeftRed, hl, Bool.and_false]
  · simp only [Bool.not_eq_true] at hr
    by_cases hl : IsRed l = true
    · obtain ⟨lk, lvs, ll, lr, rfl⟩ := IsRed_eq_true hl
      by_cases hll : IsRed ll = true
      · obtain ⟨llk, llvs, lll, llr, rfl⟩ := IsRed_eq_true hll
        exact ⟨_, FixUp_rotR _ _ _ _ _ _ _ _ _ _ _, by simp, rfl, rfl⟩
      · simp only [Bool.not_eq_true] at hll
        refine ⟨_, FixUp_keep_red _ _ _ _ _ _ _ _ hll hr, rfl, hr, ?_⟩
        simp only [leftLeftRed, hll, Bool.and_false]
    · simp only [Bool.not_eq_true] at hl
      refine ⟨_, FixUp_keep _ _ _ _ _ hl hr, rfl, hr, ?_⟩
      simp only [leftRed, hl, Bool.false_and]

/-- C23: on a node whose right child, if there is one, has no red right child, `FixUp`
returns a subtree with the same in-order sequence of (key, values) whose root has no red
right child and does not have both a red left child and a red left-left grandchild; the
result is that of the three steps of the description (rotate left if only the right child
is red, rotate right if left and left-left are red, flip colours if both children are
red) applied in that order, each to the result of the previous one. -/
theorem C23_fixup_restores_local_invariant (k : K) (vs : List V) (c : Color)
    (l r : Node K V) (h : rightRed r = false) :
    ∃ t, FixUp (node k vs c l r) = some t ∧
      (fixStepA (node k vs c l r)).bind (fun a => (fixStepB a).bind fixStepC) = some t ∧
      inorder t = inorder (node k vs c l r) ∧
      rightRed t = false ∧ (leftRed t && leftLeftRed t) = false := by
  obtain ⟨t, h1, h2, h3, h4⟩ := FixUp_local k vs c l r h
  refine ⟨t, h1, ?_, h2, h3, h4⟩
  have := FixUp_eq_steps k vs c l r
  rw [h1] at this
  exact this.symm

/-- Witness for C23: a black node with a black left child and a red right child; the
first step rotates left. -/
theorem C23_fixup_restores_local_invariant_witness :
    rightRed (node 8 [3] Color.RED nil nil : Node Nat Nat) = false ∧
    ∃ t, FixUp (node 5 [1] Color.BLACK (node 3 [2] Color.BLACK nil nil)
        (node 8 [3] Color.RED nil nil)) = some t ∧
      (fixStepA (node 5 [1] Color.BLACK (node 3 [2] Color.BLACK nil nil)
        (node 8 [3] Color.RED nil nil))).bind (fun a => (fixStepB a).bind fixStepC) = some t ∧
      inorder t = inorder (node 5 [1] Color.BLACK (node 3 [2] Color.BLACK nil nil)
        (node 8 [3] Color.RED nil nil)) ∧
      rightRed t = false ∧ (leftRed t && leftLeftRed t) = false :=
  ⟨rfl, C23_fixup_restores_local_invariant 5 [1] Color.BLACK (node 3 [2] Color.BLACK nil nil)
    (node 8 [3] Color.RED nil nil) rfl⟩

variable [LinearOrder K]

/-- C22: `RotateLeft` on a node `p` with a right child returns the subtree whose root is
that child, carrying the former colour of `p`, with `p` coloured RED as its left child;
`RotateRight` on a node with a left child is the mirror image.  Both keep the in-order
sequence of (key, values), and with it the ordering of the keys. -/
theorem C22_rotations (k : K) (vs : List V) (c : Color) (a : Node K V) (xk : K)
    (xvs : List V) (xc : Color) (b d : Node K V) :
    (RotateLeft (node k vs c a (node xk xvs xc b d)) =
        some (node xk xvs c (node k vs Color.RED a b) d) ∧
      inorder (node xk xvs c (node k vs Color.RED a b) d) =
        inorder (node k vs c a (node xk xvs xc b d)) ∧
      (Ordered (node xk xvs c (node k vs Color.RED a b) d) ↔
        Ordered (node k vs c a (node xk xvs xc b d)))) ∧
    (RotateRight (node k vs c (node xk xvs xc a b) d) =
        some (node xk xvs c a (node k vs Color.RED b d)) ∧
      inorder (node xk xvs c a (node k vs Color.RED b d)) =
        inorder (node k vs c (node xk xvs xc a b) d) ∧
      (Ordered (node xk xvs c a (node k vs Color.RED b d)) ↔
        Ordered (node k vs c (node xk xvs xc a b) d))) := by
  have h1 : inorder (node xk xvs c (node k vs Color.RED a b) d) =
      inorder (node k vs c a (node xk xvs xc b d)) := by simp
  have h2 : inorder (node xk xvs c a (node k vs Color.RED b d)) =
      inorder (node k vs c (node xk xvs xc a b) d) := by simp
  refine ⟨⟨rfl, h1, ?_⟩, ⟨rfl, h2, ?_⟩⟩
  · unfold Ordered keys
    rw [h1]
  · unfold Ordered keys
    rw [h2]

/-- C24: on a non-empty ordered subtree that satisfies the colour and balance conditions
and whose root or whose left child is red, `DeleteMin` (with fuel for every node) returns
a subtree whose in-order sequence is the previous one without its first entry; that entry
holds the smallest key, and the result is again ordered and satisfies the colour and
balance conditions. -/
theorem C24_deletemin_removes_minimum (n : Node K V) (hn : n ≠ nil) (ho : Ordered n)
    (hv : Valid n) (hr : (IsRed n || leftRed n) = true) (fuel : Nat) (hf : size n ≤ fuel) :
    ∃ res mk mvs, DeleteMin fuel n = some res ∧ inorder n = (mk, mvs) :: inorder res ∧
      inorder res = (inorder n).tail ∧ (∀ e ∈ inorder res, mk < e.1) ∧
      Ordered res ∧ Valid res := by
  obtain ⟨res, h1, h2, -, -, h3⟩ := DeleteMin_spec fuel n hf ⟨hv, hr⟩
  have hne := inorder_ne_nil hn
  cases hin : inorder n with
  | nil => exact absurd hin hne
  | cons e rest =>
    rw [hin] at h3
    simp only [List.tail_cons] at h3
    have hp : ((e :: rest).map Prod.fst).Pairwise (fun a b => a < b) := by
      have := ho
      unfold Ordered keys at this
      rw [hin] at this
      exact this
    simp only [List.map_cons, List.pairwise_cons] at hp
    refine ⟨res, e.1, e.2, h1, by rw [h3], h3, ?_, ?_, h2⟩
    · intro x hx
      rw [h3] at hx
      exact hp.1 x.1 (List.mem_map_of_mem _ hx)
    · exact LLRB_multimap.Ordered_of_inorder h3 hp.2

/-- Witness for C24: the black node 5 with the red left child 3. -/
theorem C24_deletemin_removes_minimum_witness :
    (node 5 [1] Color.BLACK (node 3 [2] Color.RED nil nil) nil : Node Nat Nat) ≠ nil ∧
    Ordered (node 5 [1] Color.BLACK (node 3 [2] Color.RED nil nil) nil : Node Nat Nat) ∧
    Valid (node 5 [1] Color.BLACK (node 3 [2] Color.RED nil nil) nil : Node Nat Nat) ∧
    ∃ res mk mvs,
      DeleteMin 2 (node 5 [1] Color.BLACK (node 3 [2] Color.RED nil nil) nil : Node Nat Nat) =
        some res ∧
      inorder (node 5 [1] Color.BLACK (node 3 [2] Color.RED nil nil) nil : Node Nat Nat) =
        (mk, mvs) :: inorder res ∧
      inorder res =
        (inorder (node 5 [1] Color.BLACK (node 3 [2] Color.RED nil nil) nil : Node Nat Nat)).tail ∧
      (∀ e ∈ inorder res, mk < e.1) ∧ Ordered res ∧ Valid res :=
  ⟨by decide, by decide, by decide,
    C24_deletemin_removes_minimum (node 5 [1] Color.BLACK (node 3 [2] Color.RED nil nil) nil)
      (by decide) (by decide) (by decide) rfl 2 (by decide)⟩

end Node

namespace LLRB_multimap
open Node
variable {K V : Type} [LinearOrder K]

/-- A root that exists and is not red is BLACK. -/
theorem root_black_of_Inv {m : LLRB_multimap K V} (h : Inv m) :
    m.root = nil ∨ ∃ k vs l r, m.root = node k vs Color.BLACK l r := by
  have hr := h.2.2.1
  cases hroot : m.root with
  | nil => exact Or.inl rfl
  | node k vs c l r =>
    rw [hroot] at hr
    have hc : c = Color.BLACK := IsRed_eq_false_node hr
    subst hc
    exact Or.inr ⟨k, vs, l, r, rfl⟩

/-- C21: on every reachable container, `Insert` returns a container whose root exists
and is BLACK, and `Remove` returns a container that is empty or whose root is BLACK;
so every reachable non-empty container has a BLACK root. -/
theorem C21_root_is_black (m : LLRB_multimap K V) (hm : Reachable m) :
    (∀ key value, ∃ m', Insert m key value = some m' ∧
      ∃ k vs l r, m'.root = node k vs Color.BLACK l r) ∧
    (∀ key, ∃ m', Remove m key = some m' ∧
      (m'.root = nil ∨ ∃ k vs l r, m'.root = node k vs Color.BLACK l r)) ∧
    (m.root = nil ∨ ∃ k vs l r, m.root = node k vs Color.BLACK l r) := by
  refine ⟨?_, ?_, root_black_of_Inv (Inv_of_Reachable hm)⟩
  · intro key value
    obtain ⟨m', h1, h2⟩ := Insert_total hm key value
    refine ⟨m', h1, ?_⟩
    rcases root_black_of_Inv (Inv_of_Reachable h2) with h | h
    · exfalso
      unfold Insert at h1
      cases hi : Node.Insert m.root key value with
      | none => simp [hi] at h1
      | some t =>
        cases t with
        | nil => simp [hi] at h1
        | node k vs c l r =>
          simp [hi] at h1
          rw [← h1] at h
          simp at h
    · exact h
  · intro key
    obtain ⟨m', h1, h2⟩ := Remove_total hm key
    exact ⟨m', h1, root_black_of_Inv (Inv_of_Reachable h2)⟩

/-- Witness for C21 on the container holding 3 and 5. -/
theorem C21_root_is_black_witness :
    Reachable Examples.two ∧
    ((∀ key value, ∃ m', Insert Examples.two key value = some m' ∧
      ∃ k vs l r, m'.root = node k vs Color.BLACK l r) ∧
    (∀ key, ∃ m', Remove Examples.two key = some m' ∧
      (m'.root = nil ∨ ∃ k vs l r, m'.root = node k vs Color.BLACK l r)) ∧
    (Examples.two.root = nil ∨ ∃ k vs l r, Examples.two.root = node k vs Color.BLACK l r)) :=
  ⟨Reachable.insert 3 2 (Reachable.insert 5 1 Reachable.empty rfl) rfl,
   C21_root_is_black Examples.two
     (Reachable.insert 3 2 (Reachable.insert 5 1 Reachable.empty rfl) rfl)⟩

end LLRB_multimap
end LLRB

namespace LLRB
namespace Node
variable {K V : Type}

theorem size_RotateLeft {n t : Node K V} (h : RotateLeft n = some t) : size t = size n := by
  rcases n with _ | ⟨k, vs, c, l, _ | ⟨rk, rvs, rc, rl, rr⟩⟩ <;> simp [RotateLeft] at h
  subst h
  simp only [size_node]
  omega

theorem size_RotateRight {n t : Node K V} (h : RotateRight n = some t) : size t = size n := by
  rcases n with _ | ⟨k, vs, c, _ | ⟨lk, lvs, lc, ll, lr⟩, r⟩ <;> simp [RotateRight] at h
  subst h
  simp only [size_node]
  omega

theorem size_FlipColors {n t : Node K V} (h : FlipColors n = some t) : size t = size n := by
  rcases n with _ | ⟨k, vs, c, _ | ⟨lk, lvs, lc, ll, lr⟩, _ | ⟨rk, rvs, rc, rl, rr⟩⟩ <;>
    simp [FlipColors] at h
  subst h
  simp only [size_node]

theorem size_setLeft {n l l' n' : Node K V} (h1 : n.left? = some l)
    (h2 : n.setLeft? l' = some n') : size n' + size l = size n + size l' := by
  rcases n with _ | ⟨k, vs, c, a, b⟩
  · simp [left?] at h1
  · simp only [left?, Option.some.injEq] at h1
    simp only [setLeft?, Option.some.injEq] at h2
    subst h1 h2
    simp only [size_node]
    omega

theorem size_setRight {n r r' n' : Node K V} (h1 : n.right? = some r)
    (h2 : n.setRight? r' = some n') : size n' + size r = size n + size r' := by
  rcases n with _ | ⟨k, vs, c, a, b⟩
  · simp [right?] at h1
  · simp only [right?, Option.some.injEq] at h1
    simp only [setRight?, Option.some.injEq] at h2
    subst h1 h2
    simp only [size_node]
    omega

theorem size_FixUp {n t : Node K V} (h : FixUp n = some t) : size t = size n := by
  rcases n with _ | ⟨k, vs, c, l, r⟩
  · simp [FixUp, right?] at h
  · rw [FixUp_eq_steps] at h
    simp only [FixUpSteps, Option.bind_eq_some] at h
    obtain ⟨a, ha, b, hb, hc⟩ := h
    have h1 : size a = size (node k vs c l r) := by
      unfold fixStepA at ha
      split at ha
      · exact size_RotateLeft ha
      · simp only [Option.some.injEq] at ha
        rw [← ha]
    have h2 : size b = size a := by
      unfold fixStepB at hb
      split at hb
      · exact size_RotateRight hb
      · simp only [Option.some.injEq] at hb
        rw [← hb]
    have h3 : size t = size b := by
      unfold fixStepC at hc
      split at hc
      · exact size_FlipColors hc
      · simp only [Option.some.injEq] at hc
        rw [← hc]
    omega

theorem size_MoveRedLeft {n t : Node K V} (h : MoveRedLeft n = some t) : size t = size n := by
  simp only [MoveRedLeft, Option.bind_eq_bind, Option.bind_eq_some] at h
  obtain ⟨n1, h1, r1, h2, rl, h3, h4⟩ := h
  have e1 := size_FlipColors h1
  split at h4
  · simp only [Option.bind_eq_bind, Option.bind_eq_some] at h4
    obtain ⟨r2, h5, n2, h6, n3, h7, h8⟩ := h4
    have e2 := size_RotateRight h5
    have e3 := size_setRight h2 h6
    have e4 := size_RotateLeft h7
    have e5 := size_FlipColors h8
    omega
  · simp only [pure, Option.some.injEq] at h4
    rw [← h4]
    exact e1

theorem size_MoveRedRight {n t : Node K V} (h : MoveRedRight n = some t) : size t = size n := by
  simp only [MoveRedRight, Option.bind_eq_bind, Option.bind_eq_some] at h
  obtain ⟨n1, h1, l1, h2, ll, h3, h4⟩ := h
  have e1 := size_FlipColors h1
  split at h4
  · simp only [Option.bind_eq_bind, Option.bind_eq_some] at h4
    obtain ⟨n2, h5, h6⟩ := h4
    have e2 := size_RotateRight h5
    have e3 := size_FlipColors h6
    omega
  · simp only [pure, Option.some.injEq] at h4
    rw [← h4]
    exact e1

/-- The number of values of a one-node tree. -/
theorem totalValues_one_node (k : K) (vs : List V) (c : Color) :
    totalValues (node k vs c nil nil) = vs.length := by
  simp [totalValues]

end Node
end LLRB

namespace LLRB
namespace Node
variable {K V : Type} [LinearOrder K]

/-- When the recursive `Remove` returns a subtree with at most one node fewer than it was
given, no splice dropped a left child: the watched version returns the same subtree. -/
theorem RemoveChecked_of_size : ∀ (fuel : Nat) (n : Node K V) (key : K) (t : Node K V),
    Remove fuel n key = some t → size n ≤ size t + 1 → RemoveChecked fuel n key = some t := by
  intro fuel
  induction fuel with
  | zero =>
    intro n key t h _
    rcases n with _ | ⟨k, vs, c, l, r⟩
    · simpa [Remove, RemoveChecked] using h
    · simp [Remove] at h
  | succ fuel ih =>
    intro n key t h hs
    rcases n with _ | ⟨k, vs, c, l, r⟩
    · simpa [Remove, RemoveChecked] using h
    by_cases hmulti : key = k ∧ vs.length > 1
    · simp only [Remove, if_pos hmulti] at h
      simp only [RemoveChecked, if_pos hmulti]
      exact h
    by_cases hlt : key < k
    · cases hm : needsMove l with
      | none => simp [Remove, hmulti, hlt, hm] at h
      | some move =>
        cases move with
        | false =>
          cases hl2 : Remove fuel l key with
          | none => simp [Remove, hmulti, hlt, hm, left?, setLeft?, hl2] at h
          | some l2 =>
            simp [Remove, hmulti, hlt, hm, left?, setLeft?, hl2] at h
            have e3 := size_FixUp h
            have hrec := ih l key l2 hl2 (by simp only [size_node] at e3 hs; omega)
            simp [RemoveChecked, hmulti, hlt, hm, left?, setLeft?, hrec, h]
        | true =>
          cases hn1 : MoveRedLeft (node k vs c l r) with
          | none => simp [Remove, hmulti, hlt, hm, hn1] at h
          | some n1 =>
            have e1 := size_MoveRedLeft hn1
            rcases n1 with _ | ⟨k1, vs1, c1, l1, r1⟩
            · simp [Remove, hmulti, hlt, hm, hn1, left?] at h
            · cases hl2 : Remove fuel l1 key with
              | none => simp [Remove, hmulti, hlt, hm, hn1, left?, setLeft?, hl2] at h
              | some l2 =>
                simp [Remove, hmulti, hlt, hm, hn1, left?, setLeft?, hl2] at h
                have e3 := size_FixUp h
                have hrec := ih l1 key l2 hl2 (by simp only [size_node] at e1 e3 hs; omega)
                simp [RemoveChecked, hmulti, hlt, hm, hn1, left?, setLeft?, hrec, h]
    · -- the node itself or the right subtree
      have tail2 : ∀ (k2 : K) (vs2 : List V) (c2 : Color) (l2 r2 : Node K V),
          size (node k vs c l r) = size (node k2 vs2 c2 l2 r2) →
          (if key = k2 then
              (Min r2).bind fun n_min =>
                match n_min with
                | nil => none
                | node mk mvs _ _ _ =>
                  (DeleteMin fuel r2).bind fun r => FixUp (node mk mvs c2 l2 r)
            else (Remove fuel r2 key).bind fun r => FixUp (node k2 vs2 c2 l2 r)) = some t →
          (if key = k2 then
              (Min r2).bind fun n_min =>
                match n_min with
                | nil => none
                | node mk mvs _ _ _ =>
                  (DeleteMin fuel r2).bind fun r => FixUp (node mk mvs c2 l2 r)
            else (RemoveChecked fuel r2 key).bind fun r => FixUp (node k2 vs2 c2 l2 r)) =
            some t := by
        intro k2 vs2 c2 l2 r2 e2 h2
        by_cases hk2 : key = k2
        · simp only [if_pos hk2] at h2 ⊢
          exact h2
        · simp only [if_neg hk2] at h2 ⊢
          cases hr2 : Remove fuel r2 key with
          | none => simp [hr2] at h2
          | some r' =>
            simp only [hr2, Option.some_bind] at h2
            have e3 := size_FixUp h2
            have hrec := ih r2 key r' hr2 (by simp only [size_node] at e2 e3 hs; omega)
            simp only [hrec, Option.some_bind]
            exact h2
      have tail1 : ∀ (k1 : K) (vs1 : List V) (c1 : Color) (l1 r1 : Node K V),
          size (node k vs c l r) = size (node k1 vs1 c1 l1 r1) →
          (if key = k1 ∧ r1.isNil = true then some nil
            else
              (needsMove r1).bind fun move =>
                if move = true then
                  (MoveRedRight (node k1 vs1 c1 l1 r1)).bind fun y =>
                    match y with
                    | nil => none
                    | node k2 vs2 c2 l2 r2 =>
                      (if key = k2 then
                          (Min r2).bind fun n_min =>
                            match n_min with
                            | nil => none
                            | node mk mvs _ _ _ =>
                              (DeleteMin fuel r2).bind fun r => FixUp (node mk mvs c2 l2 r)
                        else (Remove fuel r2 key).bind fun r => FixUp (node k2 vs2 c2 l2 r))
                else
                  (if key = k1 then
                      (Min r1).bind fun n_min =>
                        match n_min with
                        | nil => none
                        | node mk mvs _ _ _ =>
                          (DeleteMin fuel r1).bind fun r => FixUp (node mk mvs c1 l1 r)
                    else (Remove fuel r1 key).bind fun r => FixUp (node k1 vs1 c1 l1 r))) =
            some t →
          (if key = k1 ∧ r1.isNil = true then (if l1.isNil = true then some nil else none)
            else
              (needsMove r1).bind fun move =>
                if move = true then
                  (MoveRedRight (node k1 vs1 c1 l1 r1)).bind fun y =>
                    match y with
                    | nil => none
                    | node k2 vs2 c2 l2 r2 =>
                      (if key = k2 then
                          (Min r2).bind fun n_min =>
                            match n_min with
                            | nil => none
                            | node mk mvs _ _ _ =>
                              (DeleteMin fuel r2).bind fun r => FixUp (node mk mvs c2 l2 r)
                        else (RemoveChecked fuel r2 key).bind fun r => FixUp (node k2 vs2 c2 l2 r))
                else
                  (if key = k1 then
                      (Min r1).bind fun n_min =>
                        match n_min with
                        | nil => none
                        | node mk mvs _ _ _ =>
                          (DeleteMin fuel r1).bind fun r => FixUp (node mk mvs c1 l1 r)
                    else (RemoveChecked fuel r1 key).bind fun r => FixUp (node k1 vs1 c1 l1 r))) =
            some t := by
        intro k1 vs1 c1 l1 r1 e1 h1
        by_cases hsp : key = k1 ∧ r1.isNil = true
        · simp only [if_pos hsp, Option.some.injEq] at h1 ⊢
          subst h1
          have hl1 : l1 = nil := by
            rcases l1 with _ | ⟨a, b, c', d, e⟩
            · rfl
            · simp only [size_node, size_nil] at e1 hs
              omega
          subst hl1
          simp [isNil]
        · simp only [if_neg hsp] at h1 ⊢
          cases hm : needsMove r1 with
          | none => simp [hm] at h1
          | some move =>
            simp only [hm, Option.some_bind] at h1 ⊢
            cases move with
            | false =>
              simp only [Bool.false_eq_true, if_false] at h1 ⊢
              exact tail2 k1 vs1 c1 l1 r1 e1 h1
            | true =>
              simp only [if_true] at h1 ⊢
              cases hn2 : MoveRedRight (node k1 vs1 c1 l1 r1) with
              | none => simp [hn2] at h1
              | some n2 =>
                simp only [hn2, Option.some_bind] at h1 ⊢
                have e2 := size_MoveRedRight hn2
                rcases n2 with _ | ⟨k2, vs2, c2, l2, r2⟩
                · simp at h1
                · exact tail2 k2 vs2 c2 l2 r2 (by omega) h1
      by_cases hred : IsRed l = true
      · cases hn1 : RotateRight (node k vs c l r) with
        | none => simp [Remove, hmulti, hlt, hred, hn1] at h
        | some n1 =>
          have e1 := size_RotateRight hn1
          rcases n1 with _ | ⟨k1, vs1, c1, l1, r1⟩
          · simp [Remove, hmulti, hlt, hred, hn1] at h
          · have h1 := tail1 k1 vs1 c1 l1 r1 e1.symm (by
              simpa [Remove, hmulti, hlt, hred, hn1] using h)
            simpa [RemoveChecked, hmulti, hlt, hred, hn1] using h1
      · have h1 := tail1 k vs c l r rfl (by
          simpa [Remove, hmulti, hlt, hred] using h)
        simpa [RemoveChecked, hmulti, hlt, hred] using h1

end Node
end LLRB

namespace LLRB
namespace Node
variable {K V : Type} [LinearOrder K]

theorem removeList_length_ge (key : K) : ∀ (xs : List (K × List V)),
    (xs.map Prod.fst).Pairwise (fun a b => a < b) →
    xs.length ≤ (removeList key xs).length + 1 := by
  intro xs
  induction xs with
  | nil => intro _; simp
  | cons e rest ih =>
    intro hs
    obtain ⟨k, vs⟩ := e
    by_cases hk : k = key
    · subst hk
      by_cases hv : vs.length > 1
      · rw [removeList_head_multi hs hv]
        simp
      · rw [removeList_head_single hs hv]
        simp
    · have hrest : (rest.map Prod.fst).Pairwise (fun a b => a < b) := by
        simp only [List.map_cons, List.pairwise_cons] at hs
        exact hs.2
      have : removeList key ((k, vs) :: rest) = (k, vs) :: removeList key rest := by
        simp [removeList, removeEntry, hk]
      rw [this]
      have := ih hrest
      simp only [List.length_cons]
      omega

end Node

namespace LLRB_multimap
open Node
variable {K V : Type} [LinearOrder K]

/-- C25: on every reachable container and every key present in it, the recursive
`Remove` with every child access and every rotation, colour flip, `Min` and `DeleteMin`
returning an option, and with the splice failing on a node that still has a left child,
returns a subtree; it is the subtree the unwatched `Remove` returns, and the public
`Remove` returns the container with that subtree, its root painted black. -/
theorem C25_remove_reads_only_existing_nodes (m : LLRB_multimap K V) (hm : Reachable m)
    (key : K) (hc : Contains m key = true) :
    ∃ res, Node.RemoveChecked (size m.root) m.root key = some res ∧
      Node.Remove (size m.root) m.root key = some res ∧
      Remove m key = some ⟨paintBlack res, (m.cur_size + uintMod - 1) % uintMod⟩ := by
  have hi := Inv_of_Reachable hm
  have hk := (Contains_iff_mem hi.2.1 key).1 hc
  obtain ⟨res, h1, -, h3⟩ := Remove_root m.root key hi.1 hi.2.1 hi.2.2.1 hk
  have hsz : size m.root ≤ size res + 1 := by
    rw [size_eq_length, size_eq_length, ← inorder_paintBlack res, h3]
    exact removeList_length_ge key _ hi.2.1
  refine ⟨res, RemoveChecked_of_size _ _ _ _ h1 hsz, h1, ?_⟩
  unfold Remove
  rw [hc]
  cases res <;> simp [h1, paintBlack]

/-- Witness for C25: removing the root key 5 of the container holding 3, 5 and 8, which
goes through `MoveRedRight`, `Min`, `DeleteMin` and `FixUp`. -/
theorem C25_remove_reads_only_existing_nodes_witness :
    Reachable Examples.three ∧ Contains Examples.three 5 = true ∧
    ∃ res, Node.RemoveChecked (size Examples.three.root) Examples.three.root 5 = some res ∧
      Node.Remove (size Examples.three.root) Examples.three.root 5 = some res ∧
      Remove Examples.three 5 =
        some ⟨paintBlack res, (Examples.three.cur_size + uintMod - 1) % uintMod⟩ :=
  ⟨Reachable.insert 8 3 (Reachable.insert 3 2 (Reachable.insert 5 1 Reachable.empty rfl) rfl) rfl,
   rfl,
   C25_remove_reads_only_existing_nodes Examples.three
     (Reachable.insert 8 3 (Reachable.insert 3 2 (Reachable.insert 5 1 Reachable.empty rfl) rfl)
       rfl) 5 rfl⟩

end LLRB_multimap
end LLRB

namespace LLRB
namespace LLRB_multimap
open Node
variable {K V : Type} [LinearOrder K]

/-- The watched splice does fail where a left child would be dropped: a node outside the
reachable trees. -/
theorem RemoveChecked_watches_splice :
    Node.Remove 2 (node 5 [1] Color.RED (node 3 [2] Color.BLACK nil nil) nil : Node Nat Nat) 5 =
        some nil ∧
      Node.RemoveChecked 2
        (node 5 [1] Color.RED (node 3 [2] Color.BLACK nil nil) nil : Node Nat Nat) 5 = none :=
  ⟨rfl, rfl⟩

/-- An equal-key `Insert` on a one-node container appends the value and adds one to the
counter. -/
theorem Insert_same_key (k : K) (vs : List V) (v : V) (s : Nat) :
    Insert ⟨node k vs Color.BLACK nil nil, s⟩ k v =
      some ⟨node k (vs ++ [v]) Color.BLACK nil nil, (s + 1) % uintMod⟩ := by
  simp [Insert, Node.Insert, FixUp_keep]

/-- Repeated `Insert` of one key into a one-node container. -/
theorem insertAll_same_key (k : K) (v : V) : ∀ (n : Nat) (vs : List V) (s : Nat),
    s < uintMod →
    insertAll (List.replicate n (k, v)) ⟨node k vs Color.BLACK nil nil, s⟩ =
      some ⟨node k (vs ++ List.replicate n v) Color.BLACK nil nil, (s + n) % uintMod⟩ := by
  intro n
  induction n with
  | zero =>
    intro vs s hs
    simp [insertAll, Nat.mod_eq_of_lt hs]
  | succ n ih =>
    intro vs s hs
    simp only [List.replicate_succ, insertAll, Insert_same_key, Option.some_bind]
    rw [ih (vs ++ [v]) ((s + 1) % uintMod) (Nat.mod_lt _ (by simp [uintMod]))]
    have e : ((s + 1) % uintMod + n) % uintMod = (s + (n + 1)) % uintMod := by
      rw [Nat.add_mod, Nat.mod_mod, ← Nat.add_mod]
      congr 1
      omega
    simp [e]

/-- Repeated `Insert` of one key into the empty container. -/
theorem insertAll_same_key_empty (k : K) (v : V) (n : Nat) (hn : 0 < n) :
    insertAll (List.replicate n (k, v)) (empty : LLRB_multimap K V) =
      some ⟨node k (List.replicate n v) Color.BLACK nil nil, n % uintMod⟩ := by
  obtain ⟨n', rfl⟩ : ∃ n', n = n' + 1 := ⟨n - 1, by omega⟩
  have h1 : Insert (empty : LLRB_multimap K V) k v =
      some ⟨node k [v] Color.BLACK nil nil, 1 % uintMod⟩ := by
    simp [Insert, empty, Node.Insert, FixUp_keep]
  simp only [List.replicate_succ, insertAll, h1, Option.some_bind]
  rw [insertAll_same_key k v n' [v] (1 % uintMod) (Nat.mod_lt _ (by simp [uintMod]))]
  have e : (1 % uintMod + n') % uintMod = (n' + 1) % uintMod := by
    rw [Nat.add_mod, Nat.mod_mod, ← Nat.add_mod]
    congr 1
    omega
  simp [e]

/-- A run of `Insert` calls that returns stays among the reachable containers. -/
theorem Reachable_insertAll : ∀ (kvs : List (K × V)) (m m' : LLRB_multimap K V),
    Reachable m → insertAll kvs m = some m' → Reachable m' := by
  intro kvs
  induction kvs with
  | nil =>
    intro m m' hm h
    simp only [insertAll, Option.some.injEq] at h
    exact h ▸ hm
  | cons e rest ih =>
    intro m m' hm h
    obtain ⟨key, value⟩ := e
    cases hi : Insert m key value with
    | none => simp [insertAll, hi] at h
    | some m1 =>
      simp only [insertAll, hi, Option.some_bind] at h
      exact ih m1 m' (Reachable.insert key value hm hi) h

/-- `Remove` of the key of a one-node container that holds several values. -/
theorem Remove_same_key (k : K) (vs : List V) (s : Nat) (h : 1 < vs.length) :
    Remove ⟨node k vs Color.BLACK nil nil, s⟩ k =
      some ⟨node k vs.tail Color.BLACK nil nil, (s + uintMod - 1) % uintMod⟩ := by
  have hc : Contains (⟨node k vs Color.BLACK nil nil, s⟩ : LLRB_multimap K V) k = true := by
    simp [Contains, Node.Get]
  have hr : Node.Remove (size (node k vs Color.BLACK nil nil)) (node k vs Color.BLACK nil nil) k =
      some (node k vs.tail Color.BLACK nil nil) := by
    show Node.Remove (0 + 1) _ _ = _
    simp [Node.Remove, h, dropFront_spec vs h]
  have hr1 : Node.Remove 1 (node k vs Color.BLACK nil nil) k =
      some (node k vs.tail Color.BLACK nil nil) := hr
  unfold Remove
  rw [hc]
  simp [hr1]

/-- C26 (counterexample): after `uintMod` calls `Insert(0, 0)` on the empty container the
tree stores `uintMod` values while `Size()` is 0; the next `Remove(0)` takes the counter
from 0 to `uintMod - 1`. -/
theorem C26_size_wraps_around :
    ∃ m m' : LLRB_multimap Nat Nat,
      insertAll (List.replicate uintMod (0, 0)) empty = some m ∧ Reachable m ∧
      totalValues m.root = uintMod ∧ Size m = 0 ∧ Size m ≠ totalValues m.root ∧
      Remove m 0 = some m' ∧ Size m' = uintMod - 1 := by
  have hpos : 0 < uintMod := by simp [uintMod]
  have h1 := insertAll_same_key_empty (0 : Nat) (0 : Nat) uintMod hpos
  rw [Nat.mod_self] at h1
  have hbig : 1 < uintMod := by simp [uintMod, uintBits]
  have hlen : 1 < (List.replicate uintMod (0 : Nat)).length := by
    rw [List.length_replicate]
    exact hbig
  have h2 := Remove_same_key (0 : Nat) (List.replicate uintMod (0 : Nat)) 0 hlen
  have ht : totalValues (node 0 (List.replicate uintMod (0 : Nat)) Color.BLACK nil nil :
      Node Nat Nat) = uintMod := by
    rw [totalValues_one_node, List.length_replicate]
  refine ⟨_, _, h1, Reachable_insertAll _ _ _ Reachable.empty h1, ht, rfl, ?_, h2, ?_⟩
  · show 0 ≠ totalValues (node 0 (List.replicate uintMod (0 : Nat)) Color.BLACK nil nil :
      Node Nat Nat)
    rw [ht]
    exact Nat.ne_of_lt hpos
  · show (0 + uintMod - 1) % uintMod = uintMod - 1
    rw [Nat.zero_add]
    exact Nat.mod_eq_of_lt (Nat.sub_lt hpos Nat.one_pos)

/-- C26 (amended): on every reachable container `Size()` is the number of stored values
modulo the range of the counter, hence equal to it while fewer than `uintMod` values are
stored; the number of stored values is 0 on the empty tree and the length of `GetAll()`
on a non-empty one; and while fewer than `uintMod` values are stored, a `Remove` of a
present key finds the counter positive and subtracts one without wrapping. -/
theorem C26_size_counts_values_mod (m : LLRB_multimap K V) (hm : Reachable m) :
    Size m = totalValues m.root % uintMod ∧
    (totalValues m.root < uintMod → Size m = totalValues m.root) ∧
    (m.root = nil → totalValues m.root = 0 ∧ Size m = 0) ∧
    (m.root ≠ nil → ∃ vs, GetAll m = .ok vs ∧ vs.length = totalValues m.root) ∧
    (∀ key, Contains m key = true → totalValues m.root < uintMod →
      ∃ m', Remove m key = some m' ∧ 0 < Size m ∧ Size m' = Size m - 1 ∧
        totalValues m'.root = totalValues m.root - 1 ∧ Size m' = totalValues m'.root) := by
  have hi := Inv_of_Reachable hm
  have hsz : Size m = totalValues m.root % uintMod := hi.2.2.2.2
  refine ⟨hsz, fun h => by rw [hsz, Nat.mod_eq_of_lt h], ?_, ?_, ?_⟩
  · intro h
    rw [hsz, h]
    exact ⟨rfl, rfl⟩
  · intro h
    cases hroot : m.root with
    | nil => exact absurd hroot h
    | node k vs c l r =>
      refine ⟨Node.GetAll (node k vs c l r), ?_, GetAll_length _⟩
      unfold GetAll
      rw [hroot]
  · intro key hc hlt
    obtain ⟨m', h1, h2, h3, h4⟩ := Remove_ok m key hi hc
    have hk := (Contains_iff_mem hi.2.1 key).1 hc
    have ht := removeList_total key (inorder m.root) hi.2.1 hi.2.2.2.1 hk
    rw [← h3, ← totalValues_eq, ← totalValues_eq] at ht
    have hs' : Size m' = totalValues m'.root % uintMod := h2.2.2.2.2
    have hsm : Size m = totalValues m.root := by rw [hsz, Nat.mod_eq_of_lt hlt]
    have hlt' : totalValues m'.root < uintMod := by omega
    rw [Nat.mod_eq_of_lt hlt'] at hs'
    exact ⟨m', h1, by omega, by omega, by omega, hs'⟩

/-- Witness for C26 on the container with two values under one key. -/
theorem C26_size_counts_values_mod_witness :
    Reachable Examples.twice ∧
    (Size Examples.twice = totalValues Examples.twice.root % uintMod ∧
    (totalValues Examples.twice.root < uintMod →
      Size Examples.twice = totalValues Examples.twice.root) ∧
    (Examples.twice.root = nil → totalValues Examples.twice.root = 0 ∧ Size Examples.twice = 0) ∧
    (Examples.twice.root ≠ nil →
      ∃ vs, GetAll Examples.twice = .ok vs ∧ vs.length = totalValues Examples.twice.root) ∧
    (∀ key, Contains Examples.twice key = true → totalValues Examples.twice.root < uintMod →
      ∃ m', Remove Examples.twice key = some m' ∧ 0 < Size Examples.twice ∧
        Size m' = Size Examples.twice - 1 ∧
        totalValues m'.root = totalValues Examples.twice.root - 1 ∧
        Size m' = totalValues m'.root)) :=
  ⟨Reachable.insert 5 2 (Reachable.insert 5 1 Reachable.empty rfl) rfl,
   C26_size_counts_values_mod Examples.twice
     (Reachable.insert 5 2 (Reachable.insert 5 1 Reachable.empty rfl) rfl)⟩

end LLRB_multimap
end LLRB
